import Mathlib

/-! Verification development for the Turing-machine simulator `src/TM.cpp`.

The file embeds the tape, the machine description, the validation pass and the
execution loop of `src/TM.cpp` as Lean functions and proves properties of them.

Modelling conventions.

* A `std::shared_ptr<T>` is modelled by the pointee together with the address it
  lives at (`addr`).  Pointer comparison (`==`, `std::set::count`) compares
  addresses only.  Pointers are never null.
* A `std::set<std::shared_ptr<T>>` is modelled by the list of its elements in
  iteration order, which is increasing address order (`ptrSet`).
* A `std::list<char>` with an iterator into it is modelled by the list of cells
  and the index of the iterator; index `length` is the past-the-end iterator.
  Dereferencing or incrementing the past-the-end iterator is undefined in C++;
  the functions return `none` there.
* `err(text, colour)` writes one line to the diagnostic stream; the line is
  modelled by a value of `Diag` and functions that call `err` return the list
  of lines they emit.
* The `while (true)` loop of `TM::run` is modelled with a fuel argument that
  bounds the number of loop iterations; `none` means that the loop did not
  return within the fuel.
-/

namespace UTM

/-! ## Constants -/

/-- The constant `ZERO` of `src/TM.cpp`. -/
def ZERO : Char := '0'
/-- The constant `ONE` of `src/TM.cpp`. -/
def ONE : Char := '1'
/-- The constant `BLANK` of `src/TM.cpp`. -/
def BLANK : Char := 'B'
/-- The constant `LEFT` of `src/TM.cpp`. -/
def LEFT : Char := 'L'
/-- The constant `RIGHT` of `src/TM.cpp`. -/
def RIGHT : Char := 'R'

/-- Exceptions thrown by the constructors: `std::invalid_argument` is the only one. -/
inductive Error where
  | invalid_argument
  deriving DecidableEq

/-- Lines written by `err`.  Each constructor stands for one call site. -/
inductive Diag where
  /-- The line "Initial state q0 not in Q". -/
  | initialStateNotInQ
  /-- The line "Accepting state not in Q". -/
  | acceptingStateNotInQ
  /-- The line "Rejecting state not in Q". -/
  | rejectingStateNotInQ
  /-- The line "Transition from state not in Q: " followed by the state name. -/
  | transitionFromNotInQ (name : String)
  /-- The line "Transition to state not in Q: " followed by the state name. -/
  | transitionToNotInQ (name : String)
  /-- The line "Invalid direction in transition: " followed by the direction. -/
  | invalidDirection (dir : Char)
  /-- The line "Invalid move direction: " followed by the direction (`Tape::move`). -/
  | invalidMoveDirection (dir : Char)
  /-- The line "No transition found from state ... reading symbol ...". -/
  | noTransition (name : String) (symbol : Char)
  /-- The line "Invalid move detected". -/
  | invalidMove
  /-- The lines of `config(current)`: tape image, state name, head position. -/
  | config (image : List Char) (name : String) (head : Nat)
  deriving DecidableEq

/-! ## States and transitions -/

/-- A `State` object together with the address at which it is allocated. -/
structure State where
  addr : Nat
  name : String
  deriving DecidableEq

/-- A `Transition` object together with the address at which it is allocated.
The source fields `from` and `to` are spelled `from_` and `to_`. -/
structure Transition where
  addr : Nat
  from_ : State
  to_ : State
  read : Char
  write : Char
  dir : Char
  deriving DecidableEq

/-- Insertion into a `std::set` of shared pointers: the elements are kept in
increasing address order and a pointer that is already present is not added. -/
def ptrInsert {α : Type} (addr : α → Nat) (x : α) : List α → List α
  | [] => [x]
  | y :: ys =>
    if addr x < addr y then x :: y :: ys
    else if addr x = addr y then y :: ys
    else y :: ptrInsert addr x ys

/-- Construction of a `std::set` of shared pointers from an initializer list. -/
def ptrSet {α : Type} (addr : α → Nat) (xs : List α) : List α :=
  xs.foldl (fun s x => ptrInsert addr x s) []

/-! ## Tape -/

/-- The class `Tape`: the cells `tape_` and the position `head_` of the iterator. -/
structure Tape where
  tape_ : List Char
  head_ : Nat
  deriving DecidableEq

namespace Tape

/-- The private member `Tape::preprocess`: throws on the first character that is
neither `ZERO` nor `ONE`. -/
def preprocess : List Char → Except Error Unit
  | [] => .ok ()
  | c :: cs =>
    if c ≠ ZERO ∧ c ≠ ONE then .error Error.invalid_argument
    else preprocess cs

/-- The constructor `Tape::Tape(const std::string&)`. -/
def new (input : List Char) : Except Error Tape :=
  match preprocess input with
  | .error e => .error e
  | .ok () => .ok ⟨input ++ [BLANK], 0⟩

/-- The default constructor `Tape::Tape()`. -/
def default : Tape := ⟨[BLANK], 0⟩

/-- The member `Tape::reset`. -/
def reset (t : Tape) : Tape := { t with head_ := 0 }

/-- The member `Tape::move`: the returned boolean, the tape afterwards and the
diagnostic lines.  Incrementing the past-the-end iterator is undefined. -/
def move (t : Tape) (dir : Char) : Option (Bool × Tape × List Diag) :=
  if dir = LEFT then
    if t.head_ = 0 then some (false, t, [])
    else some (true, { t with head_ := t.head_ - 1 }, [])
  else if dir = RIGHT then
    if t.head_ < t.tape_.length then
      if t.head_ + 1 = t.tape_.length then
        some (true, ⟨t.tape_ ++ [BLANK], t.tape_.length⟩, [])
      else some (true, { t with head_ := t.head_ + 1 }, [])
    else none
  else some (false, t, [Diag.invalidMoveDirection dir])

/-- The member `Tape::read`; undefined when the iterator is past the end. -/
def read (t : Tape) : Option Char := t.tape_[t.head_]?

/-- The member `Tape::write`; undefined when the iterator is past the end. -/
def write (t : Tape) (c : Char) : Option Tape :=
  if t.head_ < t.tape_.length then some { t with tape_ := t.tape_.set t.head_ c }
  else none

/-- The loop of `Tape::to_string` from cell index `i` on. -/
def render (head : Nat) : Nat → List Char → List Char
  | _, [] => []
  | i, c :: cs =>
    (if i = head then ['[', c, ']'] else [c]) ++ render head (i + 1) cs

/-- The member `Tape::to_string`. -/
def to_string (t : Tape) : List Char := render t.head_ 0 t.tape_

/-- The member `Tape::head_pos`. -/
def head_pos (t : Tape) : Nat := t.head_

/-- The iterator `head_` points at a cell. -/
def wf (t : Tape) : Prop := t.head_ < t.tape_.length

instance (t : Tape) : Decidable t.wf := by unfold wf; infer_instance

end Tape

/-! ## Machine -/

/-- The class `TM`. -/
structure TM where
  Q_ : List State
  q0_ : State
  qAccept_ : State
  qReject_ : State
  delta_ : List Transition
  tape_ : Tape
  deriving DecidableEq

/-- What a call of `TM::run` leaves behind: the returned boolean, the tape of
the machine afterwards and the diagnostic lines written. -/
structure RunResult where
  ret : Bool
  tape : Tape
  log : List Diag
  deriving DecidableEq

/-- The outcome of one pass through the body of the `while (true)` loop. -/
inductive Step where
  /-- The body executed `return b`. -/
  | ret (b : Bool) (tape : Tape) (log : List Diag)
  /-- The body reached its end and the loop goes round again. -/
  | next (current : State) (tape : Tape)
  /-- The body dereferenced or incremented the past-the-end iterator. -/
  | undef
  deriving DecidableEq

namespace TM

/-- The constructor `TM::TM`; the sets arrive already built. -/
def new (Q : List State) (q0 qAccept qReject : State) (delta : List Transition)
    (input : List Char) : Except Error TM :=
  if input.isEmpty then .ok ⟨Q, q0, qAccept, qReject, delta, Tape.default⟩
  else
    match Tape.new input with
    | .error e => .error e
    | .ok t => .ok ⟨Q, q0, qAccept, qReject, delta, t⟩

/-- The test `Q_.count(s)` of `valid_configuration`. -/
def inQ (Q : List State) (s : State) : Bool := Q.any (fun q => q.addr == s.addr)

/-- The `for` loop of `valid_configuration` over the transitions. -/
def checkTransitions (Q : List State) : List Transition → Bool × List Diag
  | [] => (true, [])
  | t :: ts =>
    if !inQ Q t.from_ then (false, [Diag.transitionFromNotInQ t.from_.name])
    else if !inQ Q t.to_ then (false, [Diag.transitionToNotInQ t.to_.name])
    else if t.dir ≠ LEFT ∧ t.dir ≠ RIGHT then (false, [Diag.invalidDirection t.dir])
    else checkTransitions Q ts

/-- The private member `TM::valid_configuration`: the returned boolean and the
diagnostic lines written. -/
def valid_configuration (tm : TM) : Bool × List Diag :=
  if !inQ tm.Q_ tm.q0_ then (false, [Diag.initialStateNotInQ])
  else if !inQ tm.Q_ tm.qAccept_ then (false, [Diag.acceptingStateNotInQ])
  else if !inQ tm.Q_ tm.qReject_ then (false, [Diag.rejectingStateNotInQ])
  else checkTransitions tm.Q_ tm.delta_

/-- The member `TM::config` on the tape `tape`. -/
def config (tape : Tape) (cur : State) : Diag :=
  Diag.config tape.to_string cur.name tape.head_pos

/-- The transition lookup of `TM::run`: the first transition in iteration order
with `t->from == current && t->read == symbol`. -/
def select (tm : TM) (current : State) (symbol : Char) : Option Transition :=
  tm.delta_.find? (fun t => t.from_.addr == current.addr && t.read == symbol)

/-- The body of the `while (true)` loop of `TM::run`. -/
def loopBody (tm : TM) (current : State) (tape : Tape) : Step :=
  if current.addr = tm.qAccept_.addr then Step.ret true tape []
  else if current.addr = tm.qReject_.addr then Step.ret false tape []
  else
    match tape.read with
    | none => Step.undef
    | some symbol =>
      match tm.select current symbol with
      | none =>
        Step.ret false tape [Diag.noTransition current.name symbol, config tape current]
      | some selected =>
        match tape.write selected.write with
        | none => Step.undef
        | some tape1 =>
          match tape1.move selected.dir with
          | none => Step.undef
          | some (false, tape2, log) =>
            Step.ret false tape2 (log ++ [Diag.invalidMove, config tape2 current])
          | some (true, tape2, _) => Step.next selected.to_ tape2

/-- The `while (true)` loop of `TM::run`, at most `fuel` iterations. -/
def loop (tm : TM) : Nat → State → Tape → Option RunResult
  | 0, _, _ => none
  | fuel + 1, current, tape =>
    match tm.loopBody current tape with
    | Step.ret b tape1 log => some ⟨b, tape1, log⟩
    | Step.next current1 tape1 => loop tm fuel current1 tape1
    | Step.undef => none

/-- The member `TM::run`, with at most `fuel` iterations of its loop. -/
def run (tm : TM) (fuel : Nat) : Option RunResult :=
  if tm.valid_configuration.1 = false then
    some ⟨false, tm.tape_, tm.valid_configuration.2⟩
  else loop tm fuel tm.q0_ tm.tape_.reset

/-- The machine after a call of `run` that left `r` behind: only the tape changes. -/
def after (tm : TM) (r : RunResult) : TM := { tm with tape_ := r.tape }

/-- The configuration (current state and tape) at the start of the loop iteration
reached after `k` further complete passes through the loop body, beginning with
current state `current` and tape `tape`; `none` when the loop returns earlier. -/
def stepsFrom (tm : TM) : Nat → State → Tape → Option (State × Tape)
  | 0, current, tape => some (current, tape)
  | k + 1, current, tape =>
    match tm.loopBody current tape with
    | Step.next current1 tape1 => stepsFrom tm k current1 tape1
    | _ => none

/-- The configuration at the start of loop iteration `k` of `TM::run`, counted
from 0: the loop is entered with `current = q0_` and the tape reset. -/
def configAt (tm : TM) (k : Nat) : Option (State × Tape) :=
  stepsFrom tm k tm.q0_ tm.tape_.reset

end TM

/-! ## The example machine -/

/-- The addresses the allocator hands out in `build_even_number_tm`: four
states and five transitions. -/
structure Alloc where
  q0 : Nat
  qAccept : Nat
  qReject : Nat
  X : Nat
  t1 : Nat
  t2 : Nat
  t3 : Nat
  t4 : Nat
  t5 : Nat
  deriving DecidableEq

/-- The transition initializer list of `build_even_number_tm`. -/
def even_number_delta (a : Alloc) : List Transition :=
  let q0 : State := ⟨a.q0, "q0"⟩
  let qAccept : State := ⟨a.qAccept, "qAccept"⟩
  let qReject : State := ⟨a.qReject, "qReject"⟩
  let X : State := ⟨a.X, "X"⟩
  [ ⟨a.t1, q0, q0, ZERO, ZERO, RIGHT⟩,
    ⟨a.t2, q0, q0, ONE, ONE, RIGHT⟩,
    ⟨a.t3, q0, X, BLANK, BLANK, LEFT⟩,
    ⟨a.t4, X, qReject, ONE, ONE, RIGHT⟩,
    ⟨a.t5, X, qAccept, ZERO, ZERO, RIGHT⟩ ]

/-- The function `build_even_number_tm`. -/
def build_even_number_tm (a : Alloc) (input : List Char) : Except Error (TM × List Char) :=
  let q0 : State := ⟨a.q0, "q0"⟩
  let qAccept : State := ⟨a.qAccept, "qAccept"⟩
  let qReject : State := ⟨a.qReject, "qReject"⟩
  let X : State := ⟨a.X, "X"⟩
  let Q := ptrSet State.addr [q0, qAccept, qReject, X]
  let delta := ptrSet Transition.addr (even_number_delta a)
  match TM.new Q q0 qAccept qReject delta input with
  | .error e => .error e
  | .ok tm => .ok (tm, input)

/-- The machine that `build_even_number_tm` constructs, with the tape `tape`. -/
def even_number_machine (a : Alloc) (tape : Tape) : TM :=
  ⟨ptrSet State.addr [⟨a.q0, "q0"⟩, ⟨a.qAccept, "qAccept"⟩, ⟨a.qReject, "qReject"⟩, ⟨a.X, "X"⟩],
   ⟨a.q0, "q0"⟩, ⟨a.qAccept, "qAccept"⟩, ⟨a.qReject, "qReject"⟩,
   ptrSet Transition.addr (even_number_delta a), tape⟩

/-- The addresses are those of nine distinct live objects of two kinds: the
states are pairwise distinct and so are the transitions. -/
def Alloc.distinct (a : Alloc) : Prop :=
  [a.q0, a.qAccept, a.qReject, a.X].Nodup ∧ [a.t1, a.t2, a.t3, a.t4, a.t5].Nodup

instance (a : Alloc) : Decidable a.distinct := by
  unfold Alloc.distinct; infer_instance

/-- The input of the call `build_even_number_tm` in test EvenNumber_Accept. -/
def input_EvenNumber_Accept : List Char := "0101001010100011100".toList

/-- The input of the call `build_even_number_tm` in test EvenNumber_Reject. -/
def input_EvenNumber_Reject : List Char := "0101001010100011101".toList

/-! ## Harness: repeated calls and the test machines of `main` -/

/-- The results of `k` consecutive calls `move(dir)`: the returned booleans in call
order and the tape afterwards. -/
def Tape.moves (dir : Char) : Nat → Tape → Option (List Bool × Tape)
  | 0, t => some ([], t)
  | k + 1, t =>
    match t.move dir with
    | none => none
    | some (b, t1, _) =>
      match Tape.moves dir k t1 with
      | none => none
      | some (bs, t2) => some (b :: bs, t2)

/-- Membership of a state pointer in the set `Q`: some element has its address. -/
def memQ (Q : List State) (s : State) : Prop := ∃ q ∈ Q, q.addr = s.addr

instance (Q : List State) (s : State) : Decidable (memQ Q s) := by
  unfold memQ; infer_instance

/-- The machine of Test 2 of `main` (MissingTransition): three states allocated at
the given addresses, no transition, input "0". -/
def test_MissingTransition (a0 aAccept aReject : Nat) : Except Error TM :=
  let q0 : State := ⟨a0, "q0"⟩
  let qAccept : State := ⟨aAccept, "qAccept"⟩
  let qReject : State := ⟨aReject, "qReject"⟩
  TM.new (ptrSet State.addr [q0, qAccept, qReject]) q0 qAccept qReject
    (ptrSet Transition.addr []) [ZERO]

/-- The machine of Test 3 of `main` (MoveOffLeft): three states and one transition
allocated at the given addresses, input "0". -/
def test_MoveOffLeft (a0 aAccept aReject aT : Nat) : Except Error TM :=
  let q0 : State := ⟨a0, "q0"⟩
  let qAccept : State := ⟨aAccept, "qAccept"⟩
  let qReject : State := ⟨aReject, "qReject"⟩
  TM.new (ptrSet State.addr [q0, qAccept, qReject]) q0 qAccept qReject
    (ptrSet Transition.addr [⟨aT, q0, qAccept, ZERO, ZERO, LEFT⟩]) [ZERO]

/-- The trailing-bit machine as `build_even_number_tm` builds it on the input "10"
when the allocator hands out the addresses 1 to 4 for the states and 11 to 15
for the transitions. -/
def trailing_bit_example : TM :=
  ⟨[⟨1, "q0"⟩, ⟨2, "qAccept"⟩, ⟨3, "qReject"⟩, ⟨4, "X"⟩],
   ⟨1, "q0"⟩, ⟨2, "qAccept"⟩, ⟨3, "qReject"⟩,
   [⟨11, ⟨1, "q0"⟩, ⟨1, "q0"⟩, '0', '0', 'R'⟩,
    ⟨12, ⟨1, "q0"⟩, ⟨1, "q0"⟩, '1', '1', 'R'⟩,
    ⟨13, ⟨1, "q0"⟩, ⟨4, "X"⟩, 'B', 'B', 'L'⟩,
    ⟨14, ⟨4, "X"⟩, ⟨3, "qReject"⟩, '1', '1', 'R'⟩,
    ⟨15, ⟨4, "X"⟩, ⟨2, "qAccept"⟩, '0', '0', 'R'⟩],
   ⟨['1', '0', 'B'], 0⟩⟩

/-- The machine of Test 3 of `main` as built when the allocator hands out the
addresses 0, 1, 2 for the states and 9 for the transition. -/
def move_off_left_example : TM :=
  ⟨[⟨0, "q0"⟩, ⟨1, "qAccept"⟩, ⟨2, "qReject"⟩],
   ⟨0, "q0"⟩, ⟨1, "qAccept"⟩, ⟨2, "qReject"⟩,
   [⟨9, ⟨0, "q0"⟩, ⟨1, "qAccept"⟩, '0', '0', 'L'⟩],
   ⟨['0', 'B'], 0⟩⟩

/-- The machine of Test 2 of `main` as built when the allocator hands out the
addresses 0, 1, 2 for the states. -/
def missing_transition_example : TM :=
  ⟨[⟨0, "q0"⟩, ⟨1, "qAccept"⟩, ⟨2, "qReject"⟩],
   ⟨0, "q0"⟩, ⟨1, "qAccept"⟩, ⟨2, "qReject"⟩, [], ⟨['0', 'B'], 0⟩⟩

/-- A machine that overwrites the cell it reads: (q0,0) -> (accept,1,RIGHT) and
(q0,1) -> (reject,1,RIGHT), constructed on the input "0" with the states at
the addresses 0, 1, 2 and the transitions at 10 and 11. -/
def overwrite_example : TM :=
  ⟨[⟨0, "q0"⟩, ⟨1, "qAccept"⟩, ⟨2, "qReject"⟩],
   ⟨0, "q0"⟩, ⟨1, "qAccept"⟩, ⟨2, "qReject"⟩,
   [⟨10, ⟨0, "q0"⟩, ⟨1, "qAccept"⟩, '0', '1', 'R'⟩,
    ⟨11, ⟨0, "q0"⟩, ⟨2, "qReject"⟩, '1', '1', 'R'⟩],
   ⟨['0', 'B'], 0⟩⟩

/-- A machine that runs off the right end of its input: (q0,0) -> (q0,0,RIGHT),
(q0,B) -> (q1,B,RIGHT) and (q1,B) -> (accept,B,RIGHT), constructed on the input
"0" with the states at the addresses 0 to 3 and the transitions at 10 to 12. -/
def extend_example : TM :=
  ⟨[⟨0, "q0"⟩, ⟨1, "qAccept"⟩, ⟨2, "qReject"⟩, ⟨3, "q1"⟩],
   ⟨0, "q0"⟩, ⟨1, "qAccept"⟩, ⟨2, "qReject"⟩,
   [⟨10, ⟨0, "q0"⟩, ⟨0, "q0"⟩, '0', '0', 'R'⟩,
    ⟨11, ⟨0, "q0"⟩, ⟨3, "q1"⟩, 'B', 'B', 'R'⟩,
    ⟨12, ⟨3, "q1"⟩, ⟨1, "qAccept"⟩, 'B', 'B', 'R'⟩],
   ⟨['0', 'B'], 0⟩⟩

/-- The tape `t1` is the tape `t` with blank cells appended on the right: the same
head index, the same cells, then blanks only. -/
def Tape.BlankExtension (t t1 : Tape) : Prop :=
  t1.head_ = t.head_ ∧ ∃ k, t1.tape_ = t.tape_ ++ List.replicate k BLANK

/-! ## Halting events of the step sequence -/

/-- At the start of loop iteration `k` the current state is the accept state. -/
def TM.AcceptsAt (tm : TM) (k : Nat) : Prop :=
  ∃ c t, tm.configAt k = some (c, t) ∧ c.addr = tm.qAccept_.addr

/-- At the start of loop iteration `k` the current state is the reject state (and
not the accept state, which is tested first). -/
def TM.RejectsAt (tm : TM) (k : Nat) : Prop :=
  ∃ c t, tm.configAt k = some (c, t) ∧ c.addr ≠ tm.qAccept_.addr ∧
    c.addr = tm.qReject_.addr

/-- In loop iteration `k` the current state is neither accept nor reject and no
transition matches the current state and the symbol under the head. -/
def TM.NoTransitionAt (tm : TM) (k : Nat) : Prop :=
  ∃ c t symbol, tm.configAt k = some (c, t) ∧ c.addr ≠ tm.qAccept_.addr ∧
    c.addr ≠ tm.qReject_.addr ∧ t.read = some symbol ∧ tm.select c symbol = none

/-- In loop iteration `k` the current state is neither accept nor reject, a
transition is selected and written, and its tape move returns false. -/
def TM.MoveFailsAt (tm : TM) (k : Nat) : Prop :=
  ∃ c t symbol selected t1 t2 log, tm.configAt k = some (c, t) ∧
    c.addr ≠ tm.qAccept_.addr ∧ c.addr ≠ tm.qReject_.addr ∧ t.read = some symbol ∧
    tm.select c symbol = some selected ∧ t.write selected.write = some t1 ∧
    t1.move selected.dir = some (false, t2, log)

/-! ## Harness: sequences of calls on a tape -/

/-- One call of a public member of `Tape` that changes the object. -/
inductive TapeOp where
  /-- The call `move(dir)`. -/
  | move (dir : Char)
  /-- The call `write(c)`. -/
  | write (c : Char)
  /-- The call `reset()`. -/
  | reset
  deriving DecidableEq

/-- The tape after the call `op`; `none` when the call is undefined. -/
def Tape.apply (t : Tape) : TapeOp → Option Tape
  | TapeOp.move dir =>
    match t.move dir with
    | none => none
    | some (_, t1, _) => some t1
  | TapeOp.write c => t.write c
  | TapeOp.reset => some t.reset

/-- The tape after the calls `ops`, made one after the other. -/
def Tape.applyAll (t : Tape) : List TapeOp → Option Tape
  | [] => some t
  | op :: ops =>
    match t.apply op with
    | none => none
    | some t1 => Tape.applyAll t1 ops

/-- In the sequence of calls `ops`, made one after the other from the tape `t`, no
`write` puts a symbol other than `BLANK` into the last cell of the sequence. -/
def Tape.sparesLastCell (t : Tape) : List TapeOp → Bool
  | [] => true
  | op :: ops =>
    (match op with
      | TapeOp.write c => decide (t.head_ + 1 = t.tape_.length → c = BLANK)
      | _ => true) &&
    (match t.apply op with
      | none => true
      | some t1 => Tape.sparesLastCell t1 ops)

/-- A machine whose start, accept and reject states are in Q and whose first
transition (in iteration order) has the motion 'S' while its second transition
starts in a state that is not in Q. -/
def order_example : TM :=
  ⟨[⟨0, "q0"⟩, ⟨1, "qAccept"⟩, ⟨2, "qReject"⟩],
   ⟨0, "q0"⟩, ⟨1, "qAccept"⟩, ⟨2, "qReject"⟩,
   [⟨10, ⟨0, "q0"⟩, ⟨0, "q0"⟩, '0', '0', 'S'⟩,
    ⟨11, ⟨7, "q7"⟩, ⟨0, "q0"⟩, '0', '0', 'R'⟩],
   ⟨['B'], 0⟩⟩

/-- The machine `order_example` with its two transitions allocated the other way
round, so that the one with the endpoint outside Q comes first. -/
def order_example_swapped : TM :=
  ⟨[⟨0, "q0"⟩, ⟨1, "qAccept"⟩, ⟨2, "qReject"⟩],
   ⟨0, "q0"⟩, ⟨1, "qAccept"⟩, ⟨2, "qReject"⟩,
   [⟨10, ⟨7, "q7"⟩, ⟨0, "q0"⟩, '0', '0', 'R'⟩,
    ⟨11, ⟨0, "q0"⟩, ⟨0, "q0"⟩, '0', '0', 'S'⟩],
   ⟨['B'], 0⟩⟩

/-- A machine whose start, accept and reject states are one and the same state,
on the tape "01B". -/
def accept_start_example : TM :=
  ⟨[⟨0, "q0"⟩],
   ⟨0, "q0"⟩, ⟨0, "q0"⟩, ⟨0, "q0"⟩,
   [⟨10, ⟨0, "q0"⟩, ⟨0, "q0"⟩, '0', '1', 'R'⟩],
   ⟨['0', '1', 'B'], 0⟩⟩

/-- The machine `tm` with its transition set iterated in the order `delta`. -/
def TM.withDelta (tm : TM) (delta : List Transition) : TM := { tm with delta_ := delta }

/-- The transition set has at most one transition for each pair of a from-state
and a read symbol: two transitions with the same pair are the same object. -/
def TM.deterministic (delta : List Transition) : Prop :=
  ∀ t ∈ delta, ∀ u ∈ delta, t.from_.addr = u.from_.addr → t.read = u.read → t = u

instance (delta : List Transition) : Decidable (TM.deterministic delta) := by
  unfold TM.deterministic; infer_instance

/-! ## Encoding -/

/-- The value of `INT_MAX`, the largest `int`, where `int` is 32 bits wide. -/
def INT_MAX : Nat := 2147483647

/-- The exception that `std::stoi` throws when the value does not fit an `int`. -/
inductive StoiError where
  | out_of_range
  deriving DecidableEq

/-- The match of `std::regex_search(s, m, std::regex("\\d+"))`: the leftmost
run of decimal digits, taken as long as it goes; empty when the search finds
nothing, that is when `s` has no digit. -/
def firstDigitRun (s : List Char) : List Char :=
  (s.dropWhile (fun c => !c.isDigit)).takeWhile Char.isDigit

/-- The number that a string of decimal digits denotes. -/
def digitsValue (ds : List Char) : Nat :=
  ds.foldl (fun n c => 10 * n + (c.toNat - '0'.toNat)) 0

/-- The call `std::stoi(str)` on a non-empty string of decimal digits. -/
def stoi (ds : List Char) : Except StoiError Nat :=
  if digitsValue ds ≤ INT_MAX then .ok (digitsValue ds) else .error StoiError.out_of_range

/-- The lambda `extract_index` of `TM::encode`. -/
def extract_index (s : String) : Except StoiError Nat :=
  if (firstDigitRun s.toList).isEmpty then .ok 0
  else stoi (firstDigitRun s.toList)

/-- The characters that `ss << i` appends for a non-negative `int`. -/
def int_to_chars (i : Nat) : List Char := Nat.toDigits 10 i

/-- The body of the loop of `TM::encode` from the transition `t :: ts` on; `first`
is the value of the flag of that name. -/
def encodeLoop : Bool → List Transition → Except StoiError (List Char)
  | _, [] => .ok []
  | first, t :: ts =>
    match extract_index t.from_.name with
    | .error e => .error e
    | .ok from_idx =>
      match extract_index t.to_.name with
      | .error e => .error e
      | .ok to_idx =>
        match encodeLoop false ts with
        | .error e => .error e
        | .ok rest =>
          .ok ((if first then [] else [';']) ++ int_to_chars from_idx ++ ['#'] ++ [t.read] ++
            ['#'] ++ int_to_chars to_idx ++ ['#'] ++ [t.write] ++ ['#'] ++
            [if t.dir = LEFT then '0' else '1'] ++ rest)

/-- The member `TM::encode`. -/
def TM.encode (tm : TM) : Except StoiError (List Char) := encodeLoop true tm.delta_

/-- The index that the encoding attaches to a state name, in the words of the
specification: the number denoted by the first run of digits of the name, and
0 when the name has no digit. -/
def nameIndex (name : String) : Nat := digitsValue (firstDigitRun name.toList)

/-- The string of one transition, in the words of the specification:
`fromIndex#read#toIndex#write#motionBit` with motion bit 0 for LEFT and 1
otherwise. -/
def quintuple (t : Transition) : List Char :=
  int_to_chars (nameIndex t.from_.name) ++ ['#'] ++ [t.read] ++ ['#'] ++
    int_to_chars (nameIndex t.to_.name) ++ ['#'] ++ [t.write] ++ ['#'] ++
    [if t.dir = LEFT then '0' else '1']

/-- The encoding in the words of the specification: the strings of the transitions
in iteration order, joined by ';'. -/
def encode_spec (delta : List Transition) : List Char :=
  List.intercalate [';'] (delta.map quintuple)

/-- The machine of Test 4 of `main` (Encoding): the states q0, q1 and qReject
and one transition allocated at the given addresses, input "0"; the accept
state is q1. -/
def test_Encoding (a0 a1 aReject aT : Nat) : Except Error TM :=
  let q0 : State := ⟨a0, "q0"⟩
  let q1 : State := ⟨a1, "q1"⟩
  let qAccept : State := q1
  let qReject : State := ⟨aReject, "qReject"⟩
  TM.new (ptrSet State.addr [q0, q1, qReject]) q0 qAccept qReject
    (ptrSet Transition.addr [⟨aT, q0, q1, ZERO, ONE, RIGHT⟩]) [ZERO]

/-- A machine with one transition whose from-state has a name with a run of
twenty digits. -/
def long_name_example : TM :=
  ⟨[⟨0, "q99999999999999999999"⟩, ⟨1, "qAccept"⟩, ⟨2, "qReject"⟩],
   ⟨0, "q99999999999999999999"⟩, ⟨1, "qAccept"⟩, ⟨2, "qReject"⟩,
   [⟨10, ⟨0, "q99999999999999999999"⟩, ⟨1, "qAccept"⟩, '0', '0', 'R'⟩],
   ⟨['B'], 0⟩⟩

/-! ## The original implementation `src/UTM/TM.cpp`

The original keeps the same data: states and transitions behind pointers, sets of
pointers, a `std::list<char>` with an iterator.  The types `State`, `Transition`,
`Tape` and `TM` above model it as well; `read`, `write`, `reset`, `toString` and
`headPos` are the members modelled above.  What differs is modelled here: the
constructor and `move` of `Tape`, and `run`. -/

namespace Original

/-- Lines written by `err` in `src/UTM/TM.cpp`.  Each constructor stands for one
text. -/
inductive Diag where
  /-- The line "Invalid input [Tape Constructor]". -/
  | invalidInput
  /-- The line "Invalid direction" (`Tape::move` and the validation in `run`). -/
  | invalidDirection
  /-- The line "q0 not in Q". -/
  | q0NotInQ
  /-- The line "qAccept not in Q". -/
  | qAcceptNotInQ
  /-- The line "qReject not in Q". -/
  | qRejectNotInQ
  /-- The line "Transition from not in Q". -/
  | transitionFromNotInQ
  /-- The line "Transition to not in Q". -/
  | transitionToNotInQ
  /-- The line "No transition found". -/
  | noTransitionFound
  /-- The line "Invalid move". -/
  | invalidMove
  /-- The lines of `config(current)`: tape image, state name, head position. -/
  | config (image : List Char) (name : String) (head : Nat)
  deriving DecidableEq

/-- What a call of `TM::run` of the original leaves behind. -/
structure RunResult where
  ret : Bool
  tape : Tape
  log : List Diag
  deriving DecidableEq

/-- The private member `Tape::_Preprocess`. -/
def Tape._Preprocess : List Char → Bool
  | [] => true
  | c :: cs => if c = ZERO ∨ c = ONE then Tape._Preprocess cs else false

/-- The constructor `Tape::Tape(string)`; the error value is the status of
`exit(1)`, reached after the line "Invalid input [Tape Constructor]". -/
def Tape.new (input : List Char) : Except Nat UTM.Tape :=
  if Tape._Preprocess input = false then .error 1
  else .ok ⟨input ++ [BLANK], 0⟩

/-- The member `Tape::move` of the original.  With the head on the past-the-end
iterator a right move appends a blank and then increments that iterator, which
is undefined. -/
def Tape.move (t : UTM.Tape) (dir : Char) : Option (Bool × UTM.Tape × List Diag) :=
  if dir = LEFT then
    if t.head_ = 0 then some (false, t, [])
    else some (true, { t with head_ := t.head_ - 1 }, [])
  else if dir = RIGHT then
    if t.head_ < t.tape_.length then some (true, { t with head_ := t.head_ + 1 }, [])
    else none
  else some (false, t, [Diag.invalidDirection])

/-- The results of `k` consecutive calls `move(dir)` of the original. -/
def Tape.moves (dir : Char) : Nat → UTM.Tape → Option (List Bool × UTM.Tape)
  | 0, t => some ([], t)
  | k + 1, t =>
    match Tape.move t dir with
    | none => none
    | some (b, t1, _) =>
      match Tape.moves dir k t1 with
      | none => none
      | some (bs, t2) => some (b :: bs, t2)

/-- The member `TM::config` of the original on the tape `tape`. -/
def TM.config (tape : UTM.Tape) (cur : State) : Diag :=
  Diag.config tape.to_string cur.name tape.head_pos

/-- The `for` loop over the transitions at the start of `run`: the line of the
first failing check, if any. -/
def TM.checkTransitions (Q : List State) : List Transition → Option Diag
  | [] => none
  | t :: ts =>
    if !UTM.TM.inQ Q t.from_ then some Diag.transitionFromNotInQ
    else if !UTM.TM.inQ Q t.to_ then some Diag.transitionToNotInQ
    else if t.dir ≠ LEFT ∧ t.dir ≠ RIGHT then some Diag.invalidDirection
    else TM.checkTransitions Q ts

/-- The checks at the start of `run`: the line of the first failing check, after
which `run` returns false. -/
def TM.checks (tm : UTM.TM) : Option Diag :=
  if !UTM.TM.inQ tm.Q_ tm.q0_ then some Diag.q0NotInQ
  else if !UTM.TM.inQ tm.Q_ tm.qAccept_ then some Diag.qAcceptNotInQ
  else if !UTM.TM.inQ tm.Q_ tm.qReject_ then some Diag.qRejectNotInQ
  else TM.checkTransitions tm.Q_ tm.delta_

/-- The `while` loop of `run` of the original and the `return` after it, with at
most `fuel` evaluations of the loop condition.  A missing transition is reported
and then the null pointer is dereferenced, which is undefined; a failed move is
reported and the loop goes on. -/
def TM.loop (tm : UTM.TM) : Nat → State → UTM.Tape → List Diag → Option RunResult
  | 0, _, _, _ => none
  | fuel + 1, current, tape, log =>
    if current.addr ≠ tm.qAccept_.addr ∧ current.addr ≠ tm.qReject_.addr then
      match tape.read with
      | none => none
      | some symbol =>
        match tm.select current symbol with
        | none => none
        | some t =>
          match tape.write t.write with
          | none => none
          | some tape1 =>
            match Tape.move tape1 t.dir with
            | none => none
            | some (false, tape2, mlog) =>
              TM.loop tm fuel t.to_ tape2
                (log ++ mlog ++ [Diag.invalidMove, TM.config tape2 current])
            | some (true, tape2, mlog) => TM.loop tm fuel t.to_ tape2 (log ++ mlog)
    else if current.addr = tm.qAccept_.addr then some ⟨true, tape, log⟩
    else some ⟨false, tape, log⟩

/-- The member `TM::run` of the original, with at most `fuel` evaluations of the
condition of its loop. -/
def TM.run (tm : UTM.TM) (fuel : Nat) : Option RunResult :=
  match TM.checks tm with
  | some line => some ⟨false, tm.tape_.reset, [line]⟩
  | none => TM.loop tm fuel tm.q0_ tm.tape_.reset []

/-- The constructor `TM::TM` of the original with an input string; the sets arrive
already built. -/
def TM.new (Q : List State) (q0 qAccept qReject : State) (delta : List Transition)
    (input : List Char) : Except Nat UTM.TM :=
  match Tape.new input with
  | .error e => .error e
  | .ok t => .ok ⟨Q, q0, qAccept, qReject, delta, t⟩

/-- The machine of scenario C built with the original: three states and the one
transition (q0,0) -> (accept,0,LEFT) allocated at the given addresses, input
"0". -/
def scenario_C (a0 aAccept aReject aT : Nat) : Except Nat UTM.TM :=
  let q0 : State := ⟨a0, "q0"⟩
  let qAccept : State := ⟨aAccept, "qAccept"⟩
  let qReject : State := ⟨aReject, "qReject"⟩
  TM.new (ptrSet State.addr [q0, qAccept, qReject]) q0 qAccept qReject
    (ptrSet Transition.addr [⟨aT, q0, qAccept, ZERO, ZERO, LEFT⟩]) [ZERO]

end Original

/-- A machine whose only transition is (q0,0) -> (q1,1,LEFT), constructed on the
input "01" with the states at the addresses 0 to 3 and the transition at 10. -/
def faulting_write_example : TM :=
  ⟨[⟨0, "q0"⟩, ⟨1, "qAccept"⟩, ⟨2, "qReject"⟩, ⟨3, "q1"⟩],
   ⟨0, "q0"⟩, ⟨1, "qAccept"⟩, ⟨2, "qReject"⟩,
   [⟨10, ⟨0, "q0"⟩, ⟨3, "q1"⟩, '0', '1', 'L'⟩],
   ⟨['0', '1', 'B'], 0⟩⟩

/-! ## Well-named machines -/

/-- The five items of a transition that the encoding records: from index, read
symbol, to index, write symbol and motion. -/
def Transition.fields (t : Transition) : Nat × Char × Nat × Char × Char :=
  (nameIndex t.from_.name, t.read, nameIndex t.to_.name, t.write, t.dir)

/-- A canonical decimal numeral: a non-empty string of decimal digits without
leading zeros (the numeral "0" itself apart). -/
def canonicalNumeral (ds : List Char) : Bool :=
  !ds.isEmpty && ds.all Char.isDigit && (ds.head? != some '0' || ds == ['0'])

/-- A state name of the form 'q' followed by the canonical decimal numeral of a
number within the `int` range. -/
def wellNamed (name : String) : Bool :=
  match name.toList with
  | 'q' :: ds => canonicalNumeral ds && decide (digitsValue ds ≤ INT_MAX)
  | _ => false

/-- A transition between well-named states with read and write symbols in
{0, 1, B} and a motion in {L, R}. -/
def Transition.wellNamed (t : Transition) : Bool :=
  UTM.wellNamed t.from_.name && UTM.wellNamed t.to_.name &&
  (t.read == ZERO || t.read == ONE || t.read == BLANK) &&
  (t.write == ZERO || t.write == ONE || t.write == BLANK) &&
  (t.dir == LEFT || t.dir == RIGHT)

/-- A machine over the states q0, q12 and q3 whose two transitions are allocated
at the addresses `aT` and `aT + 1`. -/
def well_named_example (aT : Nat) : TM :=
  ⟨[⟨0, "q0"⟩, ⟨1, "q12"⟩, ⟨2, "q3"⟩],
   ⟨0, "q0"⟩, ⟨1, "q12"⟩, ⟨2, "q3"⟩,
   [⟨aT, ⟨0, "q0"⟩, ⟨1, "q12"⟩, '0', 'B', 'L'⟩,
    ⟨aT + 1, ⟨1, "q12"⟩, ⟨2, "q3"⟩, 'B', '1', 'R'⟩],
   ⟨['B'], 0⟩⟩

/-! # Properties -/

/-! ## Tape: construction and motion -/

theorem Tape.preprocess_ok_iff (input : List Char) :
    Tape.preprocess input = .ok () ↔ ∀ c ∈ input, c = ZERO ∨ c = ONE := by
  induction input with
  | nil => simp [Tape.preprocess]
  | cons c cs ih =>
    unfold Tape.preprocess
    by_cases h : c ≠ ZERO ∧ c ≠ ONE
    · rw [if_pos h]
      constructor
      · intro h1; cases h1
      · intro h1
        rcases h1 c (List.mem_cons_self _ _) with h2 | h2
        · exact absurd h2 h.1
        · exact absurd h2 h.2
    · rw [if_neg h, ih]
      simp only [List.mem_cons, forall_eq_or_imp]
      constructor
      · intro h1
        refine ⟨?_, h1⟩
        by_cases h0 : c = ZERO
        · exact Or.inl h0
        · by_cases h2 : c = ONE
          · exact Or.inr h2
          · exact absurd ⟨h0, h2⟩ h
      · exact fun h1 => h1.2

theorem Tape.preprocess_error_iff (input : List Char) :
    Tape.preprocess input = .error Error.invalid_argument ↔
      ∃ c ∈ input, c ≠ ZERO ∧ c ≠ ONE := by
  induction input with
  | nil => simp [Tape.preprocess]
  | cons c cs ih =>
    unfold Tape.preprocess
    by_cases h : c ≠ ZERO ∧ c ≠ ONE
    · rw [if_pos h]
      exact ⟨fun _ => ⟨c, List.mem_cons_self _ _, h⟩, fun _ => rfl⟩
    · rw [if_neg h, ih]
      constructor
      · rintro ⟨d, hd, hd2⟩
        exact ⟨d, List.mem_cons_of_mem _ hd, hd2⟩
      · rintro ⟨d, hd, hd2⟩
        rcases List.mem_cons.1 hd with rfl | hd1
        · exact absurd hd2 h
        · exact ⟨d, hd1, hd2⟩

theorem Tape.tape_new_ok (input : List Char) (h : ∀ c ∈ input, c = ZERO ∨ c = ONE) :
    Tape.new input = .ok ⟨input ++ [BLANK], 0⟩ := by
  unfold Tape.new
  rw [(Tape.preprocess_ok_iff input).2 h]

theorem Tape.tape_new_error (input : List Char) (h : ∃ c ∈ input, c ≠ ZERO ∧ c ≠ ONE) :
    Tape.new input = .error Error.invalid_argument := by
  unfold Tape.new
  rw [(Tape.preprocess_error_iff input).2 h]

theorem TM.tm_new_ok (Q : List State) (q0 qAccept qReject : State) (delta : List Transition)
    (input : List Char) (h : ∀ c ∈ input, c = ZERO ∨ c = ONE) :
    TM.new Q q0 qAccept qReject delta input =
      .ok ⟨Q, q0, qAccept, qReject, delta, ⟨input ++ [BLANK], 0⟩⟩ := by
  unfold TM.new
  cases input with
  | nil => simp [Tape.default]
  | cons c cs => simp [Tape.tape_new_ok (c :: cs) h]

theorem TM.tm_new_error (Q : List State) (q0 qAccept qReject : State) (delta : List Transition)
    (input : List Char) (h : ∃ c ∈ input, c ≠ ZERO ∧ c ≠ ONE) :
    TM.new Q q0 qAccept qReject delta input = .error Error.invalid_argument := by
  unfold TM.new
  cases input with
  | nil => simp at h
  | cons c cs => simp [Tape.tape_new_error (c :: cs) h]

/-- Claim C8: a string over {0,1} yields the tape holding the string followed by
exactly one blank with the head at index 0, also through the `TM` constructor
(whose empty-input path uses the default `Tape` constructor); a string with any
other character makes both constructors fail with `invalid_argument`. -/
theorem C8_tape_construction (s : List Char) (Q : List State) (q0 qAccept qReject : State)
    (delta : List Transition) :
    ((∀ c ∈ s, c = '0' ∨ c = '1') →
      Tape.new s = .ok ⟨s ++ ['B'], 0⟩ ∧
      TM.new Q q0 qAccept qReject delta s =
        .ok ⟨Q, q0, qAccept, qReject, delta, ⟨s ++ ['B'], 0⟩⟩) ∧
    ((∃ c ∈ s, c ≠ '0' ∧ c ≠ '1') →
      Tape.new s = .error Error.invalid_argument ∧
      TM.new Q q0 qAccept qReject delta s = .error Error.invalid_argument) :=
  ⟨fun h => ⟨Tape.tape_new_ok s h, TM.tm_new_ok Q q0 qAccept qReject delta s h⟩,
   fun h => ⟨Tape.tape_new_error s h, TM.tm_new_error Q q0 qAccept qReject delta s h⟩⟩

/-- Witness for C8 at the inputs "01", "" and "0a1". -/
theorem C8_tape_construction_witness :
    (Tape.new ['0', '1'] = .ok ⟨['0', '1', 'B'], 0⟩ ∧
      TM.new [] ⟨0, "q0"⟩ ⟨1, "qAccept"⟩ ⟨2, "qReject"⟩ [] [] =
        .ok ⟨[], ⟨0, "q0"⟩, ⟨1, "qAccept"⟩, ⟨2, "qReject"⟩, [], ⟨['B'], 0⟩⟩) ∧
    (Tape.new ['0', 'a', '1'] = .error Error.invalid_argument ∧
      TM.new [] ⟨0, "q0"⟩ ⟨1, "qAccept"⟩ ⟨2, "qReject"⟩ [] ['0', 'a', '1'] =
        .error Error.invalid_argument) :=
  ⟨⟨((C8_tape_construction ['0', '1'] [] ⟨0, "q0"⟩ ⟨1, "qAccept"⟩ ⟨2, "qReject"⟩ []).1
      (by decide)).1,
    ((C8_tape_construction [] [] ⟨0, "q0"⟩ ⟨1, "qAccept"⟩ ⟨2, "qReject"⟩ []).1
      (by decide)).2⟩,
   (C8_tape_construction ['0', 'a', '1'] [] ⟨0, "q0"⟩ ⟨1, "qAccept"⟩ ⟨2, "qReject"⟩ []).2
      (by decide)⟩

theorem Tape.move_left_at_origin (t : Tape) (h : t.head_ = 0) :
    t.move LEFT = some (false, t, []) := by
  simp [Tape.move, h]

/-- Claim C9: on a tape whose head is at index 0, `move(LEFT)` returns false and
leaves the head index at 0 and the cells unchanged; freshly constructed and
freshly reset tapes are such tapes. -/
theorem C9_move_left_at_origin (t : Tape) (h : t.head_ = 0) :
    (∃ t1, t.move LEFT = some (false, t1, []) ∧ t1.head_ = 0 ∧ t1.tape_ = t.tape_) ∧
    (∀ s t0, Tape.new s = .ok t0 → t0.move LEFT = some (false, t0, [])) ∧
    Tape.default.move LEFT = some (false, Tape.default, []) ∧
    (∀ t0 : Tape, t0.reset.move LEFT = some (false, t0.reset, [])) := by
  refine ⟨⟨t, Tape.move_left_at_origin t h, h, rfl⟩, ?_, ?_, ?_⟩
  · intro s t0 h0
    apply Tape.move_left_at_origin
    unfold Tape.new at h0
    split at h0
    · cases h0
    · cases h0; rfl
  · exact Tape.move_left_at_origin _ rfl
  · intro t0
    exact Tape.move_left_at_origin _ rfl

/-- Witness for C9 at the tape "01B" with the head at index 0. -/
theorem C9_move_left_at_origin_witness :
    ∃ t1, (⟨['0', '1', 'B'], 0⟩ : Tape).move LEFT = some (false, t1, []) ∧
      t1.head_ = 0 ∧ t1.tape_ = ['0', '1', 'B'] :=
  (C9_move_left_at_origin ⟨['0', '1', 'B'], 0⟩ rfl).1

theorem Tape.moves_right (k : Nat) (t : Tape) (h : t.head_ < t.tape_.length) :
    Tape.moves RIGHT k t = some (List.replicate k true,
      ⟨t.tape_ ++ List.replicate (t.head_ + k + 1 - t.tape_.length) BLANK, t.head_ + k⟩) := by
  induction k generalizing t with
  | zero =>
    have h0 : t.head_ + 0 + 1 - t.tape_.length = 0 := by omega
    simp [Tape.moves, h0]
  | succ k ih =>
    have hRL : RIGHT ≠ LEFT := by decide
    unfold Tape.moves
    by_cases he : t.head_ + 1 = t.tape_.length
    · have hm : t.move RIGHT = some (true, ⟨t.tape_ ++ [BLANK], t.tape_.length⟩, []) := by
        simp [Tape.move, hRL, h, he]
      rw [hm]
      simp only
      rw [ih ⟨t.tape_ ++ [BLANK], t.tape_.length⟩ (by simp)]
      have h1 : t.tape_.length + k + 1 - (t.tape_ ++ [BLANK]).length = k := by
        simp
      have h2 : t.head_ + (k + 1) + 1 - t.tape_.length = k + 1 := by omega
      have h3 : t.tape_.length + k = t.head_ + (k + 1) := by omega
      dsimp only
      rw [h1, h2, h3]
      simp only [List.replicate_succ, List.append_assoc, List.singleton_append]
    · have hm : t.move RIGHT = some (true, ⟨t.tape_, t.head_ + 1⟩, []) := by
        simp [Tape.move, hRL, h, he]
      rw [hm]
      simp only
      rw [ih ⟨t.tape_, t.head_ + 1⟩ (by simp; omega)]
      have h2 : t.head_ + 1 + k + 1 - t.tape_.length = t.head_ + (k + 1) + 1 - t.tape_.length := by
        omega
      have h3 : t.head_ + 1 + k = t.head_ + (k + 1) := by omega
      dsimp only
      rw [h2, h3]
      simp only [List.replicate_succ]

/-- Claim C10: on the tape freshly constructed from an input `w` over {0,1} of
length `n`, `k` consecutive calls `move(RIGHT)` all return true; afterwards the
head index is `k`, the sequence length is `max (n+1) (k+1)`, the first `n+1`
cells are those of the fresh tape and every cell past them is blank. -/
theorem C10_right_extension (w : List Char) (k : Nat) (hw : ∀ c ∈ w, c = '0' ∨ c = '1') :
    ∃ t0 bs t, Tape.new w = .ok t0 ∧ Tape.moves RIGHT k t0 = some (bs, t) ∧
      bs.length = k ∧ (∀ b ∈ bs, b = true) ∧
      t.head_ = k ∧
      t.tape_.length = max (w.length + 1) (k + 1) ∧
      t.tape_.take (w.length + 1) = t0.tape_ ∧
      t0.tape_ = w ++ ['B'] ∧
      ∀ i, w.length + 1 ≤ i → i < t.tape_.length → t.tape_[i]? = some 'B' := by
  have hwf : (⟨w ++ [BLANK], 0⟩ : Tape).head_ < (⟨w ++ [BLANK], 0⟩ : Tape).tape_.length := by
    simp
  refine ⟨⟨w ++ [BLANK], 0⟩, _, _, Tape.tape_new_ok w hw, Tape.moves_right k _ hwf, ?_, ?_, ?_, ?_, ?_,
    rfl, ?_⟩
  · simp
  · intro b hb
    exact (List.mem_replicate.1 hb).2
  · simp
  · simp only [List.length_append, List.length_replicate, List.length_singleton]
    omega
  · have hl : (w ++ [BLANK]).length = w.length + 1 := by simp
    rw [← hl, List.take_left]
  · intro i hi1 hi2
    dsimp only at hi2 ⊢
    simp only [List.length_append, List.length_replicate, List.length_singleton] at hi2
    rw [List.getElem?_append_right (by simp only [List.length_append, List.length_singleton]; omega)]
    rw [List.getElem?_replicate]
    simp only [List.length_append, List.length_singleton]
    rw [if_pos (by omega)]
    rfl

/-- Witness for C10 at the input "01" and five moves. -/
theorem C10_right_extension_witness :
    ∃ t0 bs t, Tape.new ['0', '1'] = .ok t0 ∧ Tape.moves RIGHT 5 t0 = some (bs, t) ∧
      bs.length = 5 ∧ (∀ b ∈ bs, b = true) ∧
      t.head_ = 5 ∧
      t.tape_.length = max (['0', '1'].length + 1) (5 + 1) ∧
      t.tape_.take (['0', '1'].length + 1) = t0.tape_ ∧
      t0.tape_ = ['0', '1'] ++ ['B'] ∧
      ∀ i, ['0', '1'].length + 1 ≤ i → i < t.tape_.length → t.tape_[i]? = some 'B' :=
  C10_right_extension ['0', '1'] 5 (by decide)

/-! ## Validation -/

theorem TM.inQ_iff (Q : List State) (s : State) : TM.inQ Q s = true ↔ memQ Q s := by
  simp [TM.inQ, memQ, List.any_eq_true]

theorem TM.inQ_false_iff (Q : List State) (s : State) : TM.inQ Q s = false ↔ ¬ memQ Q s := by
  rw [← TM.inQ_iff, Bool.not_eq_true]

theorem TM.checkTransitions_true_iff (Q : List State) (l : List Transition) :
    (TM.checkTransitions Q l).1 = true ↔
      ∀ t ∈ l, memQ Q t.from_ ∧ memQ Q t.to_ ∧ (t.dir = LEFT ∨ t.dir = RIGHT) := by
  induction l with
  | nil => simp [TM.checkTransitions]
  | cons t ts ih =>
    unfold TM.checkTransitions
    simp only [List.mem_cons, forall_eq_or_imp]
    by_cases h1 : TM.inQ Q t.from_ = true
    · by_cases h2 : TM.inQ Q t.to_ = true
      · by_cases h3 : t.dir ≠ LEFT ∧ t.dir ≠ RIGHT
        · simp only [h1, h2, Bool.not_true, if_pos h3, Bool.false_eq_true, if_false, false_iff]
          rintro ⟨⟨_, _, h4 | h4⟩, _⟩
          · exact h3.1 h4
          · exact h3.2 h4
        · simp only [h1, h2, Bool.not_true, if_neg h3, Bool.false_eq_true, if_false]
          rw [ih]
          have h4 : t.dir = LEFT ∨ t.dir = RIGHT := by
            by_cases h5 : t.dir = LEFT
            · exact Or.inl h5
            · by_cases h6 : t.dir = RIGHT
              · exact Or.inr h6
              · exact absurd ⟨h5, h6⟩ h3
          exact ⟨fun h => ⟨⟨(TM.inQ_iff _ _).1 h1, (TM.inQ_iff _ _).1 h2, h4⟩, h⟩, fun h => h.2⟩
      · have h2f : TM.inQ Q t.to_ = false := by simpa using h2
        simp only [h1, h2f, Bool.not_true, Bool.not_false, Bool.false_eq_true, if_false, if_true,
          false_iff]
        rintro ⟨⟨_, h4, _⟩, _⟩
        exact h2 ((TM.inQ_iff _ _).2 h4)
    · have h1f : TM.inQ Q t.from_ = false := by simpa using h1
      simp only [h1f, Bool.not_false, if_true, Bool.false_eq_true, false_iff]
      rintro ⟨⟨h4, _⟩, _⟩
      exact h1 ((TM.inQ_iff _ _).2 h4)

theorem TM.valid_configuration_true_iff (tm : TM) :
    tm.valid_configuration.1 = true ↔
      memQ tm.Q_ tm.q0_ ∧ memQ tm.Q_ tm.qAccept_ ∧ memQ tm.Q_ tm.qReject_ ∧
      ∀ t ∈ tm.delta_, memQ tm.Q_ t.from_ ∧ memQ tm.Q_ t.to_ ∧
        (t.dir = LEFT ∨ t.dir = RIGHT) := by
  unfold TM.valid_configuration
  by_cases h1 : TM.inQ tm.Q_ tm.q0_ = true
  · by_cases h2 : TM.inQ tm.Q_ tm.qAccept_ = true
    · by_cases h3 : TM.inQ tm.Q_ tm.qReject_ = true
      · simp only [h1, h2, h3, Bool.not_true, Bool.false_eq_true, if_false]
        rw [TM.checkTransitions_true_iff]
        exact ⟨fun h => ⟨(TM.inQ_iff _ _).1 h1, (TM.inQ_iff _ _).1 h2, (TM.inQ_iff _ _).1 h3, h⟩,
          fun h => h.2.2.2⟩
      · have h3f : TM.inQ tm.Q_ tm.qReject_ = false := by simpa using h3
        simp only [h1, h2, h3f, Bool.not_true, Bool.not_false, Bool.false_eq_true, if_false,
          if_true, false_iff]
        rintro ⟨_, _, h4, _⟩
        exact h3 ((TM.inQ_iff _ _).2 h4)
    · have h2f : TM.inQ tm.Q_ tm.qAccept_ = false := by simpa using h2
      simp only [h1, h2f, Bool.not_true, Bool.not_false, Bool.false_eq_true, if_false, if_true,
        false_iff]
      rintro ⟨_, h4, _⟩
      exact h2 ((TM.inQ_iff _ _).2 h4)
  · have h1f : TM.inQ tm.Q_ tm.q0_ = false := by simpa using h1
    simp only [h1f, Bool.not_false, if_true, Bool.false_eq_true, false_iff]
    rintro ⟨h4, _⟩
    exact h1 ((TM.inQ_iff _ _).2 h4)

theorem TM.run_of_invalid (tm : TM) (h : tm.valid_configuration.1 = false) (fuel : Nat) :
    tm.run fuel = some ⟨false, tm.tape_, tm.valid_configuration.2⟩ := by
  unfold TM.run
  rw [if_pos h]

theorem TM.run_of_valid (tm : TM) (h : tm.valid_configuration.1 = true) (fuel : Nat) :
    tm.run fuel = tm.loop fuel tm.q0_ tm.tape_.reset := by
  unfold TM.run
  rw [if_neg (by simp [h])]

/-- Claim C6: `valid_configuration` returns true exactly when q0, accept and
reject are members of Q and every transition has its endpoints in Q and its
motion in {LEFT, RIGHT}; when it returns false, `run` returns false and the tape
(cells and head index) is exactly the tape before the call. -/
theorem C6_validation (tm : TM) :
    (tm.valid_configuration.1 = true ↔
      memQ tm.Q_ tm.q0_ ∧ memQ tm.Q_ tm.qAccept_ ∧ memQ tm.Q_ tm.qReject_ ∧
      ∀ t ∈ tm.delta_, memQ tm.Q_ t.from_ ∧ memQ tm.Q_ t.to_ ∧
        (t.dir = 'L' ∨ t.dir = 'R')) ∧
    (tm.valid_configuration.1 = false →
      ∀ fuel, ∃ r, tm.run fuel = some r ∧ r.ret = false ∧
        r.tape.tape_ = tm.tape_.tape_ ∧ r.tape.head_ = tm.tape_.head_) :=
  ⟨TM.valid_configuration_true_iff tm,
   fun h fuel => ⟨_, TM.run_of_invalid tm h fuel, rfl, rfl, rfl⟩⟩

/-- Witness for C6: a machine whose reject state is missing from Q, with the head
of its tape away from index 0. -/
theorem C6_validation_witness :
    ∃ r, (⟨[⟨0, "q0"⟩, ⟨1, "qAccept"⟩], ⟨0, "q0"⟩, ⟨1, "qAccept"⟩, ⟨2, "qReject"⟩, [],
        ⟨['0', '1', 'B'], 2⟩⟩ : TM).run 0 = some r ∧ r.ret = false ∧
      r.tape.tape_ = ['0', '1', 'B'] ∧ r.tape.head_ = 2 :=
  (C6_validation ⟨[⟨0, "q0"⟩, ⟨1, "qAccept"⟩], ⟨0, "q0"⟩, ⟨1, "qAccept"⟩, ⟨2, "qReject"⟩, [],
        ⟨['0', '1', 'B'], 2⟩⟩).2 (by decide) 0

/-- Claim C7: validation reports the first violation in the order start state,
accept state, reject state, transitions: a start state outside Q is reported
whatever else is wrong; otherwise an accept state outside Q is reported; otherwise
a reject state outside Q is reported, whatever the transitions are. -/
theorem C7_validation_order (tm : TM) :
    (¬ memQ tm.Q_ tm.q0_ → tm.valid_configuration = (false, [Diag.initialStateNotInQ])) ∧
    (memQ tm.Q_ tm.q0_ → ¬ memQ tm.Q_ tm.qAccept_ →
      tm.valid_configuration = (false, [Diag.acceptingStateNotInQ])) ∧
    (memQ tm.Q_ tm.q0_ → memQ tm.Q_ tm.qAccept_ → ¬ memQ tm.Q_ tm.qReject_ →
      tm.valid_configuration = (false, [Diag.rejectingStateNotInQ])) := by
  refine ⟨?_, ?_, ?_⟩
  · intro h1
    unfold TM.valid_configuration
    simp [(TM.inQ_false_iff _ _).2 h1]
  · intro h1 h2
    unfold TM.valid_configuration
    simp [(TM.inQ_iff _ _).2 h1, (TM.inQ_false_iff _ _).2 h2]
  · intro h1 h2 h3
    unfold TM.valid_configuration
    simp [(TM.inQ_iff _ _).2 h1, (TM.inQ_iff _ _).2 h2, (TM.inQ_false_iff _ _).2 h3]

/-- Witness for C7: the start state is missing from Q, and so are the accept state,
the reject state and an endpoint of a transition whose motion is also invalid. -/
theorem C7_validation_order_witness :
    (⟨[⟨7, "q7"⟩], ⟨0, "q0"⟩, ⟨1, "qAccept"⟩, ⟨2, "qReject"⟩,
        [⟨9, ⟨3, "q3"⟩, ⟨7, "q7"⟩, '0', '0', 'S'⟩], ⟨['B'], 0⟩⟩ : TM).valid_configuration =
      (false, [Diag.initialStateNotInQ]) :=
  (C7_validation_order ⟨[⟨7, "q7"⟩], ⟨0, "q0"⟩, ⟨1, "qAccept"⟩, ⟨2, "qReject"⟩,
        [⟨9, ⟨3, "q3"⟩, ⟨7, "q7"⟩, '0', '0', 'S'⟩], ⟨['B'], 0⟩⟩).1 (by decide)

/-! ## The execution loop -/

theorem TM.loop_succ (tm : TM) (fuel : Nat) (c : State) (t : Tape) :
    tm.loop (fuel + 1) c t =
      match tm.loopBody c t with
      | Step.ret b tape1 log => some ⟨b, tape1, log⟩
      | Step.next current1 tape1 => tm.loop fuel current1 tape1
      | Step.undef => none := rfl

theorem TM.stepsFrom_succ (tm : TM) (k : Nat) (c : State) (t : Tape) :
    tm.stepsFrom (k + 1) c t =
      match tm.loopBody c t with
      | Step.next current1 tape1 => tm.stepsFrom k current1 tape1
      | _ => none := rfl

theorem TM.loop_of_stepsFrom (tm : TM) (k f : Nat) (c : State) (t : Tape) (c1 : State)
    (t1 : Tape) (h : tm.stepsFrom k c t = some (c1, t1)) :
    tm.loop (k + f) c t = tm.loop f c1 t1 := by
  induction k generalizing c t with
  | zero =>
    simp only [TM.stepsFrom, Option.some.injEq, Prod.mk.injEq] at h
    rw [h.1, h.2, Nat.zero_add]
  | succ k ih =>
    unfold TM.stepsFrom at h
    have e : k + 1 + f = (k + f) + 1 := by omega
    rw [e, TM.loop_succ]
    cases hb : tm.loopBody c t with
    | ret b t2 log => rw [hb] at h; cases h
    | undef => rw [hb] at h; cases h
    | next c2 t2 =>
      rw [hb] at h
      exact ih c2 t2 h

theorem TM.loop_eq_some (tm : TM) (fuel : Nat) (c : State) (t : Tape) (r : RunResult)
    (h : tm.loop fuel c t = some r) :
    ∃ k c1 t1, k < fuel ∧ tm.stepsFrom k c t = some (c1, t1) ∧
      tm.loopBody c1 t1 = Step.ret r.ret r.tape r.log := by
  induction fuel generalizing c t with
  | zero => simp [TM.loop] at h
  | succ fuel ih =>
    unfold TM.loop at h
    cases hb : tm.loopBody c t with
    | ret b t2 log =>
      rw [hb] at h
      simp only [Option.some.injEq] at h
      subst h
      exact ⟨0, c, t, Nat.succ_pos _, rfl, hb⟩
    | undef => rw [hb] at h; cases h
    | next c2 t2 =>
      rw [hb] at h
      obtain ⟨k, c1, t1, hk, hs, hl⟩ := ih c2 t2 h
      refine ⟨k + 1, c1, t1, Nat.succ_lt_succ hk, ?_, hl⟩
      unfold TM.stepsFrom
      rw [hb]
      exact hs

theorem TM.stepsFrom_none_after (tm : TM) (k : Nat) (c : State) (t : Tape) (c1 : State)
    (t1 : Tape) (h : tm.stepsFrom k c t = some (c1, t1))
    (hb : ∀ c2 t2, tm.loopBody c1 t1 ≠ Step.next c2 t2) :
    ∀ j, k < j → tm.stepsFrom j c t = none := by
  induction k generalizing c t with
  | zero =>
    intro j hj
    simp only [TM.stepsFrom, Option.some.injEq, Prod.mk.injEq] at h
    obtain ⟨rfl, rfl⟩ := h
    obtain ⟨j, rfl⟩ : ∃ i, j = i + 1 := ⟨j - 1, by omega⟩
    unfold TM.stepsFrom
    cases hb1 : tm.loopBody c t with
    | ret b t2 log => rfl
    | undef => rfl
    | next c2 t2 => exact absurd hb1 (hb c2 t2)
  | succ k ih =>
    intro j hj
    obtain ⟨j, rfl⟩ : ∃ i, j = i + 1 := ⟨j - 1, by omega⟩
    unfold TM.stepsFrom at h ⊢
    cases hb1 : tm.loopBody c t with
    | ret b t2 log => rfl
    | undef => rfl
    | next c2 t2 =>
      rw [hb1] at h
      exact ih c2 t2 h j (by omega)

theorem TM.halting_step_unique (tm : TM) (c : State) (t : Tape) (k1 k2 : Nat)
    (c1 c2 : State) (t1 t2 : Tape)
    (h1 : tm.stepsFrom k1 c t = some (c1, t1))
    (hb1 : ∀ c3 t3, tm.loopBody c1 t1 ≠ Step.next c3 t3)
    (h2 : tm.stepsFrom k2 c t = some (c2, t2))
    (hb2 : ∀ c3 t3, tm.loopBody c2 t2 ≠ Step.next c3 t3) :
    c1 = c2 ∧ t1 = t2 := by
  rcases Nat.lt_trichotomy k1 k2 with hlt | heq | hgt
  · rw [TM.stepsFrom_none_after tm k1 c t c1 t1 h1 hb1 k2 hlt] at h2
    cases h2
  · subst heq
    rw [h1] at h2
    simp only [Option.some.injEq, Prod.mk.injEq] at h2
    exact h2
  · rw [TM.stepsFrom_none_after tm k2 c t c2 t2 h2 hb2 k1 hgt] at h1
    cases h1

theorem TM.loop_of_halting_step (tm : TM) (k : Nat) (c : State) (t : Tape) (c1 : State)
    (t1 : Tape) (b : Bool) (t2 : Tape) (log : List Diag)
    (h : tm.stepsFrom k c t = some (c1, t1))
    (hb : tm.loopBody c1 t1 = Step.ret b t2 log) (fuel : Nat) (hf : k < fuel) :
    tm.loop fuel c t = some ⟨b, t2, log⟩ := by
  obtain ⟨f, rfl⟩ : ∃ f, fuel = k + (f + 1) := ⟨fuel - k - 1, by omega⟩
  rw [TM.loop_of_stepsFrom tm k (f + 1) c t c1 t1 h, TM.loop_succ, hb]

/-- The result of the loop does not depend on the fuel, once there is enough of it. -/
theorem TM.loop_fuel_irrelevant (tm : TM) (c : State) (t : Tape) (f1 f2 : Nat)
    (r1 r2 : RunResult) (h1 : tm.loop f1 c t = some r1) (h2 : tm.loop f2 c t = some r2) :
    r1 = r2 := by
  obtain ⟨k1, c1, t1, _, hs1, hl1⟩ := TM.loop_eq_some tm f1 c t r1 h1
  obtain ⟨k2, c2, t2, _, hs2, hl2⟩ := TM.loop_eq_some tm f2 c t r2 h2
  have hu := TM.halting_step_unique tm c t k1 k2 c1 c2 t1 t2 hs1
    (by intro c3 t3; rw [hl1]; simp) hs2 (by intro c3 t3; rw [hl2]; simp)
  obtain ⟨rfl, rfl⟩ := hu
  rw [hl1] at hl2
  simp only [Step.ret.injEq] at hl2
  cases r1; cases r2
  simp only at hl2
  simp only [RunResult.mk.injEq]
  exact hl2

/-- The result of `run` does not depend on the fuel, once there is enough of it. -/
theorem TM.run_fuel_irrelevant (tm : TM) (f1 f2 : Nat) (r1 r2 : RunResult)
    (h1 : tm.run f1 = some r1) (h2 : tm.run f2 = some r2) : r1 = r2 := by
  unfold TM.run at h1 h2
  by_cases hv : tm.valid_configuration.1 = false
  · rw [if_pos hv] at h1 h2
    rw [h1] at h2
    simpa using h2
  · rw [if_neg hv] at h1 h2
    exact TM.loop_fuel_irrelevant tm _ _ f1 f2 r1 r2 h1 h2

theorem TM.loopBody_accept (tm : TM) (c : State) (t : Tape)
    (h : c.addr = tm.qAccept_.addr) : tm.loopBody c t = Step.ret true t [] := by
  simp [TM.loopBody, h]

theorem TM.loopBody_reject (tm : TM) (c : State) (t : Tape)
    (h1 : c.addr ≠ tm.qAccept_.addr) (h2 : c.addr = tm.qReject_.addr) :
    tm.loopBody c t = Step.ret false t [] := by
  unfold TM.loopBody
  rw [if_neg h1, if_pos h2]

theorem TM.loopBody_noTransition (tm : TM) (c : State) (t : Tape) (symbol : Char)
    (h1 : c.addr ≠ tm.qAccept_.addr) (h2 : c.addr ≠ tm.qReject_.addr)
    (hr : t.read = some symbol) (hs : tm.select c symbol = none) :
    tm.loopBody c t =
      Step.ret false t [Diag.noTransition c.name symbol, TM.config t c] := by
  simp [TM.loopBody, h1, h2, hr, hs]

theorem TM.loopBody_moveFails (tm : TM) (c : State) (t : Tape) (symbol : Char)
    (selected : Transition) (t1 t2 : Tape) (log : List Diag)
    (h1 : c.addr ≠ tm.qAccept_.addr) (h2 : c.addr ≠ tm.qReject_.addr)
    (hr : t.read = some symbol) (hs : tm.select c symbol = some selected)
    (hw : t.write selected.write = some t1)
    (hm : t1.move selected.dir = some (false, t2, log)) :
    tm.loopBody c t = Step.ret false t2 (log ++ [Diag.invalidMove, TM.config t2 c]) := by
  simp [TM.loopBody, h1, h2, hr, hs, hw, hm]

theorem TM.loopBody_next (tm : TM) (c : State) (t : Tape) (symbol : Char)
    (selected : Transition) (t1 t2 : Tape) (log : List Diag)
    (h1 : c.addr ≠ tm.qAccept_.addr) (h2 : c.addr ≠ tm.qReject_.addr)
    (hr : t.read = some symbol) (hs : tm.select c symbol = some selected)
    (hw : t.write selected.write = some t1)
    (hm : t1.move selected.dir = some (true, t2, log)) :
    tm.loopBody c t = Step.next selected.to_ t2 := by
  simp [TM.loopBody, h1, h2, hr, hs, hw, hm]

/-- Every way in which the loop body returns. -/
theorem TM.loopBody_ret_cases (tm : TM) (c : State) (t : Tape) (b : Bool) (t3 : Tape)
    (log3 : List Diag) (h : tm.loopBody c t = Step.ret b t3 log3) :
    (b = true ∧ c.addr = tm.qAccept_.addr) ∨
    (b = false ∧ c.addr ≠ tm.qAccept_.addr ∧
      (c.addr = tm.qReject_.addr ∨
       (c.addr ≠ tm.qReject_.addr ∧ ∃ symbol, t.read = some symbol ∧
          tm.select c symbol = none) ∨
       (c.addr ≠ tm.qReject_.addr ∧ ∃ symbol selected t1 t2 log, t.read = some symbol ∧
          tm.select c symbol = some selected ∧ t.write selected.write = some t1 ∧
          t1.move selected.dir = some (false, t2, log)))) := by
  by_cases h1 : c.addr = tm.qAccept_.addr
  · rw [TM.loopBody_accept tm c t h1] at h
    simp only [Step.ret.injEq] at h
    exact Or.inl ⟨h.1.symm, h1⟩
  · by_cases h2 : c.addr = tm.qReject_.addr
    · rw [TM.loopBody_reject tm c t h1 h2] at h
      simp only [Step.ret.injEq] at h
      exact Or.inr ⟨h.1.symm, h1, Or.inl h2⟩
    · cases hr : t.read with
      | none => simp [TM.loopBody, h1, h2, hr] at h
      | some symbol =>
        cases hs : tm.select c symbol with
        | none =>
          rw [TM.loopBody_noTransition tm c t symbol h1 h2 hr hs] at h
          simp only [Step.ret.injEq] at h
          exact Or.inr ⟨h.1.symm, h1, Or.inr (Or.inl ⟨h2, symbol, rfl, hs⟩)⟩
        | some selected =>
          cases hw : t.write selected.write with
          | none => simp [TM.loopBody, h1, h2, hr, hs, hw] at h
          | some t1 =>
            cases hm : t1.move selected.dir with
            | none => simp [TM.loopBody, h1, h2, hr, hs, hw, hm] at h
            | some p =>
              obtain ⟨b1, t2, log⟩ := p
              cases b1 with
              | true =>
                rw [TM.loopBody_next tm c t symbol selected t1 t2 log h1 h2 hr hs hw hm] at h
                cases h
              | false =>
                rw [TM.loopBody_moveFails tm c t symbol selected t1 t2 log h1 h2 hr hs hw hm] at h
                simp only [Step.ret.injEq] at h
                exact Or.inr ⟨h.1.symm, h1,
                  Or.inr (Or.inr ⟨h2, symbol, selected, t1, t2, log, rfl, hs, hw, hm⟩)⟩

theorem TM.run_of_AcceptsAt (tm : TM) (hv : tm.valid_configuration.1 = true) (k : Nat)
    (h : tm.AcceptsAt k) (fuel : Nat) (hf : k < fuel) :
    ∃ r, tm.run fuel = some r ∧ r.ret = true := by
  obtain ⟨c, t, hc, ha⟩ := h
  rw [TM.run_of_valid tm hv]
  exact ⟨_, TM.loop_of_halting_step tm k _ _ c t true t [] hc (TM.loopBody_accept tm c t ha)
    fuel hf, rfl⟩

theorem TM.run_of_RejectsAt (tm : TM) (hv : tm.valid_configuration.1 = true) (k : Nat)
    (h : tm.RejectsAt k) (fuel : Nat) (hf : k < fuel) :
    ∃ r, tm.run fuel = some r ∧ r.ret = false := by
  obtain ⟨c, t, hc, ha, hr⟩ := h
  rw [TM.run_of_valid tm hv]
  exact ⟨_, TM.loop_of_halting_step tm k _ _ c t false t [] hc
    (TM.loopBody_reject tm c t ha hr) fuel hf, rfl⟩

theorem TM.run_of_NoTransitionAt (tm : TM) (hv : tm.valid_configuration.1 = true) (k : Nat)
    (h : tm.NoTransitionAt k) (fuel : Nat) (hf : k < fuel) :
    ∃ r, tm.run fuel = some r ∧ r.ret = false := by
  obtain ⟨c, t, symbol, hc, ha, hr, hread, hsel⟩ := h
  rw [TM.run_of_valid tm hv]
  exact ⟨_, TM.loop_of_halting_step tm k _ _ c t false t _ hc
    (TM.loopBody_noTransition tm c t symbol ha hr hread hsel) fuel hf, rfl⟩

theorem TM.run_of_MoveFailsAt (tm : TM) (hv : tm.valid_configuration.1 = true) (k : Nat)
    (h : tm.MoveFailsAt k) (fuel : Nat) (hf : k < fuel) :
    ∃ r, tm.run fuel = some r ∧ r.ret = false := by
  obtain ⟨c, t, symbol, selected, t1, t2, log, hc, ha, hr, hread, hsel, hw, hm⟩ := h
  rw [TM.run_of_valid tm hv]
  exact ⟨_, TM.loop_of_halting_step tm k _ _ c t false t2 _ hc
    (TM.loopBody_moveFails tm c t symbol selected t1 t2 log ha hr hread hsel hw hm) fuel hf, rfl⟩

/-- Claim C2: for a machine that passes validation, whenever `run` halts it returns
true exactly when the step sequence started from (current = q0, head = 0) reaches
current == accept, and false exactly when it reaches current == reject, a pair
without matching transition or a failed tape move first; and each of these events
makes `run` halt with that result. -/
theorem C2_run_result (tm : TM) (hv : tm.valid_configuration.1 = true) :
    (∀ fuel r, tm.run fuel = some r →
      (r.ret = true ↔ ∃ k, tm.AcceptsAt k) ∧
      (r.ret = false ↔ ∃ k, tm.RejectsAt k ∨ tm.NoTransitionAt k ∨ tm.MoveFailsAt k)) ∧
    (∀ k, tm.AcceptsAt k → ∀ fuel, k < fuel → ∃ r, tm.run fuel = some r ∧ r.ret = true) ∧
    (∀ k, tm.RejectsAt k ∨ tm.NoTransitionAt k ∨ tm.MoveFailsAt k →
      ∀ fuel, k < fuel → ∃ r, tm.run fuel = some r ∧ r.ret = false) := by
  have hacc : ∀ k, tm.AcceptsAt k → ∀ fuel, k < fuel →
      ∃ r, tm.run fuel = some r ∧ r.ret = true :=
    fun k h fuel hf => TM.run_of_AcceptsAt tm hv k h fuel hf
  have hoth : ∀ k, tm.RejectsAt k ∨ tm.NoTransitionAt k ∨ tm.MoveFailsAt k →
      ∀ fuel, k < fuel → ∃ r, tm.run fuel = some r ∧ r.ret = false := by
    intro k h fuel hf
    rcases h with h | h | h
    · exact TM.run_of_RejectsAt tm hv k h fuel hf
    · exact TM.run_of_NoTransitionAt tm hv k h fuel hf
    · exact TM.run_of_MoveFailsAt tm hv k h fuel hf
  refine ⟨?_, hacc, hoth⟩
  intro fuel r hrun
  have hloop := hrun
  rw [TM.run_of_valid tm hv] at hloop
  obtain ⟨k, c1, t1, _, hs, hl⟩ := TM.loop_eq_some tm fuel _ _ r hloop
  have hcases := TM.loopBody_ret_cases tm c1 t1 r.ret r.tape r.log hl
  constructor
  · constructor
    · intro hr
      rcases hcases with ⟨_, ha⟩ | ⟨hf, _⟩
      · exact ⟨k, c1, t1, hs, ha⟩
      · rw [hr] at hf; cases hf
    · rintro ⟨k2, h2⟩
      obtain ⟨r2, hrun2, hret2⟩ := hacc k2 h2 (k2 + 1) (Nat.lt_succ_self _)
      rw [TM.run_fuel_irrelevant tm fuel (k2 + 1) r r2 hrun hrun2]
      exact hret2
  · constructor
    · intro hr
      rcases hcases with ⟨ht, _⟩ | ⟨_, ha, h3⟩
      · rw [hr] at ht; cases ht
      · rcases h3 with h3 | ⟨h3, symbol, hread, hsel⟩ |
          ⟨h3, symbol, selected, t2, t3, log, hread, hsel, hw, hm⟩
        · exact ⟨k, Or.inl ⟨c1, t1, hs, ha, h3⟩⟩
        · exact ⟨k, Or.inr (Or.inl ⟨c1, t1, symbol, hs, ha, h3, hread, hsel⟩)⟩
        · exact ⟨k, Or.inr (Or.inr ⟨c1, t1, symbol, selected, t2, t3, log, hs, ha, h3, hread,
            hsel, hw, hm⟩)⟩
    · rintro ⟨k2, h2⟩
      obtain ⟨r2, hrun2, hret2⟩ := hoth k2 h2 (k2 + 1) (Nat.lt_succ_self _)
      rw [TM.run_fuel_irrelevant tm fuel (k2 + 1) r r2 hrun hrun2]
      exact hret2

/-! ## Pointer sets -/

theorem ptrInsert_addr_mem {α : Type} (addr : α → Nat) (x : α) (s : List α) (n : Nat) :
    (∃ z ∈ ptrInsert addr x s, addr z = n) ↔ (addr x = n ∨ ∃ z ∈ s, addr z = n) := by
  induction s with
  | nil => simp [ptrInsert]
  | cons y ys ih =>
    unfold ptrInsert
    by_cases h1 : addr x < addr y
    · rw [if_pos h1]
      simp only [List.mem_cons, exists_eq_or_imp]
    · rw [if_neg h1]
      by_cases h2 : addr x = addr y
      · rw [if_pos h2]
        simp only [List.mem_cons, exists_eq_or_imp]
        constructor
        · exact fun h => Or.inr h
        · rintro (h | h)
          · exact Or.inl (h2 ▸ h)
          · exact h
      · rw [if_neg h2]
        simp only [List.mem_cons, exists_eq_or_imp]
        rw [ih]
        tauto

theorem ptrSet_foldl_addr_mem {α : Type} (addr : α → Nat) (l acc : List α) (n : Nat) :
    (∃ z ∈ l.foldl (fun s x => ptrInsert addr x s) acc, addr z = n) ↔
      ((∃ z ∈ acc, addr z = n) ∨ ∃ z ∈ l, addr z = n) := by
  induction l generalizing acc with
  | nil => simp
  | cons x xs ih =>
    simp only [List.foldl_cons, List.mem_cons, exists_eq_or_imp]
    rw [ih, ptrInsert_addr_mem, or_assoc, or_left_comm]

theorem ptrSet_addr_mem {α : Type} (addr : α → Nat) (l : List α) (n : Nat) :
    (∃ z ∈ ptrSet addr l, addr z = n) ↔ ∃ z ∈ l, addr z = n := by
  unfold ptrSet
  rw [ptrSet_foldl_addr_mem]
  simp

theorem memQ_ptrSet (l : List State) (s : State) :
    memQ (ptrSet State.addr l) s ↔ ∃ q ∈ l, q.addr = s.addr :=
  ptrSet_addr_mem State.addr l s.addr

theorem mem_ptrInsert {α : Type} (addr : α → Nat) (x y : α) (s : List α)
    (h : y ∈ ptrInsert addr x s) : y = x ∨ y ∈ s := by
  induction s with
  | nil => simpa [ptrInsert] using h
  | cons z zs ih =>
    unfold ptrInsert at h
    by_cases h1 : addr x < addr z
    · rw [if_pos h1] at h
      simpa using h
    · rw [if_neg h1] at h
      by_cases h2 : addr x = addr z
      · rw [if_pos h2] at h
        exact Or.inr h
      · rw [if_neg h2] at h
        rcases List.mem_cons.1 h with h3 | h3
        · exact Or.inr (h3 ▸ List.mem_cons_self _ _)
        · rcases ih h3 with h4 | h4
          · exact Or.inl h4
          · exact Or.inr (List.mem_cons_of_mem _ h4)

theorem mem_ptrInsert_of_mem {α : Type} (addr : α → Nat) (x y : α) (s : List α)
    (h : y ∈ s) : y ∈ ptrInsert addr x s := by
  induction s with
  | nil => cases h
  | cons z zs ih =>
    unfold ptrInsert
    by_cases h1 : addr x < addr z
    · rw [if_pos h1]
      exact List.mem_cons_of_mem _ h
    · rw [if_neg h1]
      by_cases h2 : addr x = addr z
      · rw [if_pos h2]
        exact h
      · rw [if_neg h2]
        rcases List.mem_cons.1 h with h3 | h3
        · exact h3 ▸ List.mem_cons_self _ _
        · exact List.mem_cons_of_mem _ (ih h3)

theorem mem_ptrInsert_self {α : Type} (addr : α → Nat) (x : α) (s : List α)
    (h : ∀ z ∈ s, addr z ≠ addr x) : x ∈ ptrInsert addr x s := by
  induction s with
  | nil => simp [ptrInsert]
  | cons z zs ih =>
    unfold ptrInsert
    by_cases h1 : addr x < addr z
    · rw [if_pos h1]
      exact List.mem_cons_self _ _
    · rw [if_neg h1]
      have h2 : addr x ≠ addr z := fun e => h z (List.mem_cons_self _ _) e.symm
      rw [if_neg h2]
      exact List.mem_cons_of_mem _ (ih (fun w hw => h w (List.mem_cons_of_mem _ hw)))

theorem mem_ptrSet_foldl {α : Type} (addr : α → Nat) (y : α) (l acc : List α)
    (hd : ∀ z ∈ acc, ∀ x ∈ l, addr z ≠ addr x)
    (hp : l.Pairwise (fun a b => addr a ≠ addr b)) :
    y ∈ l.foldl (fun s x => ptrInsert addr x s) acc ↔ (y ∈ acc ∨ y ∈ l) := by
  induction l generalizing acc with
  | nil => simp
  | cons x xs ih =>
    rw [List.pairwise_cons] at hp
    simp only [List.foldl_cons, List.mem_cons]
    rw [ih (ptrInsert addr x acc) ?_ hp.2]
    · constructor
      · rintro (h | h)
        · rcases mem_ptrInsert addr x y acc h with h1 | h1
          · exact Or.inr (Or.inl h1)
          · exact Or.inl h1
        · exact Or.inr (Or.inr h)
      · rintro (h | h | h)
        · exact Or.inl (mem_ptrInsert_of_mem addr x y acc h)
        · subst h
          exact Or.inl (mem_ptrInsert_self addr y acc
            (fun z hz => hd z hz y (List.mem_cons_self _ _)))
        · exact Or.inr h
    · intro z hz w hw
      rcases mem_ptrInsert addr x z acc hz with h1 | h1
      · subst h1
        exact hp.1 w hw
      · exact hd z h1 w (List.mem_cons_of_mem _ hw)

/-- A set built from pointers with pairwise different addresses holds exactly
those pointers. -/
theorem mem_ptrSet_iff {α : Type} (addr : α → Nat) (y : α) (l : List α)
    (hp : l.Pairwise (fun a b => addr a ≠ addr b)) : y ∈ ptrSet addr l ↔ y ∈ l := by
  unfold ptrSet
  rw [mem_ptrSet_foldl addr y l [] (by simp) hp]
  simp

/-! ## Transition lookup -/

theorem TM.select_eq_none_iff (tm : TM) (c : State) (symbol : Char) :
    tm.select c symbol = none ↔
      ∀ t ∈ tm.delta_, ¬ (t.from_.addr = c.addr ∧ t.read = symbol) := by
  simp [TM.select, List.find?_eq_none]

theorem TM.select_eq_some_of_unique (tm : TM) (c : State) (symbol : Char) (t : Transition)
    (hmem : t ∈ tm.delta_) (h1 : t.from_.addr = c.addr) (h2 : t.read = symbol)
    (huniq : ∀ u ∈ tm.delta_, u.from_.addr = c.addr → u.read = symbol → u = t) :
    tm.select c symbol = some t := by
  cases hs : tm.select c symbol with
  | none =>
    exact absurd ⟨h1, h2⟩ ((TM.select_eq_none_iff tm c symbol).1 hs t hmem)
  | some u =>
    unfold TM.select at hs
    have hu := List.find?_some hs
    have hum := List.mem_of_find?_eq_some hs
    simp only [Bool.and_eq_true, beq_iff_eq] at hu
    rw [huniq u hum hu.1 hu.2]

/-! ## The examples are what the builders produce -/

theorem trailing_bit_example_built :
    build_even_number_tm ⟨1, 2, 3, 4, 11, 12, 13, 14, 15⟩ ['1', '0'] =
      .ok (trailing_bit_example, ['1', '0']) := rfl

theorem move_off_left_example_built :
    test_MoveOffLeft 0 1 2 9 = .ok move_off_left_example := rfl

theorem missing_transition_example_built :
    test_MissingTransition 0 1 2 = .ok missing_transition_example := rfl

/-- Witness for C2 at the trailing-bit machine on the input "10". -/
theorem C2_run_result_witness :
    (∀ fuel r, trailing_bit_example.run fuel = some r →
      (r.ret = true ↔ ∃ k, trailing_bit_example.AcceptsAt k) ∧
      (r.ret = false ↔ ∃ k, trailing_bit_example.RejectsAt k ∨
        trailing_bit_example.NoTransitionAt k ∨ trailing_bit_example.MoveFailsAt k)) ∧
    (∀ k, trailing_bit_example.AcceptsAt k → ∀ fuel, k < fuel →
      ∃ r, trailing_bit_example.run fuel = some r ∧ r.ret = true) ∧
    (∀ k, trailing_bit_example.RejectsAt k ∨ trailing_bit_example.NoTransitionAt k ∨
        trailing_bit_example.MoveFailsAt k →
      ∀ fuel, k < fuel → ∃ r, trailing_bit_example.run fuel = some r ∧ r.ret = false) :=
  C2_run_result trailing_bit_example (by decide)

/-! ## Faults: illegal left move and missing transition -/

theorem Tape.read_some_lt (t : Tape) (symbol : Char) (h : t.read = some symbol) :
    t.head_ < t.tape_.length := by
  unfold Tape.read at h
  by_contra hlt
  rw [List.getElem?_eq_none (by omega)] at h
  cases h

theorem TM.run_of_left_at_origin (tm : TM) (k : Nat) (c : State) (t : Tape) (symbol : Char)
    (selected : Transition) (hv : tm.valid_configuration.1 = true)
    (hc : tm.configAt k = some (c, t)) (ha : c.addr ≠ tm.qAccept_.addr)
    (hr : c.addr ≠ tm.qReject_.addr) (hread : t.read = some symbol)
    (hsel : tm.select c symbol = some selected) (hdir : selected.dir = LEFT)
    (hhead : t.head_ = 0) (fuel : Nat) (hf : k < fuel) :
    tm.run fuel = some ⟨false, ⟨t.tape_.set 0 selected.write, 0⟩,
      [Diag.invalidMove, TM.config ⟨t.tape_.set 0 selected.write, 0⟩ c]⟩ := by
  have hlt := Tape.read_some_lt t symbol hread
  have hw : t.write selected.write = some ⟨t.tape_.set 0 selected.write, 0⟩ := by
    unfold Tape.write
    rw [if_pos hlt, hhead]
  have hm : (⟨t.tape_.set 0 selected.write, 0⟩ : Tape).move selected.dir =
      some (false, ⟨t.tape_.set 0 selected.write, 0⟩, []) := by
    rw [hdir]
    exact Tape.move_left_at_origin _ rfl
  have hb := TM.loopBody_moveFails tm c t symbol selected _ _ _ ha hr hread hsel hw hm
  rw [TM.run_of_valid tm hv]
  exact TM.loop_of_halting_step tm k _ _ c t false _ _ hc hb fuel hf

/-- Claim C4: in a valid machine, when the transition selected at some step moves
left while the head is at index 0, `run` halts at that step and returns false,
whatever the target state of the transition is (the accept state included); the
machine of Test 3, whose only transition is (q0,0) -> (accept,0,LEFT), returns
false on the input "0". -/
theorem C4_illegal_left_move :
    (∀ (tm : TM) (k : Nat) (c : State) (t : Tape) (symbol : Char) (selected : Transition),
      tm.valid_configuration.1 = true → tm.configAt k = some (c, t) →
      c.addr ≠ tm.qAccept_.addr → c.addr ≠ tm.qReject_.addr →
      t.read = some symbol → tm.select c symbol = some selected →
      selected.dir = 'L' → t.head_ = 0 →
      ∀ fuel, k < fuel →
        tm.run fuel = some ⟨false, ⟨t.tape_.set 0 selected.write, 0⟩,
          [Diag.invalidMove, TM.config ⟨t.tape_.set 0 selected.write, 0⟩ c]⟩) ∧
    (∀ a0 aAccept aReject aT : Nat, a0 ≠ aAccept → a0 ≠ aReject →
      ∃ tm, test_MoveOffLeft a0 aAccept aReject aT = .ok tm ∧
        tm.valid_configuration.1 = true ∧
        (∀ t ∈ tm.delta_, t.to_.addr = tm.qAccept_.addr) ∧
        ∀ fuel, 0 < fuel → ∃ r, tm.run fuel = some r ∧ r.ret = false) := by
  refine ⟨?_, ?_⟩
  · intro tm k c t symbol selected hv hc ha hr hread hsel hdir hhead fuel hf
    exact TM.run_of_left_at_origin tm k c t symbol selected hv hc ha hr hread hsel hdir hhead
      fuel hf
  · intro a0 aAccept aReject aT h1 h2
    refine ⟨⟨ptrSet State.addr [⟨a0, "q0"⟩, ⟨aAccept, "qAccept"⟩, ⟨aReject, "qReject"⟩],
      ⟨a0, "q0"⟩, ⟨aAccept, "qAccept"⟩, ⟨aReject, "qReject"⟩,
      [⟨aT, ⟨a0, "q0"⟩, ⟨aAccept, "qAccept"⟩, ZERO, ZERO, LEFT⟩], ⟨[ZERO, BLANK], 0⟩⟩,
      rfl, ?_, ?_, ?_⟩
    · rw [TM.valid_configuration_true_iff]
      simp [memQ_ptrSet]
    · simp
    · intro fuel hf
      have hv : (⟨ptrSet State.addr [⟨a0, "q0"⟩, ⟨aAccept, "qAccept"⟩, ⟨aReject, "qReject"⟩],
          ⟨a0, "q0"⟩, ⟨aAccept, "qAccept"⟩, ⟨aReject, "qReject"⟩,
          [⟨aT, ⟨a0, "q0"⟩, ⟨aAccept, "qAccept"⟩, ZERO, ZERO, LEFT⟩],
          ⟨[ZERO, BLANK], 0⟩⟩ : TM).valid_configuration.1 = true := by
        rw [TM.valid_configuration_true_iff]
        simp [memQ_ptrSet]
      exact ⟨_, TM.run_of_left_at_origin _ 0 ⟨a0, "q0"⟩ ⟨[ZERO, BLANK], 0⟩ ZERO
        ⟨aT, ⟨a0, "q0"⟩, ⟨aAccept, "qAccept"⟩, ZERO, ZERO, LEFT⟩ hv rfl h1 h2 rfl
        (by simp [TM.select]) rfl rfl fuel hf, rfl⟩

/-- Witness for C4 at the machine of Test 3 (addresses 0, 1, 2 and 9): the first
loop iteration selects the left move at head index 0. -/
theorem C4_illegal_left_move_witness :
    move_off_left_example.run 1 = some ⟨false, ⟨['0', 'B'], 0⟩,
      [Diag.invalidMove, TM.config ⟨['0', 'B'], 0⟩ ⟨0, "q0"⟩]⟩ :=
  C4_illegal_left_move.1 move_off_left_example 0 ⟨0, "q0"⟩ ⟨['0', 'B'], 0⟩ '0'
    ⟨9, ⟨0, "q0"⟩, ⟨1, "qAccept"⟩, '0', '0', 'L'⟩ (by decide) (by decide) (by decide)
    (by decide) (by decide) (by decide) (by decide) (by decide) 1 (by decide)

theorem TM.run_of_no_transition (tm : TM) (k : Nat) (c : State) (t : Tape) (symbol : Char)
    (hv : tm.valid_configuration.1 = true)
    (hc : tm.configAt k = some (c, t)) (ha : c.addr ≠ tm.qAccept_.addr)
    (hr : c.addr ≠ tm.qReject_.addr) (hread : t.read = some symbol)
    (hsel : tm.select c symbol = none) (fuel : Nat) (hf : k < fuel) :
    tm.run fuel = some ⟨false, t, [Diag.noTransition c.name symbol, TM.config t c]⟩ := by
  rw [TM.run_of_valid tm hv]
  exact TM.loop_of_halting_step tm k _ _ c t false _ _ hc
    (TM.loopBody_noTransition tm c t symbol ha hr hread hsel) fuel hf

theorem TM.run_of_empty_delta (Q : List State) (q0 qAccept qReject : State) (w : List Char)
    (h1 : memQ Q q0) (h2 : memQ Q qAccept) (h3 : memQ Q qReject)
    (ha : q0.addr ≠ qAccept.addr) (hr : q0.addr ≠ qReject.addr) (fuel : Nat) (hf : 0 < fuel) :
    (⟨Q, q0, qAccept, qReject, [], ⟨w ++ [BLANK], 0⟩⟩ : TM).valid_configuration.1 = true ∧
    ∃ r, (⟨Q, q0, qAccept, qReject, [], ⟨w ++ [BLANK], 0⟩⟩ : TM).run fuel = some r ∧
      r.ret = false ∧ r.tape = ⟨w ++ [BLANK], 0⟩ := by
  have hv : (⟨Q, q0, qAccept, qReject, [], ⟨w ++ [BLANK], 0⟩⟩ : TM).valid_configuration.1
      = true := by
    rw [TM.valid_configuration_true_iff]
    exact ⟨h1, h2, h3, by simp⟩
  have hread : ∃ symbol, (⟨w ++ [BLANK], 0⟩ : Tape).read = some symbol := by
    cases w with
    | nil => exact ⟨BLANK, rfl⟩
    | cons c cs => exact ⟨c, by simp [Tape.read]⟩
  obtain ⟨symbol, hread⟩ := hread
  exact ⟨hv, _, TM.run_of_no_transition _ 0 q0 ⟨w ++ [BLANK], 0⟩ symbol hv rfl ha hr hread rfl
    fuel hf, rfl, rfl⟩

/-- Claim C5: in a valid machine, when at some step the current state is neither
accept nor reject and no transition matches the current state and the symbol under
the head, `run` halts at that step and returns false with the tape of that step
untouched (no write, no move); a valid machine without transitions whose start
state is neither accept nor reject returns false on every input, and so does
the machine of Test 2 on the input "0". -/
theorem C5_missing_transition :
    (∀ (tm : TM) (k : Nat) (c : State) (t : Tape) (symbol : Char),
      tm.valid_configuration.1 = true → tm.configAt k = some (c, t) →
      c.addr ≠ tm.qAccept_.addr → c.addr ≠ tm.qReject_.addr →
      t.read = some symbol → tm.select c symbol = none →
      ∀ fuel, k < fuel →
        tm.run fuel = some ⟨false, t, [Diag.noTransition c.name symbol, TM.config t c]⟩) ∧
    (∀ (Q : List State) (q0 qAccept qReject : State) (w : List Char),
      (∀ c ∈ w, c = '0' ∨ c = '1') →
      memQ Q q0 → memQ Q qAccept → memQ Q qReject →
      q0.addr ≠ qAccept.addr → q0.addr ≠ qReject.addr →
      ∃ tm, TM.new Q q0 qAccept qReject [] w = .ok tm ∧
        tm.valid_configuration.1 = true ∧
        ∀ fuel, 0 < fuel → ∃ r, tm.run fuel = some r ∧ r.ret = false ∧ r.tape = tm.tape_) ∧
    (∀ a0 aAccept aReject : Nat, a0 ≠ aAccept → a0 ≠ aReject →
      ∃ tm, test_MissingTransition a0 aAccept aReject = .ok tm ∧
        tm.valid_configuration.1 = true ∧
        ∀ fuel, 0 < fuel → ∃ r, tm.run fuel = some r ∧ r.ret = false ∧ r.tape = tm.tape_) := by
  refine ⟨?_, ?_, ?_⟩
  · intro tm k c t symbol hv hc ha hr hread hsel fuel hf
    exact TM.run_of_no_transition tm k c t symbol hv hc ha hr hread hsel fuel hf
  · intro Q q0 qAccept qReject w hw h1 h2 h3 ha hr
    refine ⟨_, TM.tm_new_ok Q q0 qAccept qReject [] w hw, ?_, ?_⟩
    · exact (TM.run_of_empty_delta Q q0 qAccept qReject w h1 h2 h3 ha hr 1 Nat.one_pos).1
    · intro fuel hf
      exact (TM.run_of_empty_delta Q q0 qAccept qReject w h1 h2 h3 ha hr fuel hf).2
  · intro a0 aAccept aReject ha hr
    have h1 : memQ (ptrSet State.addr [⟨a0, "q0"⟩, ⟨aAccept, "qAccept"⟩, ⟨aReject, "qReject"⟩])
        ⟨a0, "q0"⟩ := by simp [memQ_ptrSet]
    have h2 : memQ (ptrSet State.addr [⟨a0, "q0"⟩, ⟨aAccept, "qAccept"⟩, ⟨aReject, "qReject"⟩])
        ⟨aAccept, "qAccept"⟩ := by simp [memQ_ptrSet]
    have h3 : memQ (ptrSet State.addr [⟨a0, "q0"⟩, ⟨aAccept, "qAccept"⟩, ⟨aReject, "qReject"⟩])
        ⟨aReject, "qReject"⟩ := by simp [memQ_ptrSet]
    refine ⟨⟨ptrSet State.addr [⟨a0, "q0"⟩, ⟨aAccept, "qAccept"⟩, ⟨aReject, "qReject"⟩],
      ⟨a0, "q0"⟩, ⟨aAccept, "qAccept"⟩, ⟨aReject, "qReject"⟩, [], ⟨[ZERO] ++ [BLANK], 0⟩⟩,
      rfl, ?_, ?_⟩
    · exact (TM.run_of_empty_delta _ _ _ _ [ZERO] h1 h2 h3 ha hr 1 Nat.one_pos).1
    · intro fuel hf
      exact (TM.run_of_empty_delta _ _ _ _ [ZERO] h1 h2 h3 ha hr fuel hf).2

/-- Witness for C5 at the machine of Test 2 (addresses 0, 1, 2): the first loop
iteration finds no transition for (q0, 0). -/
theorem C5_missing_transition_witness :
    missing_transition_example.run 1 = some ⟨false, ⟨['0', 'B'], 0⟩,
      [Diag.noTransition "q0" '0', TM.config ⟨['0', 'B'], 0⟩ ⟨0, "q0"⟩]⟩ :=
  C5_missing_transition.1 missing_transition_example 0 ⟨0, "q0"⟩ ⟨['0', 'B'], 0⟩ '0'
    (by decide) (by decide) (by decide) (by decide) (by decide) (by decide) 1 (by decide)

/-! ## Steps that write back the symbol read -/

theorem List.set_of_getElem?_eq_some {α : Type} (l : List α) (i : Nat) (c : α)
    (h : l[i]? = some c) : l.set i c = l := by
  induction l generalizing i with
  | nil => rfl
  | cons x xs ih =>
    cases i with
    | zero =>
      simp only [List.getElem?_cons_zero, Option.some.injEq] at h
      simp [h]
    | succ i =>
      simp only [List.getElem?_cons_succ] at h
      simp [ih i h]

theorem Tape.write_same (t : Tape) (symbol : Char) (h : t.read = some symbol) :
    t.write symbol = some t := by
  have hlt := Tape.read_some_lt t symbol h
  unfold Tape.write
  rw [if_pos hlt, List.set_of_getElem?_eq_some t.tape_ t.head_ symbol h]

theorem TM.loopBody_right_same (tm : TM) (c : State) (t : Tape) (symbol : Char)
    (selected : Transition)
    (h1 : c.addr ≠ tm.qAccept_.addr) (h2 : c.addr ≠ tm.qReject_.addr)
    (hr : t.read = some symbol) (hs : tm.select c symbol = some selected)
    (hw : selected.write = symbol) (hd : selected.dir = RIGHT)
    (hlen : t.head_ + 1 < t.tape_.length) :
    tm.loopBody c t = Step.next selected.to_ ⟨t.tape_, t.head_ + 1⟩ := by
  have hwr : t.write selected.write = some t := by
    rw [hw]
    exact Tape.write_same t symbol hr
  have hm : t.move selected.dir = some (true, ⟨t.tape_, t.head_ + 1⟩, []) := by
    have hRL : RIGHT ≠ LEFT := by decide
    have h3 : t.head_ < t.tape_.length := by omega
    have h4 : t.head_ + 1 ≠ t.tape_.length := by omega
    rw [hd]
    simp [Tape.move, hRL, h3, h4]
  exact TM.loopBody_next tm c t symbol selected t _ [] h1 h2 hr hs hwr hm

theorem TM.loopBody_left_same (tm : TM) (c : State) (t : Tape) (symbol : Char)
    (selected : Transition)
    (h1 : c.addr ≠ tm.qAccept_.addr) (h2 : c.addr ≠ tm.qReject_.addr)
    (hr : t.read = some symbol) (hs : tm.select c symbol = some selected)
    (hw : selected.write = symbol) (hd : selected.dir = LEFT)
    (hpos : t.head_ ≠ 0) :
    tm.loopBody c t = Step.next selected.to_ ⟨t.tape_, t.head_ - 1⟩ := by
  have hwr : t.write selected.write = some t := by
    rw [hw]
    exact Tape.write_same t symbol hr
  have hm : t.move selected.dir = some (true, ⟨t.tape_, t.head_ - 1⟩, []) := by
    rw [hd]
    simp [Tape.move, hpos]
  exact TM.loopBody_next tm c t symbol selected t _ [] h1 h2 hr hs hwr hm

theorem TM.stepsFrom_snoc (tm : TM) (k : Nat) (c : State) (t : Tape) (c1 : State) (t1 : Tape)
    (c2 : State) (t2 : Tape) (h : tm.stepsFrom k c t = some (c1, t1))
    (hb : tm.loopBody c1 t1 = Step.next c2 t2) :
    tm.stepsFrom (k + 1) c t = some (c2, t2) := by
  induction k generalizing c t with
  | zero =>
    simp only [TM.stepsFrom, Option.some.injEq, Prod.mk.injEq] at h
    obtain ⟨rfl, rfl⟩ := h
    rw [TM.stepsFrom_succ, hb]
    rfl
  | succ k ih =>
    rw [TM.stepsFrom_succ] at h
    rw [TM.stepsFrom_succ]
    cases hb1 : tm.loopBody c t with
    | ret b t3 log => rw [hb1] at h; cases h
    | undef => rw [hb1] at h; cases h
    | next c3 t3 =>
      rw [hb1] at h
      exact ih c3 t3 h

/-! ## The trailing-bit machine -/

theorem even_number_delta_mem (a : Alloc) (ha : a.distinct) (tape : Tape) (t : Transition) :
    t ∈ (even_number_machine a tape).delta_ ↔ t ∈ even_number_delta a := by
  unfold even_number_machine
  apply mem_ptrSet_iff
  have h := ha.2
  simp only [List.nodup_cons, List.mem_cons, List.mem_singleton, not_or, List.not_mem_nil,
    not_false_eq_true, List.nodup_nil, and_true] at h
  simp only [even_number_delta, List.pairwise_cons, List.mem_cons, List.mem_singleton,
    forall_eq_or_imp, forall_eq, List.not_mem_nil, false_implies, implies_true,
    List.Pairwise.nil, and_true, ne_eq]
  tauto

theorem even_number_select (a : Alloc) (ha : a.distinct) (tape : Tape) (c : State)
    (symbol : Char) (t : Transition) (hmem : t ∈ even_number_delta a)
    (h1 : t.from_.addr = c.addr) (h2 : t.read = symbol)
    (huniq : ∀ u ∈ even_number_delta a, u.from_.addr = c.addr → u.read = symbol → u = t) :
    (even_number_machine a tape).select c symbol = some t :=
  TM.select_eq_some_of_unique _ c symbol t ((even_number_delta_mem a ha tape t).2 hmem) h1 h2
    (fun u hu => huniq u ((even_number_delta_mem a ha tape u).1 hu))

theorem even_number_valid (a : Alloc) (ha : a.distinct) (tape : Tape) :
    (even_number_machine a tape).valid_configuration.1 = true := by
  rw [TM.valid_configuration_true_iff]
  refine ⟨?_, ?_, ?_, ?_⟩
  · simp [even_number_machine, memQ_ptrSet]
  · simp [even_number_machine, memQ_ptrSet]
  · simp [even_number_machine, memQ_ptrSet]
  · intro t ht
    rw [even_number_delta_mem a ha tape t] at ht
    simp only [even_number_delta, List.mem_cons, List.mem_singleton, List.not_mem_nil,
      or_false] at ht
    rcases ht with rfl | rfl | rfl | rfl | rfl <;>
      simp [even_number_machine, memQ_ptrSet]

theorem even_number_built (a : Alloc) (w : List Char) (hw : ∀ c ∈ w, c = ZERO ∨ c = ONE) :
    build_even_number_tm a w = .ok (even_number_machine a ⟨w ++ [BLANK], 0⟩, w) := by
  unfold build_even_number_tm
  simp only
  rw [TM.tm_new_ok _ _ _ _ _ w hw]
  rfl

theorem Alloc.distinct_states (a : Alloc) (ha : a.distinct) :
    a.q0 ≠ a.qAccept ∧ a.q0 ≠ a.qReject ∧ a.q0 ≠ a.X ∧ a.qAccept ≠ a.qReject ∧
      a.qAccept ≠ a.X ∧ a.qReject ≠ a.X := by
  have h := ha.1
  simp only [List.nodup_cons, List.mem_cons, List.mem_singleton, not_or, List.not_mem_nil,
    not_false_eq_true, List.nodup_nil, and_true] at h
  tauto

theorem even_number_select_q0 (a : Alloc) (ha : a.distinct) (tape : Tape) (name : String) :
    (even_number_machine a tape).select ⟨a.q0, name⟩ ZERO =
      some ⟨a.t1, ⟨a.q0, "q0"⟩, ⟨a.q0, "q0"⟩, ZERO, ZERO, RIGHT⟩ ∧
    (even_number_machine a tape).select ⟨a.q0, name⟩ ONE =
      some ⟨a.t2, ⟨a.q0, "q0"⟩, ⟨a.q0, "q0"⟩, ONE, ONE, RIGHT⟩ ∧
    (even_number_machine a tape).select ⟨a.q0, name⟩ BLANK =
      some ⟨a.t3, ⟨a.q0, "q0"⟩, ⟨a.X, "X"⟩, BLANK, BLANK, LEFT⟩ := by
  obtain ⟨_, _, hX, _, _, _⟩ := Alloc.distinct_states a ha
  have hX2 : ¬ a.X = a.q0 := fun e => hX e.symm
  have c1 : ¬ ONE = ZERO := by decide
  have c2 : ¬ BLANK = ZERO := by decide
  have c3 : ¬ ZERO = ONE := by decide
  have c4 : ¬ BLANK = ONE := by decide
  have c5 : ¬ ZERO = BLANK := by decide
  have c6 : ¬ ONE = BLANK := by decide
  refine ⟨?_, ?_, ?_⟩
  all_goals
    apply even_number_select a ha tape
    · simp [even_number_delta]
    · rfl
    · rfl
    · intro u hu
      simp only [even_number_delta, List.mem_cons, List.mem_singleton, List.not_mem_nil,
        or_false] at hu
      rcases hu with rfl | rfl | rfl | rfl | rfl <;> simp [hX2, c1, c2, c3, c4, c5, c6]

theorem even_number_select_X (a : Alloc) (ha : a.distinct) (tape : Tape) (name : String) :
    (even_number_machine a tape).select ⟨a.X, name⟩ ONE =
      some ⟨a.t4, ⟨a.X, "X"⟩, ⟨a.qReject, "qReject"⟩, ONE, ONE, RIGHT⟩ ∧
    (even_number_machine a tape).select ⟨a.X, name⟩ ZERO =
      some ⟨a.t5, ⟨a.X, "X"⟩, ⟨a.qAccept, "qAccept"⟩, ZERO, ZERO, RIGHT⟩ := by
  obtain ⟨_, _, hX, _, _, _⟩ := Alloc.distinct_states a ha
  have c1 : ¬ ONE = ZERO := by decide
  have c3 : ¬ ZERO = ONE := by decide
  refine ⟨?_, ?_⟩
  all_goals
    apply even_number_select a ha tape
    · simp [even_number_delta]
    · rfl
    · rfl
    · intro u hu
      simp only [even_number_delta, List.mem_cons, List.mem_singleton, List.not_mem_nil,
        or_false] at hu
      rcases hu with rfl | rfl | rfl | rfl | rfl <;> simp [hX, c1, c3]

/-- The scan of state q0 over a block of input symbols: one loop iteration per
symbol, the tape unchanged, the head at the end of the block. -/
theorem even_number_scan (a : Alloc) (ha : a.distinct) (tape : Tape) (suf pre : List Char)
    (hs : ∀ c ∈ suf, c = ZERO ∨ c = ONE) :
    (even_number_machine a tape).stepsFrom suf.length ⟨a.q0, "q0"⟩
        ⟨pre ++ suf ++ [BLANK], pre.length⟩ =
      some (⟨a.q0, "q0"⟩, ⟨pre ++ suf ++ [BLANK], pre.length + suf.length⟩) := by
  induction suf generalizing pre with
  | nil => simp [TM.stepsFrom]
  | cons c cs ih =>
    obtain ⟨hA, hR, _, _, _, _⟩ := Alloc.distinct_states a ha
    have hread : (⟨pre ++ c :: cs ++ [BLANK], pre.length⟩ : Tape).read = some c := by
      show (pre ++ c :: cs ++ [BLANK])[pre.length]? = some c
      rw [List.append_assoc, List.getElem?_append_right (Nat.le_refl _)]
      simp
    have hlen : (⟨pre ++ c :: cs ++ [BLANK], pre.length⟩ : Tape).head_ + 1 <
        (⟨pre ++ c :: cs ++ [BLANK], pre.length⟩ : Tape).tape_.length := by
      simp
    have hsel := even_number_select_q0 a ha tape "q0"
    have hstep : (even_number_machine a tape).loopBody ⟨a.q0, "q0"⟩
        ⟨pre ++ c :: cs ++ [BLANK], pre.length⟩ =
        Step.next ⟨a.q0, "q0"⟩ ⟨pre ++ c :: cs ++ [BLANK], pre.length + 1⟩ := by
      rcases hs c (List.mem_cons_self _ _) with rfl | rfl
      · exact TM.loopBody_right_same _ _ _ ZERO _ hA hR hread hsel.1 rfl rfl hlen
      · exact TM.loopBody_right_same _ _ _ ONE _ hA hR hread hsel.2.1 rfl rfl hlen
    rw [List.length_cons, TM.stepsFrom_succ, hstep]
    have h2 := ih (pre ++ [c]) (fun d hd => hs d (List.mem_cons_of_mem _ hd))
    have e1 : pre ++ [c] ++ cs ++ [BLANK] = pre ++ c :: cs ++ [BLANK] := by simp
    have e2 : (pre ++ [c]).length = pre.length + 1 := by simp
    have e3 : pre.length + 1 + cs.length = pre.length + (cs.length + 1) := by omega
    rw [e1, e2, e3] at h2
    exact h2

theorem even_number_configAt_end (a : Alloc) (ha : a.distinct) (w : List Char)
    (hw : ∀ c ∈ w, c = ZERO ∨ c = ONE) :
    (even_number_machine a ⟨w ++ [BLANK], 0⟩).configAt w.length =
      some (⟨a.q0, "q0"⟩, ⟨w ++ [BLANK], w.length⟩) := by
  have h := even_number_scan a ha ⟨w ++ [BLANK], 0⟩ w [] hw
  simp only [List.nil_append, List.length_nil, Nat.zero_add] at h
  exact h

theorem even_number_run_empty (a : Alloc) (ha : a.distinct) (fuel : Nat) (hf : 0 < fuel) :
    (even_number_machine a ⟨[] ++ [BLANK], 0⟩).run fuel =
      some ⟨false, ⟨[BLANK], 0⟩, [Diag.invalidMove, TM.config ⟨[BLANK], 0⟩ ⟨a.q0, "q0"⟩]⟩ := by
  obtain ⟨hA, hR, _, _, _, _⟩ := Alloc.distinct_states a ha
  have hsel := (even_number_select_q0 a ha ⟨[] ++ [BLANK], 0⟩ "q0").2.2
  have hc : (even_number_machine a ⟨[] ++ [BLANK], 0⟩).configAt 0 =
      some (⟨a.q0, "q0"⟩, ⟨[BLANK], 0⟩) := by
    simp [TM.configAt, TM.stepsFrom, Tape.reset, even_number_machine]
  exact TM.run_of_left_at_origin (even_number_machine a ⟨[] ++ [BLANK], 0⟩) 0 ⟨a.q0, "q0"⟩
    ⟨[BLANK], 0⟩ BLANK _ (even_number_valid a ha _) hc hA hR rfl hsel rfl rfl fuel hf

theorem even_number_configAt_X (a : Alloc) (ha : a.distinct) (v : List Char) (c : Char)
    (hw : ∀ d ∈ v ++ [c], d = ZERO ∨ d = ONE) :
    (even_number_machine a ⟨v ++ [c] ++ [BLANK], 0⟩).configAt (v.length + 2) =
      some (⟨a.X, "X"⟩, ⟨v ++ [c] ++ [BLANK], v.length⟩) := by
  obtain ⟨hA, hR, _, _, _, _⟩ := Alloc.distinct_states a ha
  have h1 := even_number_configAt_end a ha (v ++ [c]) hw
  have e : (v ++ [c]).length = v.length + 1 := by simp
  rw [e] at h1
  have hread : (⟨v ++ [c] ++ [BLANK], v.length + 1⟩ : Tape).read = some BLANK := by
    show (v ++ [c] ++ [BLANK])[v.length + 1]? = some BLANK
    rw [← e]
    exact List.getElem?_concat_length _ _
  have hsel := (even_number_select_q0 a ha ⟨v ++ [c] ++ [BLANK], 0⟩ "q0").2.2
  have hstep := TM.loopBody_left_same (even_number_machine a ⟨v ++ [c] ++ [BLANK], 0⟩)
    ⟨a.q0, "q0"⟩ ⟨v ++ [c] ++ [BLANK], v.length + 1⟩ BLANK _ hA hR hread hsel rfl rfl
    (Nat.succ_ne_zero _)
  exact TM.stepsFrom_snoc _ _ _ _ _ _ _ _ h1 hstep

theorem even_number_configAt_last (a : Alloc) (ha : a.distinct) (v : List Char) (c : Char)
    (hw : ∀ d ∈ v ++ [c], d = ZERO ∨ d = ONE) :
    (even_number_machine a ⟨v ++ [c] ++ [BLANK], 0⟩).configAt (v.length + 3) =
      some (if c = ZERO then ⟨a.qAccept, "qAccept"⟩ else ⟨a.qReject, "qReject"⟩,
        ⟨v ++ [c] ++ [BLANK], v.length + 1⟩) := by
  obtain ⟨_, _, _, _, hAX, hRX⟩ := Alloc.distinct_states a ha
  have h1 := even_number_configAt_X a ha v c hw
  have hread : (⟨v ++ [c] ++ [BLANK], v.length⟩ : Tape).read = some c := by
    show (v ++ [c] ++ [BLANK])[v.length]? = some c
    rw [List.append_assoc, List.getElem?_append_right (Nat.le_refl _)]
    simp
  have hlen : (⟨v ++ [c] ++ [BLANK], v.length⟩ : Tape).head_ + 1 <
      (⟨v ++ [c] ++ [BLANK], v.length⟩ : Tape).tape_.length := by
    simp
  have hsel := even_number_select_X a ha ⟨v ++ [c] ++ [BLANK], 0⟩ "X"
  have hc := hw c (by simp)
  rcases hc with rfl | rfl
  · rw [if_pos rfl]
    exact TM.stepsFrom_snoc _ _ _ _ _ _ _ _ h1
      (TM.loopBody_right_same _ ⟨a.X, "X"⟩ _ ZERO _ (fun e => hAX e.symm) (fun e => hRX e.symm)
        hread hsel.2 rfl rfl hlen)
  · rw [if_neg (by decide)]
    exact TM.stepsFrom_snoc _ _ _ _ _ _ _ _ h1
      (TM.loopBody_right_same _ ⟨a.X, "X"⟩ _ ONE _ (fun e => hAX e.symm) (fun e => hRX e.symm)
        hread hsel.1 rfl rfl hlen)

theorem even_number_run_nonempty (a : Alloc) (ha : a.distinct) (v : List Char) (c : Char)
    (hw : ∀ d ∈ v ++ [c], d = ZERO ∨ d = ONE) (fuel : Nat) (hf : v.length + 4 ≤ fuel) :
    (even_number_machine a ⟨v ++ [c] ++ [BLANK], 0⟩).run fuel =
      some ⟨decide (c = ZERO), ⟨v ++ [c] ++ [BLANK], v.length + 1⟩, []⟩ := by
  obtain ⟨_, _, _, hAR, _, _⟩ := Alloc.distinct_states a ha
  have h1 := even_number_configAt_last a ha v c hw
  rw [TM.run_of_valid _ (even_number_valid a ha _)]
  by_cases hc : c = ZERO
  · rw [if_pos hc] at h1
    rw [decide_eq_true hc]
    exact TM.loop_of_halting_step _ _ _ _ _ _ true _ [] h1
      (TM.loopBody_accept _ _ _ rfl) fuel (by omega)
  · rw [if_neg hc] at h1
    rw [decide_eq_false hc]
    exact TM.loop_of_halting_step _ _ _ _ _ _ false _ [] h1
      (TM.loopBody_reject _ _ _ (fun e => hAR e.symm) rfl) fuel (by omega)

theorem even_number_run (a : Alloc) (ha : a.distinct) (w : List Char)
    (hw : ∀ c ∈ w, c = ZERO ∨ c = ONE) :
    ∃ r, (∀ fuel, w.length + 3 ≤ fuel →
        (even_number_machine a ⟨w ++ [BLANK], 0⟩).run fuel = some r) ∧
      (r.ret = true ↔ w ≠ [] ∧ w.getLast? = some ZERO) := by
  rcases List.eq_nil_or_concat' w with rfl | ⟨v, c, rfl⟩
  · exact ⟨_, fun fuel hf => even_number_run_empty a ha fuel (by omega), by simp⟩
  · refine ⟨_, fun fuel hf => even_number_run_nonempty a ha v c hw fuel ?_, ?_⟩
    · simp only [List.length_append, List.length_singleton] at hf
      omega
    · simp

theorem even_number_built_run (a : Alloc) (ha : a.distinct) (w : List Char)
    (hw : ∀ c ∈ w, c = ZERO ∨ c = ONE) :
    ∃ tm r, build_even_number_tm a w = .ok (tm, w) ∧
      (∀ fuel, w.length + 3 ≤ fuel → tm.run fuel = some r) ∧
      (r.ret = true ↔ w ≠ [] ∧ w.getLast? = some ZERO) := by
  obtain ⟨r, h1, h2⟩ := even_number_run a ha w hw
  exact ⟨_, r, even_number_built a w hw, h1, h2⟩

/-- Claim C1: for every input `w` over {0,1}, the empty one included, and every
placement of the objects in memory, `run` of the machine built by
`build_even_number_tm` on `w` terminates (within `|w| + 3` loop iterations) and
returns true exactly when `w` is non-empty and its last character is 0; the two
inputs of Test 1 give true and false. -/
theorem C1_trailing_bit (a : Alloc) (ha : a.distinct) :
    (∀ w : List Char, (∀ c ∈ w, c = '0' ∨ c = '1') →
      ∃ tm r, build_even_number_tm a w = .ok (tm, w) ∧
        (∀ fuel, w.length + 3 ≤ fuel → tm.run fuel = some r) ∧
        (r.ret = true ↔ w ≠ [] ∧ w.getLast? = some '0')) ∧
    (∃ tm r, build_even_number_tm a input_EvenNumber_Accept =
        .ok (tm, input_EvenNumber_Accept) ∧
      (∀ fuel, 22 ≤ fuel → tm.run fuel = some r) ∧ r.ret = true) ∧
    (∃ tm r, build_even_number_tm a input_EvenNumber_Reject =
        .ok (tm, input_EvenNumber_Reject) ∧
      (∀ fuel, 22 ≤ fuel → tm.run fuel = some r) ∧ r.ret = false) := by
  refine ⟨fun w hw => even_number_built_run a ha w hw, ?_, ?_⟩
  · obtain ⟨tm, r, h1, h2, h3⟩ := even_number_built_run a ha input_EvenNumber_Accept
      (by decide)
    exact ⟨tm, r, h1, h2, h3.2 ⟨by decide, by decide⟩⟩
  · obtain ⟨tm, r, h1, h2, h3⟩ := even_number_built_run a ha input_EvenNumber_Reject
      (by decide)
    refine ⟨tm, r, h1, h2, ?_⟩
    cases hr : r.ret with
    | false => rfl
    | true => exact absurd (h3.1 hr).2 (by decide)

/-- Witness for C1 at the addresses 1 to 4 and 11 to 15 and the input "10". -/
theorem C1_trailing_bit_witness :
    ∃ tm r, build_even_number_tm ⟨1, 2, 3, 4, 11, 12, 13, 14, 15⟩ ['1', '0'] =
        .ok (tm, ['1', '0']) ∧
      (∀ fuel, ['1', '0'].length + 3 ≤ fuel → tm.run fuel = some r) ∧
      (r.ret = true ↔ ['1', '0'] ≠ [] ∧ ['1', '0'].getLast? = some '0') :=
  (C1_trailing_bit ⟨1, 2, 3, 4, 11, 12, 13, 14, 15⟩ (by decide)).1 ['1', '0'] (by decide)

/-! ## Calling `run` twice -/

theorem overwrite_example_built :
    TM.new (ptrSet State.addr [⟨0, "q0"⟩, ⟨1, "qAccept"⟩, ⟨2, "qReject"⟩])
      ⟨0, "q0"⟩ ⟨1, "qAccept"⟩ ⟨2, "qReject"⟩
      (ptrSet Transition.addr [⟨10, ⟨0, "q0"⟩, ⟨1, "qAccept"⟩, '0', '1', 'R'⟩,
        ⟨11, ⟨0, "q0"⟩, ⟨2, "qReject"⟩, '1', '1', 'R'⟩]) ['0'] = .ok overwrite_example := rfl

/-- Counterexample to C3: the machine `overwrite_example` passes validation; its
first `run` returns true and leaves the tape "1B"; the second `run` on that same
machine returns false. -/
theorem C3_run_twice_counterexample :
    overwrite_example.valid_configuration.1 = true ∧
    overwrite_example.run 2 = some ⟨true, ⟨['1', 'B'], 1⟩, []⟩ ∧
    (overwrite_example.after ⟨true, ⟨['1', 'B'], 1⟩, []⟩).run 2 =
      some ⟨false, ⟨['1', 'B'], 1⟩, []⟩ := by
  decide

theorem Tape.BlankExtension.read {t t1 : Tape} (h : Tape.BlankExtension t t1) (symbol : Char)
    (hr : t.read = some symbol) : t1.read = some symbol := by
  obtain ⟨hh, k, hk⟩ := h
  have hlt := Tape.read_some_lt t symbol hr
  unfold Tape.read at hr ⊢
  rw [hh, hk, List.getElem?_append_left hlt]
  exact hr

theorem Tape.BlankExtension.write {t t1 : Tape} (h : Tape.BlankExtension t t1) (c : Char)
    (t2 : Tape) (hw : t.write c = some t2) :
    ∃ t3, t1.write c = some t3 ∧ Tape.BlankExtension t2 t3 := by
  obtain ⟨hh, k, hk⟩ := h
  unfold Tape.write at hw ⊢
  by_cases hlt : t.head_ < t.tape_.length
  · rw [if_pos hlt] at hw
    simp only [Option.some.injEq] at hw
    subst hw
    have hlt1 : t1.head_ < t1.tape_.length := by
      rw [hh, hk, List.length_append]
      omega
    rw [if_pos hlt1]
    refine ⟨_, rfl, hh, k, ?_⟩
    show t1.tape_.set t1.head_ c = t.tape_.set t.head_ c ++ List.replicate k BLANK
    rw [hh, hk, List.set_append_left _ _ hlt]
  · rw [if_neg hlt] at hw
    cases hw

theorem Tape.BlankExtension.move {t t1 : Tape} (h : Tape.BlankExtension t t1) (dir : Char)
    (b : Bool) (t2 : Tape) (log : List Diag) (hm : t.move dir = some (b, t2, log)) :
    ∃ t3, t1.move dir = some (b, t3, log) ∧ Tape.BlankExtension t2 t3 := by
  obtain ⟨hh, k, hk⟩ := h
  unfold Tape.move at hm ⊢
  by_cases hL : dir = LEFT
  · rw [if_pos hL] at hm ⊢
    by_cases h0 : t.head_ = 0
    · rw [if_pos h0] at hm
      rw [if_pos (hh.trans h0)]
      simp only [Option.some.injEq, Prod.mk.injEq] at hm
      obtain ⟨rfl, rfl, rfl⟩ := hm
      exact ⟨t1, rfl, hh, k, hk⟩
    · rw [if_neg h0] at hm
      rw [if_neg (by rw [hh]; exact h0)]
      simp only [Option.some.injEq, Prod.mk.injEq] at hm
      obtain ⟨rfl, rfl, rfl⟩ := hm
      exact ⟨_, rfl, by simp [hh], k, hk⟩
  · rw [if_neg hL] at hm ⊢
    by_cases hR : dir = RIGHT
    · rw [if_pos hR] at hm ⊢
      by_cases hlt : t.head_ < t.tape_.length
      · rw [if_pos hlt] at hm
        have hlen1 : t1.tape_.length = t.tape_.length + k := by
          rw [hk, List.length_append, List.length_replicate]
        have hlt1 : t1.head_ < t1.tape_.length := by
          rw [hh, hlen1]
          omega
        rw [if_pos hlt1]
        by_cases he : t.head_ + 1 = t.tape_.length
        · rw [if_pos he] at hm
          simp only [Option.some.injEq, Prod.mk.injEq] at hm
          obtain ⟨rfl, rfl, rfl⟩ := hm
          cases k with
          | zero =>
            have he1 : t1.head_ + 1 = t1.tape_.length := by
              rw [hh, hlen1]
              omega
            rw [if_pos he1]
            refine ⟨_, rfl, ?_, 0, ?_⟩
            · show t1.tape_.length = t.tape_.length
              rw [hlen1]
              rfl
            · show t1.tape_ ++ [BLANK] = t.tape_ ++ [BLANK] ++ List.replicate 0 BLANK
              rw [hk]
              simp
          | succ k =>
            have he1 : t1.head_ + 1 ≠ t1.tape_.length := by
              rw [hh, hlen1]
              omega
            rw [if_neg he1]
            refine ⟨_, rfl, ?_, k, ?_⟩
            · show t1.head_ + 1 = t.tape_.length
              rw [hh, he]
            · show t1.tape_ = t.tape_ ++ [BLANK] ++ List.replicate k BLANK
              rw [hk, List.replicate_succ]
              simp
        · rw [if_neg he] at hm
          simp only [Option.some.injEq, Prod.mk.injEq] at hm
          obtain ⟨rfl, rfl, rfl⟩ := hm
          have he1 : t1.head_ + 1 ≠ t1.tape_.length := by
            rw [hh, hlen1]
            omega
          rw [if_neg he1]
          exact ⟨_, rfl, by simp [hh], k, hk⟩
      · rw [if_neg hlt] at hm
        cases hm
    · rw [if_neg hR] at hm ⊢
      simp only [Option.some.injEq, Prod.mk.injEq] at hm
      obtain ⟨rfl, rfl, rfl⟩ := hm
      exact ⟨t1, rfl, hh, k, hk⟩

/-- One pass through the loop body on a tape and on the same tape with blanks
appended: the same return value or the same next state, on tapes related in the
same way. -/
theorem TM.loopBody_blankExtension (tm : TM) (c : State) (t t1 : Tape)
    (h : Tape.BlankExtension t t1) :
    match tm.loopBody c t with
    | Step.ret b t2 _ =>
      ∃ t3 log1, tm.loopBody c t1 = Step.ret b t3 log1 ∧ Tape.BlankExtension t2 t3
    | Step.next c2 t2 => ∃ t3, tm.loopBody c t1 = Step.next c2 t3 ∧ Tape.BlankExtension t2 t3
    | Step.undef => True := by
  by_cases h1 : c.addr = tm.qAccept_.addr
  · rw [TM.loopBody_accept tm c t h1]
    exact ⟨t1, [], TM.loopBody_accept tm c t1 h1, h⟩
  · by_cases h2 : c.addr = tm.qReject_.addr
    · rw [TM.loopBody_reject tm c t h1 h2]
      exact ⟨t1, [], TM.loopBody_reject tm c t1 h1 h2, h⟩
    · cases hr : t.read with
      | none =>
        have hu : tm.loopBody c t = Step.undef := by simp [TM.loopBody, h1, h2, hr]
        rw [hu]
        trivial
      | some symbol =>
        have hr1 := h.read symbol hr
        cases hs : tm.select c symbol with
        | none =>
          rw [TM.loopBody_noTransition tm c t symbol h1 h2 hr hs]
          exact ⟨t1, _, TM.loopBody_noTransition tm c t1 symbol h1 h2 hr1 hs, h⟩
        | some selected =>
          cases hw : t.write selected.write with
          | none =>
            have hu : tm.loopBody c t = Step.undef := by
              simp [TM.loopBody, h1, h2, hr, hs, hw]
            rw [hu]
            trivial
          | some t2 =>
            obtain ⟨t3, hw1, hrel⟩ := h.write selected.write t2 hw
            cases hm : t2.move selected.dir with
            | none =>
              have hu : tm.loopBody c t = Step.undef := by
                simp [TM.loopBody, h1, h2, hr, hs, hw, hm]
              rw [hu]
              trivial
            | some p =>
              obtain ⟨b, t4, log⟩ := p
              obtain ⟨t5, hm1, hrel1⟩ := hrel.move selected.dir b t4 log hm
              cases b with
              | true =>
                rw [TM.loopBody_next tm c t symbol selected t2 t4 log h1 h2 hr hs hw hm]
                exact ⟨t5, TM.loopBody_next tm c t1 symbol selected t3 t5 log h1 h2 hr1 hs hw1
                  hm1, hrel1⟩
              | false =>
                rw [TM.loopBody_moveFails tm c t symbol selected t2 t4 log h1 h2 hr hs hw hm]
                exact ⟨t5, _, TM.loopBody_moveFails tm c t1 symbol selected t3 t5 log h1 h2 hr1
                  hs hw1 hm1, hrel1⟩

theorem TM.loop_blankExtension (tm : TM) (fuel : Nat) (c : State) (t t1 : Tape)
    (r : RunResult) (h : Tape.BlankExtension t t1) (hl : tm.loop fuel c t = some r) :
    ∃ r1, tm.loop fuel c t1 = some r1 ∧ r1.ret = r.ret ∧
      Tape.BlankExtension r.tape r1.tape := by
  induction fuel generalizing c t t1 with
  | zero => simp [TM.loop] at hl
  | succ fuel ih =>
    have hsim := TM.loopBody_blankExtension tm c t t1 h
    rw [TM.loop_succ] at hl ⊢
    cases hb : tm.loopBody c t with
    | ret b t2 log =>
      rw [hb] at hl hsim
      obtain ⟨t3, log1, hb1, hrel⟩ := hsim
      simp only [Option.some.injEq] at hl
      subst hl
      rw [hb1]
      exact ⟨_, rfl, rfl, hrel⟩
    | undef => rw [hb] at hl; cases hl
    | next c2 t2 =>
      rw [hb] at hl hsim
      obtain ⟨t3, hb1, hrel⟩ := hsim
      rw [hb1]
      exact ih c2 t2 t3 hrel hl

theorem TM.loopBody_after (tm : TM) (r : RunResult) (c : State) (t : Tape) :
    (tm.after r).loopBody c t = tm.loopBody c t := rfl

theorem TM.loop_after (tm : TM) (r : RunResult) (fuel : Nat) (c : State) (t : Tape) :
    (tm.after r).loop fuel c t = tm.loop fuel c t := by
  induction fuel generalizing c t with
  | zero => rfl
  | succ fuel ih =>
    rw [TM.loop_succ, TM.loop_succ, TM.loopBody_after]
    cases tm.loopBody c t with
    | ret b t2 log => rfl
    | undef => rfl
    | next c2 t2 => exact ih c2 t2

/-- Claim C3, amended: two calls of `run` in a row on the same machine return the
same boolean whenever both halt and the first call left the cells it found
unchanged (it may have appended blank cells on the right). -/
theorem C3_run_twice (tm : TM) (f1 f2 : Nat) (r1 r2 : RunResult)
    (h1 : tm.run f1 = some r1) (h2 : (tm.after r1).run f2 = some r2)
    (hcells : ∃ k, r1.tape.tape_ = tm.tape_.tape_ ++ List.replicate k BLANK) :
    r1.ret = r2.ret := by
  by_cases hv : tm.valid_configuration.1 = false
  · have hv2 : (tm.after r1).valid_configuration.1 = false := hv
    rw [TM.run_of_invalid tm hv] at h1
    rw [TM.run_of_invalid _ hv2] at h2
    simp only [Option.some.injEq] at h1 h2
    rw [← h1, ← h2]
  · have hv1 : tm.valid_configuration.1 = true := by simpa using hv
    have hv2 : (tm.after r1).valid_configuration.1 = true := hv1
    rw [TM.run_of_valid tm hv1] at h1
    rw [TM.run_of_valid _ hv2] at h2
    have hrel : Tape.BlankExtension tm.tape_.reset (tm.after r1).tape_.reset := by
      obtain ⟨k, hk⟩ := hcells
      exact ⟨rfl, k, hk⟩
    obtain ⟨r3, h3, hret, _⟩ := TM.loop_blankExtension tm f1 tm.q0_ _ _ r1 hrel h1
    have h5 : tm.loop f2 tm.q0_ (tm.after r1).tape_.reset = some r2 := by
      rw [← TM.loop_after tm r1]
      exact h2
    rw [← TM.loop_fuel_irrelevant _ _ _ f1 f2 r3 r2 h3 h5, hret]

/-- Witness for the amended C3 at `extend_example`: the first call returns true and
leaves the input cells "0B" followed by two appended blanks; the second call
returns true as well. -/
theorem C3_run_twice_witness :
    extend_example.run 4 = some ⟨true, ⟨['0', 'B', 'B', 'B'], 3⟩, []⟩ ∧
    (extend_example.after ⟨true, ⟨['0', 'B', 'B', 'B'], 3⟩, []⟩).run 4 =
      some ⟨true, ⟨['0', 'B', 'B', 'B'], 3⟩, []⟩ ∧
    (⟨true, ⟨['0', 'B', 'B', 'B'], 3⟩, []⟩ : RunResult).ret =
      (⟨true, ⟨['0', 'B', 'B', 'B'], 3⟩, []⟩ : RunResult).ret :=
  ⟨by decide, by decide,
   C3_run_twice extend_example 4 4 ⟨true, ⟨['0', 'B', 'B', 'B'], 3⟩, []⟩
    ⟨true, ⟨['0', 'B', 'B', 'B'], 3⟩, []⟩ (by decide) (by decide) ⟨2, rfl⟩⟩

/-! ## Defined behaviour: the head stays on a cell -/

theorem Tape.wf_of_new (input : List Char) (t : Tape) (h : Tape.new input = .ok t) : t.wf := by
  unfold Tape.new at h
  split at h
  · cases h
  · cases h
    simp [Tape.wf]

theorem Tape.wf_default : Tape.default.wf := by
  simp [Tape.wf, Tape.default]

theorem Tape.wf_reset (t : Tape) (h : t.wf) : t.reset.wf := by
  unfold Tape.wf at h ⊢
  show 0 < t.tape_.length
  omega

theorem Tape.wf_write (t : Tape) (c : Char) (h : t.wf) :
    ∃ t1, t.write c = some t1 ∧ t1.wf := by
  unfold Tape.wf at h
  refine ⟨⟨t.tape_.set t.head_ c, t.head_⟩, ?_, ?_⟩
  · unfold Tape.write
    rw [if_pos h]
  · simp [Tape.wf, h]

theorem Tape.wf_move (t : Tape) (dir : Char) (h : t.wf) :
    ∃ b t1 log, t.move dir = some (b, t1, log) ∧ t1.wf := by
  unfold Tape.wf at h
  unfold Tape.move
  by_cases hL : dir = LEFT
  · rw [if_pos hL]
    by_cases h0 : t.head_ = 0
    · rw [if_pos h0]
      exact ⟨false, t, [], rfl, h⟩
    · rw [if_neg h0]
      refine ⟨true, _, [], rfl, ?_⟩
      show t.head_ - 1 < t.tape_.length
      omega
  · rw [if_neg hL]
    by_cases hR : dir = RIGHT
    · rw [if_pos hR, if_pos h]
      by_cases he : t.head_ + 1 = t.tape_.length
      · rw [if_pos he]
        refine ⟨true, _, [], rfl, ?_⟩
        show t.tape_.length < (t.tape_ ++ [BLANK]).length
        simp
      · rw [if_neg he]
        refine ⟨true, _, [], rfl, ?_⟩
        show t.head_ + 1 < t.tape_.length
        omega
    · rw [if_neg hR]
      exact ⟨false, t, _, rfl, h⟩

/-- On a tape whose head is on a cell the loop body never runs into undefined
behaviour, and it hands such a tape on to the next iteration. -/
theorem TM.loopBody_wf (tm : TM) (c : State) (t : Tape) (h : t.wf) :
    tm.loopBody c t ≠ Step.undef ∧
      ∀ c2 t2, tm.loopBody c t = Step.next c2 t2 → t2.wf := by
  by_cases h1 : c.addr = tm.qAccept_.addr
  · rw [TM.loopBody_accept tm c t h1]
    exact ⟨by simp, by simp⟩
  · by_cases h2 : c.addr = tm.qReject_.addr
    · rw [TM.loopBody_reject tm c t h1 h2]
      exact ⟨by simp, by simp⟩
    · have hr : t.read = some (t.tape_.get ⟨t.head_, h⟩) := by
        unfold Tape.read
        rw [List.getElem?_eq_getElem h]
        rfl
      cases hs : tm.select c (t.tape_.get ⟨t.head_, h⟩) with
      | none =>
        rw [TM.loopBody_noTransition tm c t _ h1 h2 hr hs]
        exact ⟨by simp, by simp⟩
      | some selected =>
        obtain ⟨t1, hw, hwf1⟩ := Tape.wf_write t selected.write h
        obtain ⟨b, t2, log, hm, hwf2⟩ := Tape.wf_move t1 selected.dir hwf1
        cases b with
        | true =>
          rw [TM.loopBody_next tm c t _ selected t1 t2 log h1 h2 hr hs hw hm]
          refine ⟨by simp, ?_⟩
          intro c2 t3 he
          simp only [Step.next.injEq] at he
          rw [← he.2]
          exact hwf2
        | false =>
          rw [TM.loopBody_moveFails tm c t _ selected t1 t2 log h1 h2 hr hs hw hm]
          exact ⟨by simp, by simp⟩

/-- On a tape whose head is on a cell, `none` from the loop means exactly that the
loop is still running after `fuel` iterations. -/
theorem TM.loop_eq_none_of_wf (tm : TM) (fuel : Nat) (c : State) (t : Tape) (h : t.wf)
    (hl : tm.loop fuel c t = none) :
    ∃ c1 t1, tm.stepsFrom fuel c t = some (c1, t1) := by
  induction fuel generalizing c t with
  | zero => exact ⟨c, t, rfl⟩
  | succ fuel ih =>
    obtain ⟨hu, hn⟩ := TM.loopBody_wf tm c t h
    rw [TM.loop_succ] at hl
    rw [TM.stepsFrom_succ]
    cases hb : tm.loopBody c t with
    | ret b t2 log => rw [hb] at hl; cases hl
    | undef => exact absurd hb hu
    | next c2 t2 =>
      rw [hb] at hl
      exact ih c2 t2 (hn c2 t2 hb) hl

/-! ## Tape: the result of `move` and the invariants of reachable tapes -/

/-- Counterexample to C11: on the tape "0B" with the head at index 1 the call
`move('S')` returns false although the motion is not LEFT and the head is not at
index 0. -/
theorem C11_move_result_counterexample :
    (⟨['0', 'B'], 1⟩ : Tape).move 'S' =
      some (false, ⟨['0', 'B'], 1⟩, [Diag.invalidMoveDirection 'S']) := by
  decide

/-- Claim C11, amended: on a tape whose head is on a cell, `move` returns false
exactly when the motion is LEFT with the head at index 0 or the motion is neither
LEFT nor RIGHT, and then the tape is unchanged; in every other case it returns
true and the head index changes by exactly one cell in the given direction. -/
theorem C11_move_result (t : Tape) (dir : Char) (h : t.head_ < t.tape_.length) :
    ∃ b t1 log, t.move dir = some (b, t1, log) ∧
      (b = false ↔ (dir = 'L' ∧ t.head_ = 0) ∨ (dir ≠ 'L' ∧ dir ≠ 'R')) ∧
      (b = false → t1 = t) ∧
      (b = true → (dir = 'L' ∧ t1.head_ + 1 = t.head_) ∨
        (dir = 'R' ∧ t1.head_ = t.head_ + 1)) := by
  have hRL : RIGHT ≠ LEFT := by decide
  unfold Tape.move
  by_cases hL : dir = LEFT
  · rw [if_pos hL]
    by_cases h0 : t.head_ = 0
    · rw [if_pos h0]
      exact ⟨false, t, [], rfl, ⟨fun _ => Or.inl ⟨hL, h0⟩, fun _ => rfl⟩, fun _ => rfl,
        fun hb => (by cases hb)⟩
    · rw [if_neg h0]
      refine ⟨true, _, [], rfl, ⟨fun hb => (by cases hb), ?_⟩, fun hb => (by cases hb),
        fun _ => Or.inl ⟨hL, ?_⟩⟩
      · rintro (⟨_, h1⟩ | ⟨h1, _⟩)
        · exact absurd h1 h0
        · exact absurd hL h1
      · show t.head_ - 1 + 1 = t.head_
        omega
  · rw [if_neg hL]
    by_cases hR : dir = RIGHT
    · rw [if_pos hR, if_pos h]
      have hno : ¬ ((dir = 'L' ∧ t.head_ = 0) ∨ (dir ≠ 'L' ∧ dir ≠ 'R')) := by
        rintro (⟨h1, _⟩ | ⟨_, h1⟩)
        · exact hL h1
        · exact h1 hR
      by_cases he : t.head_ + 1 = t.tape_.length
      · rw [if_pos he]
        exact ⟨true, _, [], rfl, ⟨fun hb => (by cases hb), fun h1 => absurd h1 hno⟩,
          fun hb => (by cases hb), fun _ => Or.inr ⟨hR, he.symm⟩⟩
      · rw [if_neg he]
        exact ⟨true, _, [], rfl, ⟨fun hb => (by cases hb), fun h1 => absurd h1 hno⟩,
          fun hb => (by cases hb), fun _ => Or.inr ⟨hR, rfl⟩⟩
    · rw [if_neg hR]
      exact ⟨false, t, _, rfl, ⟨fun _ => Or.inr ⟨hL, hR⟩, fun _ => rfl⟩, fun _ => rfl,
        fun hb => (by cases hb)⟩

/-- Witness for the amended C11 at the tape "0B" with the head at index 1 and the
motion RIGHT. -/
theorem C11_move_result_witness :
    ∃ b t1 log, (⟨['0', 'B'], 1⟩ : Tape).move 'R' = some (b, t1, log) ∧
      (b = false ↔ ('R' = 'L' ∧ (⟨['0', 'B'], 1⟩ : Tape).head_ = 0) ∨ ('R' ≠ 'L' ∧ 'R' ≠ 'R')) ∧
      (b = false → t1 = ⟨['0', 'B'], 1⟩) ∧
      (b = true → ('R' = 'L' ∧ t1.head_ + 1 = (⟨['0', 'B'], 1⟩ : Tape).head_) ∨
        ('R' = 'R' ∧ t1.head_ = (⟨['0', 'B'], 1⟩ : Tape).head_ + 1)) :=
  C11_move_result ⟨['0', 'B'], 1⟩ 'R' (by decide)

theorem Tape.wf_apply (t : Tape) (op : TapeOp) (h : t.wf) :
    ∃ t1, t.apply op = some t1 ∧ t1.wf := by
  cases op with
  | move dir =>
    obtain ⟨b, t1, log, hm, hwf⟩ := Tape.wf_move t dir h
    exact ⟨t1, by simp [Tape.apply, hm], hwf⟩
  | write c => exact Tape.wf_write t c h
  | reset => exact ⟨t.reset, rfl, Tape.wf_reset t h⟩

theorem Tape.wf_applyAll (t : Tape) (ops : List TapeOp) (h : t.wf) :
    ∃ t1, t.applyAll ops = some t1 ∧ t1.wf := by
  induction ops generalizing t with
  | nil => exact ⟨t, rfl, h⟩
  | cons op ops ih =>
    obtain ⟨t1, h1, hwf1⟩ := Tape.wf_apply t op h
    obtain ⟨t2, h2, hwf2⟩ := ih t1 hwf1
    refine ⟨t2, ?_, hwf2⟩
    unfold Tape.applyAll
    rw [h1]
    exact h2

theorem Tape.read_of_wf (t : Tape) (h : t.wf) : ∃ c, t.read = some c := by
  unfold Tape.wf at h
  exact ⟨t.tape_.get ⟨t.head_, h⟩, by unfold Tape.read; rw [List.getElem?_eq_getElem h]; rfl⟩

/-- Claim C12: every tape reached from a constructor (from a string over {0,1}, or
the default one) by a finite sequence of `move`, `write` and `reset` calls is
defined, has a non-empty cell sequence and a head index that is a valid index
into it, so that `read` is defined. -/
theorem C12_tape_invariant (ops : List TapeOp) :
    (∀ s : List Char, (∀ c ∈ s, c = '0' ∨ c = '1') →
      ∃ t0 t, Tape.new s = .ok t0 ∧ t0.applyAll ops = some t ∧
        t.tape_ ≠ [] ∧ t.head_ < t.tape_.length ∧ ∃ c, t.read = some c) ∧
    (∃ t, Tape.default.applyAll ops = some t ∧
        t.tape_ ≠ [] ∧ t.head_ < t.tape_.length ∧ ∃ c, t.read = some c) := by
  have key : ∀ t0 : Tape, t0.wf → ∃ t, t0.applyAll ops = some t ∧
      t.tape_ ≠ [] ∧ t.head_ < t.tape_.length ∧ ∃ c, t.read = some c := by
    intro t0 h0
    obtain ⟨t, ht, hwf⟩ := Tape.wf_applyAll t0 ops h0
    refine ⟨t, ht, ?_, hwf, Tape.read_of_wf t hwf⟩
    intro he
    unfold Tape.wf at hwf
    rw [he] at hwf
    exact Nat.not_lt_zero _ hwf
  refine ⟨?_, key Tape.default Tape.wf_default⟩
  intro s hs
  have hnew := Tape.tape_new_ok s hs
  obtain ⟨t, ht⟩ := key _ (Tape.wf_of_new s _ hnew)
  exact ⟨_, t, hnew, ht⟩

/-- Witness for C12 at the input "01" and a sequence of calls that runs off the
right end, writes, comes back and resets. -/
theorem C12_tape_invariant_witness :
    ∃ t0 t, Tape.new ['0', '1'] = .ok t0 ∧
      t0.applyAll [TapeOp.move 'R', TapeOp.move 'R', TapeOp.move 'R', TapeOp.write '1',
        TapeOp.move 'L', TapeOp.move 'S', TapeOp.reset, TapeOp.move 'L'] = some t ∧
      t.tape_ ≠ [] ∧ t.head_ < t.tape_.length ∧ ∃ c, t.read = some c :=
  (C12_tape_invariant [TapeOp.move 'R', TapeOp.move 'R', TapeOp.move 'R', TapeOp.write '1',
        TapeOp.move 'L', TapeOp.move 'S', TapeOp.reset, TapeOp.move 'L']).1 ['0', '1']
    (by decide)

/-- Counterexample to C15: on the tape constructed from the empty string the head
is on the only cell, and `write('0')` leaves the single cell 0, which is not
blank. -/
theorem C15_trailing_blank_counterexample :
    Tape.new [] = .ok ⟨['B'], 0⟩ ∧
    (⟨['B'], 0⟩ : Tape).applyAll [TapeOp.write '0'] = some ⟨['0'], 0⟩ ∧
    (⟨['0'], 0⟩ : Tape).tape_.getLast? = some '0' ∧ '0' ≠ BLANK :=
  ⟨rfl, by decide, by decide, by decide⟩

theorem Tape.getLast?_write (t t1 : Tape) (c : Char) (hl : t.tape_.getLast? = some BLANK)
    (hg : t.head_ + 1 = t.tape_.length → c = BLANK) (hw : t.write c = some t1) :
    t1.tape_.getLast? = some BLANK := by
  unfold Tape.write at hw
  by_cases hlt : t.head_ < t.tape_.length
  · rw [if_pos hlt] at hw
    simp only [Option.some.injEq] at hw
    subst hw
    show (t.tape_.set t.head_ c).getLast? = some BLANK
    rw [List.getLast?_eq_getElem?, List.length_set]
    by_cases he : t.head_ + 1 = t.tape_.length
    · have e : t.tape_.length - 1 = t.head_ := by omega
      rw [e, List.getElem?_set_self hlt, hg he]
    · rw [List.getElem?_set_ne (by omega), ← List.getLast?_eq_getElem?]
      exact hl
  · rw [if_neg hlt] at hw
    cases hw

theorem Tape.getLast?_move (t t1 : Tape) (dir : Char) (b : Bool) (log : List Diag)
    (hl : t.tape_.getLast? = some BLANK) (hm : t.move dir = some (b, t1, log)) :
    t1.tape_.getLast? = some BLANK := by
  unfold Tape.move at hm
  by_cases hL : dir = LEFT
  · rw [if_pos hL] at hm
    by_cases h0 : t.head_ = 0
    · rw [if_pos h0] at hm
      simp only [Option.some.injEq, Prod.mk.injEq] at hm
      rw [← hm.2.1]
      exact hl
    · rw [if_neg h0] at hm
      simp only [Option.some.injEq, Prod.mk.injEq] at hm
      rw [← hm.2.1]
      exact hl
  · rw [if_neg hL] at hm
    by_cases hR : dir = RIGHT
    · rw [if_pos hR] at hm
      by_cases hlt : t.head_ < t.tape_.length
      · rw [if_pos hlt] at hm
        by_cases he : t.head_ + 1 = t.tape_.length
        · rw [if_pos he] at hm
          simp only [Option.some.injEq, Prod.mk.injEq] at hm
          rw [← hm.2.1]
          exact List.getLast?_concat _
        · rw [if_neg he] at hm
          simp only [Option.some.injEq, Prod.mk.injEq] at hm
          rw [← hm.2.1]
          exact hl
      · rw [if_neg hlt] at hm
        cases hm
    · rw [if_neg hR] at hm
      simp only [Option.some.injEq, Prod.mk.injEq] at hm
      rw [← hm.2.1]
      exact hl

theorem Tape.getLast?_applyAll (t t1 : Tape) (ops : List TapeOp)
    (hl : t.tape_.getLast? = some BLANK) (hg : t.sparesLastCell ops = true)
    (ha : t.applyAll ops = some t1) : t1.tape_.getLast? = some BLANK := by
  induction ops generalizing t with
  | nil =>
    simp only [Tape.applyAll, Option.some.injEq] at ha
    rw [← ha]
    exact hl
  | cons op ops ih =>
    unfold Tape.applyAll at ha
    unfold Tape.sparesLastCell at hg
    rw [Bool.and_eq_true] at hg
    cases h1 : t.apply op with
    | none => rw [h1] at ha; cases ha
    | some t2 =>
      rw [h1] at ha
      have hg2 := hg.2
      rw [h1] at hg2
      refine ih t2 ?_ hg2 ha
      cases op with
      | move dir =>
        cases hm : t.move dir with
        | none => simp [Tape.apply, hm] at h1
        | some p =>
          obtain ⟨b, t3, log⟩ := p
          simp only [Tape.apply, hm, Option.some.injEq] at h1
          subst h1
          exact Tape.getLast?_move t t3 dir b log hl hm
      | write c =>
        have hg1 := hg.1
        simp only [decide_eq_true_eq] at hg1
        exact Tape.getLast?_write t t2 c hl hg1 h1
      | reset =>
        simp only [Tape.apply, Option.some.injEq] at h1
        rw [← h1]
        exact hl

/-- Claim C15, amended: every tape reached from a constructor by a finite sequence
of `move`, `write` and `reset` calls in which no `write` puts a symbol other than
blank into the last cell of the sequence has a blank last cell. -/
theorem C15_trailing_blank (s : List Char) (ops : List TapeOp)
    (hs : ∀ c ∈ s, c = '0' ∨ c = '1')
    (hg : (⟨s ++ ['B'], 0⟩ : Tape).sparesLastCell ops = true) :
    ∃ t0 t, Tape.new s = .ok t0 ∧ t0.applyAll ops = some t ∧
      t.tape_.getLast? = some 'B' := by
  have hnew := Tape.tape_new_ok s hs
  obtain ⟨t, ht, _⟩ := Tape.wf_applyAll _ ops (Tape.wf_of_new s _ hnew)
  exact ⟨_, t, hnew, ht,
    Tape.getLast?_applyAll _ t ops (List.getLast?_concat _) hg ht⟩

/-- Witness for the amended C15 at the input "0": the head writes 1 over the input
cell, runs off the right end twice, writes blank into the last cell and resets. -/
theorem C15_trailing_blank_witness :
    ∃ t0 t, Tape.new ['0'] = .ok t0 ∧
      t0.applyAll [TapeOp.write '1', TapeOp.move 'R', TapeOp.move 'R', TapeOp.move 'R',
        TapeOp.write 'B', TapeOp.reset] = some t ∧
      t.tape_.getLast? = some 'B' :=
  C15_trailing_blank ['0'] [TapeOp.write '1', TapeOp.move 'R', TapeOp.move 'R',
    TapeOp.move 'R', TapeOp.write 'B', TapeOp.reset] (by decide) (by decide)

/-! ## Validation: the order of the transition checks -/

/-- Counterexample to C16: in `order_example` the start, accept and reject states
are in Q and the second transition starts in a state outside Q, yet validation
reports the invalid motion of the first transition. -/
theorem C16_transition_order_counterexample :
    memQ order_example.Q_ order_example.q0_ ∧
    memQ order_example.Q_ order_example.qAccept_ ∧
    memQ order_example.Q_ order_example.qReject_ ∧
    (∃ t ∈ order_example.delta_, ¬ memQ order_example.Q_ t.from_) ∧
    order_example.valid_configuration = (false, [Diag.invalidDirection 'S']) := by
  decide

theorem TM.checkTransitions_cons (Q : List State) (t : Transition) (ts : List Transition) :
    TM.checkTransitions Q (t :: ts) =
      if !TM.inQ Q t.from_ then (false, [Diag.transitionFromNotInQ t.from_.name])
      else if !TM.inQ Q t.to_ then (false, [Diag.transitionToNotInQ t.to_.name])
      else if t.dir ≠ LEFT ∧ t.dir ≠ RIGHT then (false, [Diag.invalidDirection t.dir])
      else TM.checkTransitions Q ts := rfl

theorem TM.checkTransitions_append_clean (Q : List State) (pre l : List Transition)
    (hpre : ∀ u ∈ pre, memQ Q u.from_ ∧ memQ Q u.to_ ∧ (u.dir = LEFT ∨ u.dir = RIGHT)) :
    TM.checkTransitions Q (pre ++ l) = TM.checkTransitions Q l := by
  induction pre with
  | nil => rfl
  | cons u us ih =>
    obtain ⟨h1, h2, h3⟩ := hpre u (List.mem_cons_self _ _)
    have h4 : ¬ (u.dir ≠ LEFT ∧ u.dir ≠ RIGHT) := by
      rintro ⟨h5, h6⟩
      rcases h3 with h3 | h3
      · exact h5 h3
      · exact h6 h3
    rw [List.cons_append, TM.checkTransitions_cons]
    simp only [(TM.inQ_iff _ _).2 h1, (TM.inQ_iff _ _).2 h2, Bool.not_true, Bool.false_eq_true,
      if_false, if_neg h4]
    exact ih (fun v hv => hpre v (List.mem_cons_of_mem _ hv))

theorem TM.valid_configuration_of_states (tm : TM) (h0 : memQ tm.Q_ tm.q0_)
    (h1 : memQ tm.Q_ tm.qAccept_) (h2 : memQ tm.Q_ tm.qReject_) :
    tm.valid_configuration = TM.checkTransitions tm.Q_ tm.delta_ := by
  unfold TM.valid_configuration
  simp [(TM.inQ_iff _ _).2 h0, (TM.inQ_iff _ _).2 h1, (TM.inQ_iff _ _).2 h2]

/-- Claim C16, amended: when the start, accept and reject states are in Q,
validation reports the violation of the first transition in iteration order that
has one, and within that transition the from-state before the to-state before the
motion. So an endpoint outside Q is reported whenever the first violating
transition has one, whatever comes later; an invalid motion of an earlier
transition is reported first. -/
theorem C16_transition_order (tm : TM) (pre post : List Transition) (t : Transition)
    (hd : tm.delta_ = pre ++ t :: post)
    (h0 : memQ tm.Q_ tm.q0_) (h1 : memQ tm.Q_ tm.qAccept_) (h2 : memQ tm.Q_ tm.qReject_)
    (hpre : ∀ u ∈ pre, memQ tm.Q_ u.from_ ∧ memQ tm.Q_ u.to_ ∧ (u.dir = 'L' ∨ u.dir = 'R')) :
    (¬ memQ tm.Q_ t.from_ →
      tm.valid_configuration = (false, [Diag.transitionFromNotInQ t.from_.name])) ∧
    (memQ tm.Q_ t.from_ → ¬ memQ tm.Q_ t.to_ →
      tm.valid_configuration = (false, [Diag.transitionToNotInQ t.to_.name])) ∧
    (memQ tm.Q_ t.from_ → memQ tm.Q_ t.to_ → t.dir ≠ 'L' → t.dir ≠ 'R' →
      tm.valid_configuration = (false, [Diag.invalidDirection t.dir])) := by
  rw [TM.valid_configuration_of_states tm h0 h1 h2, hd,
    TM.checkTransitions_append_clean tm.Q_ pre (t :: post) hpre, TM.checkTransitions_cons]
  refine ⟨?_, ?_, ?_⟩
  · intro h3
    simp [(TM.inQ_false_iff _ _).2 h3]
  · intro h3 h4
    simp [(TM.inQ_iff _ _).2 h3, (TM.inQ_false_iff _ _).2 h4]
  · intro h3 h4 h5 h6
    have h7 : t.dir ≠ LEFT ∧ t.dir ≠ RIGHT := ⟨h5, h6⟩
    simp only [(TM.inQ_iff _ _).2 h3, (TM.inQ_iff _ _).2 h4, Bool.not_true, Bool.false_eq_true,
      if_false, if_pos h7]

/-- Witness for the amended C16 at `order_example_swapped`: the first transition
starts outside Q and a later one has the motion 'S'. -/
theorem C16_transition_order_witness :
    order_example_swapped.valid_configuration = (false, [Diag.transitionFromNotInQ "q7"]) :=
  (C16_transition_order order_example_swapped []
    [⟨11, ⟨0, "q0"⟩, ⟨0, "q0"⟩, '0', '0', 'S'⟩] ⟨10, ⟨7, "q7"⟩, ⟨0, "q0"⟩, '0', '0', 'R'⟩
    rfl (by decide) (by decide) (by decide) (by decide)).1 (by decide)

/-! ## A start state that is the accept state -/

/-- Claim C19: a machine that passes validation and whose start state is the accept
state returns true after zero transitions, whatever the reject state is: the
first loop iteration finds current == accept, nothing is written, and the tape
afterwards has the cells it had with the head at index 0. -/
theorem C19_start_is_accept (tm : TM) (hv : tm.valid_configuration.1 = true)
    (hq : tm.q0_.addr = tm.qAccept_.addr) :
    (∀ fuel, 0 < fuel → tm.run fuel = some ⟨true, ⟨tm.tape_.tape_, 0⟩, []⟩) ∧
    tm.AcceptsAt 0 := by
  have hc : tm.configAt 0 = some (tm.q0_, tm.tape_.reset) := rfl
  refine ⟨?_, tm.q0_, tm.tape_.reset, hc, hq⟩
  intro fuel hf
  rw [TM.run_of_valid tm hv]
  exact TM.loop_of_halting_step tm 0 _ _ tm.q0_ tm.tape_.reset true _ [] rfl
    (TM.loopBody_accept tm _ _ hq) fuel hf

/-- Witness for C19 at `accept_start_example`, whose accept and reject states are
both the start state. -/
theorem C19_start_is_accept_witness :
    (∀ fuel, 0 < fuel →
      accept_start_example.run fuel = some ⟨true, ⟨['0', '1', 'B'], 0⟩, []⟩) ∧
    accept_start_example.AcceptsAt 0 :=
  C19_start_is_accept accept_start_example (by decide) (by decide)

/-! ## Independence of the iteration order of the transition set -/

theorem List.find?_perm_of_unique {α : Type} (p : α → Bool) (l l1 : List α)
    (hp : l1.Perm l) (hu : ∀ a ∈ l, ∀ b ∈ l, p a = true → p b = true → a = b) :
    l1.find? p = l.find? p := by
  cases h : l.find? p with
  | none =>
    rw [List.find?_eq_none] at h ⊢
    exact fun x hx => h x (hp.mem_iff.1 hx)
  | some a =>
    have ha := List.find?_some h
    have ham := List.mem_of_find?_eq_some h
    cases h1 : l1.find? p with
    | none =>
      rw [List.find?_eq_none] at h1
      exact absurd ha (h1 a (hp.mem_iff.2 ham))
    | some b =>
      have hb := List.find?_some h1
      have hbm := hp.mem_iff.1 (List.mem_of_find?_eq_some h1)
      rw [hu b hbm a ham hb ha]

theorem TM.select_withDelta (tm : TM) (delta1 : List Transition)
    (hdet : TM.deterministic tm.delta_) (hp : delta1.Perm tm.delta_) (c : State)
    (symbol : Char) : (tm.withDelta delta1).select c symbol = tm.select c symbol := by
  unfold TM.select
  apply List.find?_perm_of_unique _ _ _ hp
  intro a ha b hb h1 h2
  simp only [Bool.and_eq_true, beq_iff_eq] at h1 h2
  exact hdet a ha b hb (h1.1.trans h2.1.symm) (h1.2.trans h2.2.symm)

theorem TM.loopBody_withDelta (tm : TM) (delta1 : List Transition)
    (hdet : TM.deterministic tm.delta_) (hp : delta1.Perm tm.delta_) (c : State) (t : Tape) :
    (tm.withDelta delta1).loopBody c t = tm.loopBody c t := by
  unfold TM.loopBody
  show (if c.addr = tm.qAccept_.addr then Step.ret true t []
    else if c.addr = tm.qReject_.addr then Step.ret false t []
    else
      match t.read with
      | none => Step.undef
      | some symbol =>
        match (tm.withDelta delta1).select c symbol with
        | none =>
          Step.ret false t [Diag.noTransition c.name symbol, TM.config t c]
        | some selected =>
          match t.write selected.write with
          | none => Step.undef
          | some tape1 =>
            match tape1.move selected.dir with
            | none => Step.undef
            | some (false, tape2, log) =>
              Step.ret false tape2 (log ++ [Diag.invalidMove, TM.config tape2 c])
            | some (true, tape2, _) => Step.next selected.to_ tape2) = _
  simp only [TM.select_withDelta tm delta1 hdet hp]

theorem TM.loop_withDelta (tm : TM) (delta1 : List Transition)
    (hdet : TM.deterministic tm.delta_) (hp : delta1.Perm tm.delta_) (fuel : Nat)
    (c : State) (t : Tape) : (tm.withDelta delta1).loop fuel c t = tm.loop fuel c t := by
  induction fuel generalizing c t with
  | zero => rfl
  | succ fuel ih =>
    rw [TM.loop_succ, TM.loop_succ, TM.loopBody_withDelta tm delta1 hdet hp]
    cases tm.loopBody c t with
    | ret b t2 log => rfl
    | undef => rfl
    | next c2 t2 => exact ih c2 t2

theorem TM.stepsFrom_withDelta (tm : TM) (delta1 : List Transition)
    (hdet : TM.deterministic tm.delta_) (hp : delta1.Perm tm.delta_) (k : Nat)
    (c : State) (t : Tape) :
    (tm.withDelta delta1).stepsFrom k c t = tm.stepsFrom k c t := by
  induction k generalizing c t with
  | zero => rfl
  | succ k ih =>
    rw [TM.stepsFrom_succ, TM.stepsFrom_succ, TM.loopBody_withDelta tm delta1 hdet hp]
    cases tm.loopBody c t with
    | ret b t2 log => rfl
    | undef => rfl
    | next c2 t2 => exact ih c2 t2

theorem TM.valid_withDelta (tm : TM) (delta1 : List Transition)
    (hv : tm.valid_configuration.1 = true) (hp : delta1.Perm tm.delta_) :
    (tm.withDelta delta1).valid_configuration.1 = true := by
  rw [TM.valid_configuration_true_iff] at hv ⊢
  obtain ⟨h0, h1, h2, h3⟩ := hv
  exact ⟨h0, h1, h2, fun t ht => h3 t (hp.mem_iff.1 ht)⟩

/-- Claim C20: for a machine that passes validation and has at most one transition
for each pair of from-state and read symbol, `run` gives the same result (the
boolean, the final cells and head index, the diagnostics) with the same fuel, and
the same configuration after any number of steps, for every iteration order of
the transition set. -/
theorem C20_order_independence (tm : TM) (delta1 : List Transition)
    (hv : tm.valid_configuration.1 = true) (hdet : TM.deterministic tm.delta_)
    (hp : delta1.Perm tm.delta_) :
    (tm.withDelta delta1).valid_configuration.1 = true ∧
    (∀ fuel, (tm.withDelta delta1).run fuel = tm.run fuel) ∧
    (∀ k, (tm.withDelta delta1).configAt k = tm.configAt k) := by
  have hv1 := TM.valid_withDelta tm delta1 hv hp
  refine ⟨hv1, ?_, ?_⟩
  · intro fuel
    rw [TM.run_of_valid tm hv, TM.run_of_valid _ hv1]
    exact TM.loop_withDelta tm delta1 hdet hp fuel _ _
  · intro k
    exact TM.stepsFrom_withDelta tm delta1 hdet hp k _ _

/-- Witness for C20 at the trailing-bit machine on the input "10" with its five
transitions iterated in the reverse order. -/
theorem C20_order_independence_witness :
    (trailing_bit_example.withDelta trailing_bit_example.delta_.reverse).valid_configuration.1
      = true ∧
    (∀ fuel, (trailing_bit_example.withDelta trailing_bit_example.delta_.reverse).run fuel =
      trailing_bit_example.run fuel) ∧
    (∀ k, (trailing_bit_example.withDelta trailing_bit_example.delta_.reverse).configAt k =
      trailing_bit_example.configAt k) :=
  C20_order_independence trailing_bit_example trailing_bit_example.delta_.reverse
    (by decide) (by decide) (List.reverse_perm _)

/-! ## Encoding -/

theorem firstDigitRun_spec (s : List Char) :
    ∃ pre post, s = pre ++ firstDigitRun s ++ post ∧
      (∀ c ∈ pre, c.isDigit = false) ∧ (∀ c ∈ firstDigitRun s, c.isDigit = true) ∧
      (∀ c, post.head? = some c → c.isDigit = false) ∧
      (firstDigitRun s = [] → ∀ c ∈ s, c.isDigit = false) := by
  refine ⟨s.takeWhile (fun c => !c.isDigit),
    (s.dropWhile (fun c => !c.isDigit)).dropWhile Char.isDigit, ?_, ?_, ?_, ?_, ?_⟩
  · unfold firstDigitRun
    rw [List.append_assoc, List.takeWhile_append_dropWhile, List.takeWhile_append_dropWhile]
  · intro c hc
    have h := List.mem_takeWhile_imp hc
    simpa using h
  · intro c hc
    exact List.mem_takeWhile_imp hc
  · intro c hc
    have h := List.head?_dropWhile_not Char.isDigit (s.dropWhile (fun c => !c.isDigit))
    rw [hc] at h
    exact h
  · intro he c hc
    unfold firstDigitRun at he
    have h := List.head?_dropWhile_not (fun c => !c.isDigit) s
    cases hd : s.dropWhile (fun c => !c.isDigit) with
    | nil =>
      have h2 := (List.dropWhile_eq_nil_iff).1 hd c hc
      simpa using h2
    | cons x r =>
      rw [hd] at h he
      simp only [List.head?_cons, Bool.not_eq_false'] at h
      simp [List.takeWhile_cons, h] at he

theorem digitsValue_nil : digitsValue [] = 0 := rfl

theorem digitsValue_concat (ds : List Char) (d : Char) :
    digitsValue (ds ++ [d]) = 10 * digitsValue ds + (d.toNat - '0'.toNat) := by
  simp [digitsValue]

theorem extract_index_ok (name : String) (hr : nameIndex name ≤ INT_MAX) :
    extract_index name = .ok (nameIndex name) := by
  unfold extract_index
  by_cases he : (firstDigitRun name.toList).isEmpty = true
  · rw [if_pos he]
    rw [List.isEmpty_iff] at he
    unfold nameIndex
    rw [he]
    rfl
  · rw [if_neg he]
    unfold stoi
    have hr1 : digitsValue (firstDigitRun name.toList) ≤ INT_MAX := hr
    rw [if_pos hr1]
    rfl

/-- Counterexample to C14: the first run of digits of the name "s18446744073709551616x7"
denotes 2^64, which no `int` holds; `std::stoi` throws and `extract_index` returns
no index. -/
theorem C14_extract_index_counterexample :
    firstDigitRun "s18446744073709551616x7".toList = "18446744073709551616".toList ∧
    digitsValue "18446744073709551616".toList = 2 ^ 64 ∧
    extract_index "s18446744073709551616x7" = .error StoiError.out_of_range :=
  ⟨by decide, by decide, rfl⟩

/-- Claim C14, amended: for every state name whose first run of digits denotes a
number that fits an `int` (at most `INT_MAX`), the index that `encode` writes for
it is the number denoted by the first maximal run of decimal digits of the name,
and 0 when the name has no digit; "q10" gives 10, "X" gives 0 and "q1x2" gives 1. -/
theorem C14_extract_index (name : String) (hr : nameIndex name ≤ INT_MAX) :
    extract_index name = .ok (digitsValue (firstDigitRun name.toList)) ∧
    (∃ pre post, name.toList = pre ++ firstDigitRun name.toList ++ post ∧
      (∀ c ∈ pre, c.isDigit = false) ∧ (∀ c ∈ firstDigitRun name.toList, c.isDigit = true) ∧
      (∀ c, post.head? = some c → c.isDigit = false)) ∧
    ((∀ c ∈ name.toList, c.isDigit = false) → extract_index name = .ok 0) ∧
    (digitsValue [] = 0 ∧ ∀ ds d, digitsValue (ds ++ [d]) =
      10 * digitsValue ds + (d.toNat - '0'.toNat)) ∧
    extract_index "q10" = .ok 10 ∧ extract_index "X" = .ok 0 ∧
    extract_index "q1x2" = .ok 1 := by
  obtain ⟨pre, post, h1, h2, h3, h4, _⟩ := firstDigitRun_spec name.toList
  refine ⟨extract_index_ok name hr, ⟨pre, post, h1, h2, h3, h4⟩, ?_,
    ⟨digitsValue_nil, digitsValue_concat⟩, rfl, rfl, rfl⟩
  intro hno
  have he : firstDigitRun name.toList = [] := by
    cases hf : firstDigitRun name.toList with
    | nil => rfl
    | cons x r =>
      have hx : x ∈ firstDigitRun name.toList := by rw [hf]; exact List.mem_cons_self _ _
      have hx1 := h3 x hx
      have hx2 : x ∈ name.toList := by
        rw [h1]
        exact List.mem_append_left _ (List.mem_append_right _ hx)
      rw [hno x hx2] at hx1
      cases hx1
  unfold extract_index
  rw [he]
  rfl

/-- Witness for the amended C14 at the name "q007b12". -/
theorem C14_extract_index_witness :
    extract_index "q007b12" = .ok (digitsValue (firstDigitRun "q007b12".toList)) ∧
    digitsValue (firstDigitRun "q007b12".toList) = 7 :=
  ⟨(C14_extract_index "q007b12" (by decide)).1, by decide⟩

theorem encode_spec_nil : encode_spec [] = [] := rfl

theorem encode_spec_singleton (t : Transition) : encode_spec [t] = quintuple t := by
  simp [encode_spec, List.intercalate]

theorem encode_spec_cons_cons (t u : Transition) (ts : List Transition) :
    encode_spec (t :: u :: ts) = quintuple t ++ [';'] ++ encode_spec (u :: ts) := by
  simp [encode_spec, List.intercalate, List.intersperse]

theorem encodeLoop_ok (first : Bool) (l : List Transition)
    (hr : ∀ t ∈ l, nameIndex t.from_.name ≤ INT_MAX ∧ nameIndex t.to_.name ≤ INT_MAX) :
    encodeLoop first l =
      .ok (if l = [] then [] else (if first then [] else [';']) ++ encode_spec l) := by
  induction l generalizing first with
  | nil => rfl
  | cons t ts ih =>
    obtain ⟨h1, h2⟩ := hr t (List.mem_cons_self _ _)
    have ih1 := ih false (fun u hu => hr u (List.mem_cons_of_mem _ hu))
    unfold encodeLoop
    rw [extract_index_ok _ h1, extract_index_ok _ h2]
    simp only
    rw [ih1, if_neg (List.cons_ne_nil _ _)]
    simp only
    cases ts with
    | nil =>
      rw [encode_spec_singleton]
      simp [quintuple]
    | cons u us =>
      rw [if_neg (List.cons_ne_nil _ _), encode_spec_cons_cons]
      simp [quintuple]

/-- Counterexample to C13: `long_name_example` has one transition whose from-state
is named "q99999999999999999999"; `std::stoi` throws on the run of twenty digits
and `encode` returns no string. -/
theorem C13_encode_format_counterexample :
    long_name_example.valid_configuration.1 = true ∧
    long_name_example.encode = .error StoiError.out_of_range :=
  ⟨by decide, rfl⟩

/-- Claim C13, amended: for every machine whose state names have a first run of
digits that fits an `int` (or no digit), `encode` returns the strings
`fromIndex#read#toIndex#write#motionBit` of the transitions in iteration order
joined by ';': the empty string for the empty set, no leading or trailing ';',
motion bit 0 for LEFT and 1 for RIGHT; the machine of Test 4 encodes to
"0#0#1#1#1" wherever its objects are allocated. -/
theorem C13_encode_format :
    (∀ tm : TM,
      (∀ t ∈ tm.delta_, nameIndex t.from_.name ≤ INT_MAX ∧ nameIndex t.to_.name ≤ INT_MAX) →
      tm.encode = .ok (encode_spec tm.delta_)) ∧
    encode_spec [] = [] ∧
    (∀ t, encode_spec [t] = quintuple t) ∧
    (∀ t u ts, encode_spec (t :: u :: ts) = quintuple t ++ [';'] ++ encode_spec (u :: ts)) ∧
    (∀ t, ∃ bit, quintuple t =
        int_to_chars (nameIndex t.from_.name) ++ ['#', t.read, '#'] ++
          int_to_chars (nameIndex t.to_.name) ++ ['#', t.write, '#', bit] ∧
        (t.dir = 'L' → bit = '0') ∧ (t.dir = 'R' → bit = '1')) ∧
    (∀ a0 a1 aReject aT : Nat, ∃ tm, test_Encoding a0 a1 aReject aT = .ok tm ∧
      tm.encode = .ok "0#0#1#1#1".toList) := by
  refine ⟨?_, encode_spec_nil, encode_spec_singleton, encode_spec_cons_cons, ?_, ?_⟩
  · intro tm hr
    unfold TM.encode
    rw [encodeLoop_ok true tm.delta_ hr]
    by_cases he : tm.delta_ = []
    · rw [if_pos he, he]
      rfl
    · rw [if_neg he]
      rfl
  · intro t
    refine ⟨if t.dir = LEFT then '0' else '1', ?_, ?_, ?_⟩
    · simp [quintuple]
    · intro h
      have hL : t.dir = LEFT := h
      rw [if_pos hL]
    · intro h
      have hRL : t.dir ≠ LEFT := by rw [h]; decide
      rw [if_neg hRL]
  · intro a0 a1 aReject aT
    refine ⟨_, rfl, ?_⟩
    show encodeLoop true [⟨aT, ⟨a0, "q0"⟩, ⟨a1, "q1"⟩, ZERO, ONE, RIGHT⟩] = _
    have hr : ∀ t ∈ [(⟨aT, ⟨a0, "q0"⟩, ⟨a1, "q1"⟩, ZERO, ONE, RIGHT⟩ : Transition)],
        nameIndex t.from_.name ≤ INT_MAX ∧ nameIndex t.to_.name ≤ INT_MAX := by
      intro t ht
      rw [List.mem_singleton] at ht
      subst ht
      exact ⟨show nameIndex "q0" ≤ INT_MAX by decide, show nameIndex "q1" ≤ INT_MAX by decide⟩
    rw [encodeLoop_ok true _ hr, if_neg (List.cons_ne_nil _ _), encode_spec_singleton]
    show Except.ok ([] ++ (int_to_chars (nameIndex "q0") ++ ['#'] ++ [ZERO] ++ ['#'] ++
      int_to_chars (nameIndex "q1") ++ ['#'] ++ [ONE] ++ ['#'] ++
      [if RIGHT = LEFT then '0' else '1'])) = _
    rfl

/-- Witness for the amended C13 at the trailing-bit machine, whose state names are
q0, qAccept, qReject and X. -/
theorem C13_encode_format_witness :
    trailing_bit_example.encode = .ok (encode_spec trailing_bit_example.delta_) ∧
    encode_spec trailing_bit_example.delta_ =
      "0#0#0#0#1;0#1#0#1#1;0#B#0#B#0;0#1#0#1#1;0#0#0#0#1".toList :=
  ⟨C13_encode_format.1 trailing_bit_example (by decide), by decide⟩

/-! ## The original implementation -/

/-- Claim C17 evaluated on the original: the machine of scenario C, whose only
transition is (q0,0) -> (accept,0,LEFT), passes the checks of the original `run`
on the input "0"; the left move at head index 0 fails, the original writes the
lines "Invalid move" and the configuration, goes on with current = accept and
returns true.  On the same machine `run` of `src/TM.cpp` returns false. -/
theorem C17_original_failed_move :
    Original.scenario_C 0 1 2 9 = .ok move_off_left_example ∧
    Original.TM.checks move_off_left_example = none ∧
    Original.Tape.move ⟨['0', 'B'], 0⟩ 'L' = some (false, ⟨['0', 'B'], 0⟩, []) ∧
    Original.TM.run move_off_left_example 2 =
      some ⟨true, ⟨['0', 'B'], 0⟩,
        [Original.Diag.invalidMove, Original.TM.config ⟨['0', 'B'], 0⟩ ⟨0, "q0"⟩]⟩ ∧
    (move_off_left_example.run 2).map RunResult.ret = some false :=
  ⟨rfl, by decide, by decide, by decide, by decide⟩

theorem Original.preprocess_true (input : List Char)
    (h : ∀ c ∈ input, c = ZERO ∨ c = ONE) : Original.Tape._Preprocess input = true := by
  induction input with
  | nil => rfl
  | cons c cs ih =>
    unfold Original.Tape._Preprocess
    rw [if_pos (h c (List.mem_cons_self _ _))]
    exact ih (fun d hd => h d (List.mem_cons_of_mem _ hd))

theorem Original.tape_new_of_binary (input : List Char)
    (h : ∀ c ∈ input, c = ZERO ∨ c = ONE) :
    Original.Tape.new input = .ok ⟨input ++ [BLANK], 0⟩ := by
  unfold Original.Tape.new
  rw [Original.preprocess_true input h]
  rfl

theorem Original.moves_right_within (k : Nat) (t : Tape)
    (h : t.head_ + k ≤ t.tape_.length) :
    Original.Tape.moves RIGHT k t =
      some (List.replicate k true, ⟨t.tape_, t.head_ + k⟩) := by
  induction k generalizing t with
  | zero => rfl
  | succ k ih =>
    have hRL : RIGHT ≠ LEFT := by decide
    have hlt : t.head_ < t.tape_.length := by omega
    have hm : Original.Tape.move t RIGHT = some (true, ⟨t.tape_, t.head_ + 1⟩, []) := by
      simp [Original.Tape.move, hRL, hlt]
    unfold Original.Tape.moves
    rw [hm]
    simp only
    rw [ih ⟨t.tape_, t.head_ + 1⟩ (by simp only; omega)]
    have e : t.head_ + 1 + k = t.head_ + (k + 1) := by omega
    simp only [e, List.replicate_succ]

/-- Claim C18 evaluated on the original: on the tape constructed from any input
`w` over {0,1}, `|w| + 1` calls `move(RIGHT)` all return true, but the last one
moves the head from the last cell onto the past-the-end position: no cell is
appended, the head index equals the length of the sequence, `read` is undefined
there and so is a further `move(RIGHT)`. -/
theorem C18_original_right_move (w : List Char) (hw : ∀ c ∈ w, c = '0' ∨ c = '1') :
    ∃ t0 t, Original.Tape.new w = .ok t0 ∧
      Original.Tape.moves 'R' (w.length + 1) t0 =
        some (List.replicate (w.length + 1) true, t) ∧
      t.tape_ = w ++ ['B'] ∧ t.head_ = t.tape_.length ∧ ¬ t.head_ < t.tape_.length ∧
      t.read = none ∧ Original.Tape.move t 'R' = none := by
  have hm := Original.moves_right_within (w.length + 1) ⟨w ++ [BLANK], 0⟩ (by simp)
  have hlen : (w ++ [BLANK]).length = 0 + (w.length + 1) := by simp
  refine ⟨_, _, Original.tape_new_of_binary w hw, hm, rfl, hlen.symm, ?_, ?_, ?_⟩
  · show ¬ 0 + (w.length + 1) < (w ++ [BLANK]).length
    omega
  · show (w ++ [BLANK])[0 + (w.length + 1)]? = none
    rw [List.getElem?_eq_none (by omega)]
  · have hRL : RIGHT ≠ LEFT := by decide
    have hnlt : ¬ 0 + (w.length + 1) < (w ++ [BLANK]).length := by omega
    show Original.Tape.move ⟨w ++ [BLANK], 0 + (w.length + 1)⟩ RIGHT = none
    simp only [Original.Tape.move, hRL, if_false, hnlt]
    rfl

/-- Witness for C18 at the empty input: one right move on the tape "B". -/
theorem C18_original_right_move_witness :
    ∃ t0 t, Original.Tape.new [] = .ok t0 ∧
      Original.Tape.moves 'R' (([] : List Char).length + 1) t0 =
        some (List.replicate (([] : List Char).length + 1) true, t) ∧
      t.tape_ = [] ++ ['B'] ∧ t.head_ = t.tape_.length ∧ ¬ t.head_ < t.tape_.length ∧
      t.read = none ∧ Original.Tape.move t 'R' = none :=
  C18_original_right_move [] (by decide)

/-! ## A faulting run keeps its last write -/

/-- Claim C22: in a valid machine whose start state is neither accept nor reject
and whose transition selected for q0 and the symbol in cell 0 moves left, `run`
returns false and leaves the tape with the head at index 0, cell 0 holding the
write symbol of that transition (the write is not rolled back), the same number
of cells and every other cell unchanged. -/
theorem C22_fault_keeps_write (tm : TM) (symbol : Char) (selected : Transition)
    (hv : tm.valid_configuration.1 = true)
    (ha : tm.q0_.addr ≠ tm.qAccept_.addr) (hr : tm.q0_.addr ≠ tm.qReject_.addr)
    (hcell : tm.tape_.tape_[0]? = some symbol)
    (hsel : tm.select tm.q0_ symbol = some selected) (hdir : selected.dir = 'L') :
    ∀ fuel, 0 < fuel → ∃ r, tm.run fuel = some r ∧ r.ret = false ∧
      r.tape.head_ = 0 ∧ r.tape.tape_[0]? = some selected.write ∧
      r.tape.tape_.length = tm.tape_.tape_.length ∧
      ∀ i, 0 < i → r.tape.tape_[i]? = tm.tape_.tape_[i]? := by
  intro fuel hf
  have hrun := TM.run_of_left_at_origin tm 0 tm.q0_ tm.tape_.reset symbol selected hv rfl ha hr
    hcell hsel hdir rfl fuel hf
  have hlt : 0 < tm.tape_.tape_.length := by
    by_contra hn
    rw [List.getElem?_eq_none (by omega)] at hcell
    cases hcell
  refine ⟨_, hrun, rfl, rfl, ?_, ?_, ?_⟩
  · show (tm.tape_.tape_.set 0 selected.write)[0]? = some selected.write
    exact List.getElem?_set_self hlt
  · show (tm.tape_.tape_.set 0 selected.write).length = tm.tape_.tape_.length
    exact List.length_set _ _ _
  · intro i hi
    show (tm.tape_.tape_.set 0 selected.write)[i]? = tm.tape_.tape_[i]?
    exact List.getElem?_set_ne (by omega)

/-- Witness for C22 at `faulting_write_example`: the run on "01B" returns false and
leaves "11B" with the head at index 0. -/
theorem C22_fault_keeps_write_witness :
    ∃ r, faulting_write_example.run 1 = some r ∧ r.ret = false ∧
      r.tape.head_ = 0 ∧ r.tape.tape_[0]? = some '1' ∧
      r.tape.tape_.length = 3 ∧
      ∀ i, 0 < i → r.tape.tape_[i]? = (['0', '1', 'B'] : List Char)[i]? :=
  C22_fault_keeps_write faulting_write_example '0'
    ⟨10, ⟨0, "q0"⟩, ⟨3, "q1"⟩, '0', '1', 'L'⟩ (by decide) (by decide) (by decide)
    (by decide) (by decide) (by decide) 1 (by decide)

/-! ## Decimal numerals -/

theorem toDigitsCore_append (fuel n : Nat) (ds : List Char) :
    Nat.toDigitsCore 10 fuel n ds = Nat.toDigitsCore 10 fuel n [] ++ ds := by
  induction fuel generalizing n ds with
  | zero => rfl
  | succ fuel ih =>
    unfold Nat.toDigitsCore
    by_cases h : n / 10 = 0
    · simp [h]
    · simp only [h, if_false]
      rw [ih (n / 10) (Nat.digitChar (n % 10) :: ds), ih (n / 10) [Nat.digitChar (n % 10)]]
      simp

theorem digitChar_lt_ten (d : Nat) (h : d < 10) :
    (Nat.digitChar d).toNat - '0'.toNat = d ∧ (Nat.digitChar d).isDigit = true := by
  interval_cases d <;> exact ⟨by decide, by decide⟩

theorem toDigitsCore_succ (fuel n : Nat) :
    Nat.toDigitsCore 10 (fuel + 1) n [] =
      if n / 10 = 0 then [Nat.digitChar (n % 10)]
      else Nat.toDigitsCore 10 fuel (n / 10) [] ++ [Nat.digitChar (n % 10)] := by
  conv_lhs => unfold Nat.toDigitsCore
  by_cases h : n / 10 = 0
  · simp [h]
  · simp only [h, if_false]
    exact toDigitsCore_append fuel (n / 10) [Nat.digitChar (n % 10)]

theorem digitsValue_toDigitsCore (fuel n : Nat) (h : n < fuel) :
    digitsValue (Nat.toDigitsCore 10 fuel n []) = n := by
  induction fuel generalizing n with
  | zero => omega
  | succ fuel ih =>
    rw [toDigitsCore_succ]
    have hd := (digitChar_lt_ten (n % 10) (Nat.mod_lt _ (by decide))).1
    by_cases h0 : n / 10 = 0
    · rw [if_pos h0]
      have e : digitsValue [Nat.digitChar (n % 10)] =
          10 * digitsValue [] + ((Nat.digitChar (n % 10)).toNat - '0'.toNat) :=
        digitsValue_concat [] _
      rw [e, hd, digitsValue_nil]
      omega
    · rw [if_neg h0, digitsValue_concat, hd, ih (n / 10) (by omega)]
      omega

theorem isDigit_toDigitsCore (fuel n : Nat) :
    ∀ c ∈ Nat.toDigitsCore 10 fuel n [], c.isDigit = true := by
  induction fuel generalizing n with
  | zero => simp [Nat.toDigitsCore]
  | succ fuel ih =>
    rw [toDigitsCore_succ]
    have hd := (digitChar_lt_ten (n % 10) (Nat.mod_lt _ (by decide))).2
    by_cases h0 : n / 10 = 0
    · rw [if_pos h0]
      intro c hc
      rw [List.mem_singleton] at hc
      rw [hc]
      exact hd
    · rw [if_neg h0]
      intro c hc
      rcases List.mem_append.1 hc with h1 | h1
      · exact ih (n / 10) c h1
      · rw [List.mem_singleton] at h1
        rw [h1]
        exact hd

/-- Reading back the characters printed for an `int` gives the number. -/
theorem digitsValue_int_to_chars (n : Nat) : digitsValue (int_to_chars n) = n :=
  digitsValue_toDigitsCore (n + 1) n (Nat.lt_succ_self n)

theorem isDigit_int_to_chars (n : Nat) : ∀ c ∈ int_to_chars n, c.isDigit = true :=
  isDigit_toDigitsCore (n + 1) n

theorem int_to_chars_injective (m n : Nat) (h : int_to_chars m = int_to_chars n) : m = n := by
  rw [← digitsValue_int_to_chars m, ← digitsValue_int_to_chars n, h]

theorem digits_prefix_unique (D D1 X X1 : List Char)
    (hD : ∀ c ∈ D, c.isDigit = true) (hD1 : ∀ c ∈ D1, c.isDigit = true)
    (h : D ++ '#' :: X = D1 ++ '#' :: X1) : D = D1 ∧ X = X1 := by
  have hs : ('#' : Char).isDigit = false := by decide
  induction D generalizing D1 with
  | nil =>
    cases D1 with
    | nil =>
      simp only [List.nil_append, List.cons.injEq, true_and] at h
      exact ⟨rfl, h⟩
    | cons c cs =>
      simp only [List.nil_append, List.cons_append, List.cons.injEq] at h
      have hc := hD1 c (List.mem_cons_self _ _)
      rw [← h.1, hs] at hc
      cases hc
  | cons d ds ih =>
    cases D1 with
    | nil =>
      simp only [List.nil_append, List.cons_append, List.cons.injEq] at h
      have hc := hD d (List.mem_cons_self _ _)
      rw [h.1, hs] at hc
      cases hc
    | cons c cs =>
      simp only [List.cons_append, List.cons.injEq] at h
      obtain ⟨h1, h2⟩ := ih cs (fun x hx => hD x (List.mem_cons_of_mem _ hx))
        (fun x hx => hD1 x (List.mem_cons_of_mem _ hx)) h.2
      exact ⟨by rw [h.1, h1], h2⟩

/-! ## The encoding can be decoded -/

theorem quintuple_append (t : Transition) (R : List Char) :
    quintuple t ++ R =
      int_to_chars (nameIndex t.from_.name) ++ '#' :: t.read :: '#' ::
        (int_to_chars (nameIndex t.to_.name) ++ '#' :: t.write :: '#' ::
          (if t.dir = LEFT then '0' else '1') :: R) := by
  simp [quintuple]

theorem quintuple_append_injective (t u : Transition) (R S : List Char)
    (ht : t.dir = LEFT ∨ t.dir = RIGHT) (hu : u.dir = LEFT ∨ u.dir = RIGHT)
    (h : quintuple t ++ R = quintuple u ++ S) : t.fields = u.fields ∧ R = S := by
  rw [quintuple_append, quintuple_append] at h
  obtain ⟨h1, h2⟩ := digits_prefix_unique _ _ _ _ (isDigit_int_to_chars _)
    (isDigit_int_to_chars _) h
  simp only [List.cons.injEq] at h2
  obtain ⟨hread, _, h3⟩ := h2
  obtain ⟨h4, h5⟩ := digits_prefix_unique _ _ _ _ (isDigit_int_to_chars _)
    (isDigit_int_to_chars _) h3
  simp only [List.cons.injEq] at h5
  obtain ⟨hwrite, _, hbit, hrest⟩ := h5
  have hRL : RIGHT ≠ LEFT := by decide
  have hdir : t.dir = u.dir := by
    rcases ht with ht | ht <;> rcases hu with hu | hu
    · rw [ht, hu]
    · rw [ht, hu, if_pos rfl, if_neg hRL] at hbit
      exact absurd hbit (by decide)
    · rw [ht, hu, if_pos rfl, if_neg hRL] at hbit
      exact absurd hbit (by decide)
    · rw [ht, hu]
  refine ⟨?_, hrest⟩
  unfold Transition.fields
  rw [int_to_chars_injective _ _ h1, int_to_chars_injective _ _ h4, hread, hwrite, hdir]

theorem encode_spec_cons (t : Transition) (ts : List Transition) :
    encode_spec (t :: ts) =
      quintuple t ++ (if ts = [] then [] else ';' :: encode_spec ts) := by
  cases ts with
  | nil => rw [encode_spec_singleton, if_pos rfl, List.append_nil]
  | cons u us =>
    rw [encode_spec_cons_cons, if_neg (List.cons_ne_nil _ _)]
    simp

theorem encode_spec_cons_ne_nil (t : Transition) (ts : List Transition) :
    encode_spec (t :: ts) ≠ [] := by
  rw [encode_spec_cons, quintuple_append]
  intro h
  have hl := congrArg List.length h
  simp at hl

theorem encode_spec_fields (l1 l2 : List Transition)
    (h1 : ∀ t ∈ l1, t.dir = LEFT ∨ t.dir = RIGHT) (h2 : ∀ t ∈ l2, t.dir = LEFT ∨ t.dir = RIGHT)
    (h : encode_spec l1 = encode_spec l2) :
    l1.map Transition.fields = l2.map Transition.fields := by
  induction l1 generalizing l2 with
  | nil =>
    cases l2 with
    | nil => rfl
    | cons u us =>
      rw [encode_spec_nil] at h
      exact absurd h.symm (encode_spec_cons_ne_nil u us)
  | cons t ts ih =>
    cases l2 with
    | nil =>
      rw [encode_spec_nil] at h
      exact absurd h (encode_spec_cons_ne_nil t ts)
    | cons u us =>
      rw [encode_spec_cons, encode_spec_cons] at h
      obtain ⟨hf, hrest⟩ := quintuple_append_injective t u _ _
        (h1 t (List.mem_cons_self _ _)) (h2 u (List.mem_cons_self _ _)) h
      have htail : encode_spec ts = encode_spec us := by
        by_cases e1 : ts = []
        · by_cases e2 : us = []
          · rw [e1, e2]
          · rw [if_pos e1, if_neg e2] at hrest
            cases hrest
        · by_cases e2 : us = []
          · rw [if_neg e1, if_pos e2] at hrest
            cases hrest
          · rw [if_neg e1, if_neg e2] at hrest
            simp only [List.cons.injEq, true_and] at hrest
            exact hrest
      rw [List.map_cons, List.map_cons, hf,
        ih us (fun x hx => h1 x (List.mem_cons_of_mem _ hx))
          (fun x hx => h2 x (List.mem_cons_of_mem _ hx)) htail]

theorem firstDigitRun_q_digits (ds : List Char) (hne : ds ≠ [])
    (hd : ∀ c ∈ ds, c.isDigit = true) : firstDigitRun ('q' :: ds) = ds := by
  cases ds with
  | nil => exact absurd rfl hne
  | cons d r =>
    have hq : ('q' : Char).isDigit = false := by decide
    have hd0 : d.isDigit = true := hd d (List.mem_cons_self _ _)
    unfold firstDigitRun
    have e1 : List.dropWhile (fun c => !c.isDigit) ('q' :: d :: r) = d :: r := by
      simp [List.dropWhile_cons, hq, hd0]
    rw [e1, List.takeWhile_eq_self_iff]
    exact hd

theorem nameIndex_of_wellNamed (name : String) (h : wellNamed name = true) :
    ∃ ds, name.toList = 'q' :: ds ∧ canonicalNumeral ds = true ∧
      nameIndex name = digitsValue ds ∧ nameIndex name ≤ INT_MAX := by
  unfold wellNamed at h
  split at h
  · rename_i ds hname
    rw [Bool.and_eq_true, decide_eq_true_eq] at h
    obtain ⟨hc, hle⟩ := h
    have hc1 := hc
    unfold canonicalNumeral at hc1
    simp only [Bool.and_eq_true, Bool.not_eq_true', List.isEmpty_eq_false, List.all_eq_true]
      at hc1
    have hi : nameIndex name = digitsValue ds := by
      unfold nameIndex
      rw [hname, firstDigitRun_q_digits ds hc1.1.1 hc1.1.2]
    exact ⟨ds, hname, hc, hi, by rw [hi]; exact hle⟩
  · cases h

theorem Transition.wellNamed_spec (t : Transition) (h : t.wellNamed = true) :
    nameIndex t.from_.name ≤ INT_MAX ∧ nameIndex t.to_.name ≤ INT_MAX ∧
      (t.dir = LEFT ∨ t.dir = RIGHT) := by
  unfold Transition.wellNamed at h
  simp only [Bool.and_eq_true, Bool.or_eq_true, beq_iff_eq] at h
  obtain ⟨⟨⟨⟨hf, ht⟩, _⟩, _⟩, hd⟩ := h
  obtain ⟨_, _, _, _, h1⟩ := nameIndex_of_wellNamed _ hf
  obtain ⟨_, _, _, _, h2⟩ := nameIndex_of_wellNamed _ ht
  exact ⟨h1, h2, hd⟩

theorem TM.encode_of_wellNamed (tm : TM) (h : ∀ t ∈ tm.delta_, t.wellNamed = true) :
    tm.encode = .ok (encode_spec tm.delta_) := by
  unfold TM.encode
  rw [encodeLoop_ok true tm.delta_ (fun t ht =>
    ⟨(Transition.wellNamed_spec t (h t ht)).1, (Transition.wellNamed_spec t (h t ht)).2.1⟩)]
  by_cases he : tm.delta_ = []
  · rw [if_pos he, he]
    rfl
  · rw [if_neg he]
    rfl

/-- Claim C21: for two machines whose transitions run between states named 'q'
followed by the canonical decimal numeral of a number within the `int` range,
with read and write symbols in {0, 1, B} and motions in {L, R}, `encode` returns
a string for each, and if the two strings are equal then the transition lists
have the same length and agree position by position on from index, read symbol,
to index, write symbol and motion. -/
theorem C21_encode_decodable (tm1 tm2 : TM)
    (h1 : ∀ t ∈ tm1.delta_, t.wellNamed = true) (h2 : ∀ t ∈ tm2.delta_, t.wellNamed = true)
    (he : tm1.encode = tm2.encode) :
    (∃ s, tm1.encode = .ok s ∧ tm2.encode = .ok s) ∧
    tm1.delta_.length = tm2.delta_.length ∧
    ∀ i : Nat,
      (tm1.delta_[i]?).map Transition.fields = (tm2.delta_[i]?).map Transition.fields := by
  have e1 := TM.encode_of_wellNamed tm1 h1
  have e2 := TM.encode_of_wellNamed tm2 h2
  rw [e1, e2] at he
  have hs : encode_spec tm1.delta_ = encode_spec tm2.delta_ := by
    injection he
  have hm := encode_spec_fields tm1.delta_ tm2.delta_
    (fun t ht => (Transition.wellNamed_spec t (h1 t ht)).2.2)
    (fun t ht => (Transition.wellNamed_spec t (h2 t ht)).2.2) hs
  refine ⟨⟨_, e1, by rw [e2, hs]⟩, ?_, ?_⟩
  · have hl := congrArg List.length hm
    simpa using hl
  · intro i
    rw [← List.getElem?_map, ← List.getElem?_map, hm]

/-- Witness for C21 at two machines over the states q0, q12 and q3 whose
transitions are different objects (addresses 10, 11 and 20, 21) with the same
contents. -/
theorem C21_encode_decodable_witness :
    (∃ s, (well_named_example 10).encode = .ok s ∧ (well_named_example 20).encode = .ok s) ∧
    (well_named_example 10).delta_.length = (well_named_example 20).delta_.length ∧
    ∀ i : Nat, ((well_named_example 10).delta_[i]?).map Transition.fields =
      ((well_named_example 20).delta_[i]?).map Transition.fields :=
  C21_encode_decodable (well_named_example 10) (well_named_example 20)
    (by decide) (by decide) rfl

end UTM
